import Mathlib

/-! Buffer cache of `kernel/bio.c` (hash-bucket version with global LRU eviction).

Shallow embedding of `binit`, `bget`, `bread`, `bwrite`, `brelse`, `bpin` and `bunpin`.

* `struct buf buf[NBUF]` is a list of `Buf` records; a `struct buf *` is the index of the slot.
* A bucket chain `bufmap[i].next -> ... -> 0` is the list of the slot indices met when following
  the `next` pointers from the bucket head.
* Unsigned 32-bit fields are natural numbers, arithmetic on them is taken modulo `2 ^ 32`.
* Every call runs from its entry to its exit without interleaving.  A call can end in three ways:
  it returns, it panics, or it goes to sleep inside `acquiresleep`.
-/

namespace Bio

/-! ## Data model -/

/-- Number of hash buckets (`#define NBUFMAP_BUCKET 13`). -/
def NBUFMAP_BUCKET : Nat := 13

/-- Modelled from the spec: the constant `NBUF` of `kernel/param.h`, which is not among the
sources; the spec describes a pool of 30 slots. -/
def NBUF : Nat := 30

/-- Modelled from the spec: the range of the type `uint` of `kernel/types.h`, which is not among
the sources: an unsigned integer of 32 bits, so that values are taken modulo `2 ^ 32`. -/
def UINT : Nat := 2 ^ 32

/-- The macro `BUFMAP_HASH(dev, blockno) ((((dev)<<27)|(blockno))%NBUFMAP_BUCKET)` on `uint`
operands: the shift and the bitwise or are 32-bit operations. -/
def BUFMAP_HASH (dev blockno : Nat) : Nat :=
  (((dev <<< 27) ||| blockno) % UINT) % NBUFMAP_BUCKET

/-- Modelled from the spec: `struct buf` of `kernel/buf.h`, which is not among the sources.  The
fields are the attributes of a cache slot that `bio.c` reads and writes: the validity flag
(`int`), the device id, the block number, the reference count and the last-release time stamp
(`uint`) and the exclusive blocking lock.  The payload is left out and the `next` pointer is
kept in the bucket chains.  The lock (`kernel/sleeplock.c` is not among the sources either) is
`none` when it is free and `some pid` when the caller `pid` holds it. -/
structure Buf where
  valid : Nat
  dev : Nat
  blockno : Nat
  lock : Option Nat
  refcnt : Nat
  lastuse : Nat
deriving DecidableEq

/-- A zeroed `struct buf` (static storage is zero-initialised). -/
def zeroBuf : Buf := ⟨0, 0, 0, none, 0, 0⟩

/-- The global `bcache` together with the log of the driver calls `virtio_disk_rw(b, write)`
(most recent call last). -/
structure Bcache where
  buf : List Buf
  bufmap : List (List Nat)
  disk : List (Nat × Nat)
deriving DecidableEq

/-- Apply `f` to the element at index `n` of a list (no effect when `n` is out of range). -/
def modAt {α : Type} (f : α → α) : Nat → List α → List α
  | _, [] => []
  | 0, x :: xs => f x :: xs
  | n + 1, x :: xs => x :: modAt f n xs

/-- Read the slot `bcache.buf[b]`. -/
def Bcache.get (s : Bcache) (b : Nat) : Buf := s.buf.getD b zeroBuf

/-- Write fields of the slot `bcache.buf[b]`. -/
def Bcache.upd (s : Bcache) (b : Nat) (f : Buf → Buf) : Bcache :=
  { s with buf := modAt f b s.buf }

/-- The chain of bucket `i`: the slots reached from `bcache.bufmap[i].next`. -/
def Bcache.chain (s : Bcache) (i : Nat) : List Nat := s.bufmap.getD i []

/-- All slots in the order of the eviction scan: buckets `0 .. 12`, each chain from head to
tail. -/
def Bcache.scanOrder (s : Bcache) : List Nat :=
  (List.range NBUFMAP_BUCKET).flatMap (fun i => s.chain i)

/-! ## `binit` -/

/-- The zero-initialised `bcache` before `binit` runs. -/
def bcache0 : Bcache :=
  { buf := List.replicate NBUF zeroBuf
    bufmap := List.replicate NBUFMAP_BUCKET []
    disk := [] }

/-- The function `binit`: every bucket is emptied, then every slot gets a free lock,
`lastuse = 0`, `refcnt = 0` and is pushed at the head of bucket 0. -/
def binit (s : Bcache) : Bcache :=
  (List.range NBUF).foldl
    (fun (t : Bcache) (i : Nat) =>
      { t.upd i (fun x => { x with lock := none, lastuse := 0, refcnt := 0 }) with
        bufmap := modAt (fun c => i :: c) 0 t.bufmap })
    { s with bufmap := List.replicate NBUFMAP_BUCKET [] }

/-! ## `bget` -/

/-- How a call of `bget` or `bread` ends. -/
inductive BgetResult where
  /-- The call ended in `panic("bget: no buffers")`. -/
  | panic : BgetResult
  /-- The caller sleeps in `acquiresleep(&b->lock)`: the lock of slot `b` is held. -/
  | sleep : Bcache → Nat → BgetResult
  /-- The call returned slot `b`, locked by the caller. -/
  | ret : Bcache → Nat → BgetResult
deriving DecidableEq

/-- The loop `for(b = bcache.bufmap[key].next; b; b = b->next)` with the test
`b->dev == dev && b->blockno == blockno`: the first slot of the chain that carries the
identity. -/
def lookup (s : Bcache) (key dev blockno : Nat) : Option Nat :=
  (s.chain key).find? (fun b => (s.get b).dev == dev && (s.get b).blockno == blockno)

/-- The candidate kept by the eviction scan: `bucket` is `holding_bucket`, `pos` is the position
of `before_least->next` in the chain of that bucket and `slot` is `before_least->next`. -/
structure Cand where
  bucket : Nat
  pos : Nat
  slot : Nat
deriving DecidableEq

/-- The test `!before_least || b->next->lastuse < before_least->next->lastuse`. -/
def older (s : Bcache) (b : Nat) : Option Cand → Bool
  | none => true
  | some c => decide ((s.get b).lastuse < (s.get c.slot).lastuse)

/-- The inner loop `for(b = &bcache.bufmap[i]; b->next; b = b->next)` over the chain of bucket
`i`, started at position `j` with the candidate `best`. -/
def scanChain (s : Bcache) (i : Nat) : List Nat → Nat → Option Cand → Option Cand
  | [], _, best => best
  | b :: rest, j, best =>
    scanChain s i rest (j + 1)
      (if (s.get b).refcnt == 0 && older s b best then some ⟨i, j, b⟩ else best)

/-- The outer loop `for(int i = 0; i < NBUFMAP_BUCKET; i++)` over the listed buckets. -/
def scanBuckets (s : Bcache) : List Nat → Option Cand → Option Cand
  | [], best => best
  | i :: is, best => scanBuckets s is (scanChain s i (s.chain i) 0 best)

/-- The whole eviction scan, started with `before_least = 0`. -/
def findVictim (s : Bcache) : Option Cand :=
  scanBuckets s (List.range NBUFMAP_BUCKET) none

/-- Modelled from the spec: `acquiresleep(&b->lock)` for the caller `pid`
(`kernel/sleeplock.c` is not among the sources): the caller takes the lock when it is free and
is suspended when it is held. -/
def acquiresleep (s : Bcache) (pid b : Nat) : BgetResult :=
  match (s.get b).lock with
  | none => BgetResult.ret (s.upd b (fun x => { x with lock := some pid })) b
  | some _ => BgetResult.sleep s b

/-- The statement `b->refcnt++` on a `uint`. -/
def incref (s : Bcache) (b : Nat) : Bcache :=
  s.upd b (fun x => { x with refcnt := (x.refcnt + 1) % UINT })

/-- The statement `b->refcnt--` on a `uint`. -/
def decref (s : Bcache) (b : Nat) : Bcache :=
  s.upd b (fun x => { x with refcnt := (x.refcnt + UINT - 1) % UINT })

/-- Unlink the candidate from its bucket and push it at the head of bucket `key`
(`before_least->next = b->next; b->next = bcache.bufmap[key].next;
bcache.bufmap[key].next = b`). -/
def relink (s : Bcache) (c : Cand) (key : Nat) : Bcache :=
  { s with
    bufmap := modAt (fun l => c.slot :: l) key (modAt (fun l => l.eraseIdx c.pos) c.bucket s.bufmap) }

/-- The end of the miss path for the candidate `c`: move it to the target bucket when
`holding_bucket != key`, then overwrite its identity
(`b->dev = dev; b->blockno = blockno; b->refcnt = 1; b->valid = 0`). -/
def rebind (s : Bcache) (dev blockno : Nat) (c : Cand) : Bcache :=
  (if c.bucket ≠ BUFMAP_HASH dev blockno then relink s c (BUFMAP_HASH dev blockno) else s).upd
    c.slot (fun x => { x with dev := dev, blockno := blockno, refcnt := 1, valid := 0 })

/-- The function `bget(dev, blockno)` called by `pid`: look the identity up in the target bucket,
look it up a second time under the eviction lock, and otherwise rebind the candidate found by the
scan of all buckets, or panic when there is none.  Every returning path ends with
`acquiresleep(&b->lock)`. -/
def bget (s : Bcache) (pid dev blockno : Nat) : BgetResult :=
  let key := BUFMAP_HASH dev blockno
  match lookup s key dev blockno with
  | some b => acquiresleep (incref s b) pid b
  | none =>
    match lookup s key dev blockno with
    | some b => acquiresleep (incref s b) pid b
    | none =>
      match findVictim s with
      | none => BgetResult.panic
      | some c => acquiresleep (rebind s dev blockno c) pid c.slot

/-! ## `bread`, `bwrite`, `brelse`, `bpin`, `bunpin` -/

/-- The function `bread(dev, blockno)`: `bget`, then one driver read
`virtio_disk_rw(b, 0)` and `b->valid = 1` when `!b->valid`. -/
def bread (s : Bcache) (pid dev blockno : Nat) : BgetResult :=
  match bget s pid dev blockno with
  | BgetResult.panic => BgetResult.panic
  | BgetResult.sleep t b => BgetResult.sleep t b
  | BgetResult.ret t b =>
    if (t.get b).valid = 0 then
      BgetResult.ret ({ t with disk := t.disk ++ [(b, 0)] }.upd b (fun x => { x with valid := 1 })) b
    else BgetResult.ret t b

/-- Modelled from the spec: `holdingsleep(&b->lock)` for the caller `pid`
(`kernel/sleeplock.c` is not among the sources). -/
def holdingsleep (s : Bcache) (pid b : Nat) : Bool :=
  (s.get b).lock == some pid

/-- The function `bwrite(b)`: `none` is `panic("bwrite")`, otherwise one driver write
`virtio_disk_rw(b, 1)`. -/
def bwrite (s : Bcache) (pid b : Nat) : Option Bcache :=
  if holdingsleep s pid b then some { s with disk := s.disk ++ [(b, 1)] } else none

/-- The function `brelse(b)` called by `pid` when the tick counter is `ticks`: `none` is
`panic("brelse")`; otherwise `releasesleep`, `b->refcnt--` and
`if (b->refcnt == 0) b->lastuse = ticks`. -/
def brelse (s : Bcache) (pid b ticks : Nat) : Option Bcache :=
  if holdingsleep s pid b then
    let s1 := decref (s.upd b (fun x => { x with lock := none })) b
    some (if (s1.get b).refcnt = 0 then s1.upd b (fun x => { x with lastuse := ticks }) else s1)
  else none

/-- The function `bpin(b)`: `b->refcnt++`. -/
def bpin (s : Bcache) (b : Nat) : Bcache := incref s b

/-- The function `bunpin(b)`: `b->refcnt--`. -/
def bunpin (s : Bcache) (b : Nat) : Bcache := decref s b

/-! ## Sequences of calls -/

/-- One call into the buffer cache. -/
inductive Op where
  | bget : Nat → Nat → Nat → Op
  | bread : Nat → Nat → Nat → Op
  | brelse : Nat → Nat → Nat → Op
  | bpin : Nat → Op
  | bunpin : Nat → Op
deriving DecidableEq

/-- The state and the returned slot of a `bget`/`bread` that returned. -/
def BgetResult.returned : BgetResult → Option (Bcache × Option Nat)
  | BgetResult.ret t b => some (t, some b)
  | _ => none

/-- Run one call to its return: the new state and the slot returned by `bget`/`bread`.
`none` when the call panics or goes to sleep. -/
def step (s : Bcache) : Op → Option (Bcache × Option Nat)
  | Op.bget pid dev blockno => (bget s pid dev blockno).returned
  | Op.bread pid dev blockno => (bread s pid dev blockno).returned
  | Op.brelse pid b ticks => (brelse s pid b ticks).map (fun t => (t, none))
  | Op.bpin b => some (bpin s b, none)
  | Op.bunpin b => some (bunpin s b, none)

/-- Run a sequence of calls, each to its return. -/
def run (s : Bcache) : List Op → Option Bcache
  | [] => some s
  | op :: ops =>
    match step s op with
    | none => none
    | some (t, _) => run t ops

/-- The states reached from the state after `binit` by calls that return. -/
def Reachable (s : Bcache) : Prop := ∃ ops, run (binit bcache0) ops = some s

/-! ## Properties used in the statements -/

/-- `Best s seen c`: the candidate `c` is the first slot of `seen` with the least `lastuse`
among the slots of `seen` with `refcnt = 0` (and there is no candidate when there is no such
slot). -/
def Best (s : Bcache) (seen : List Nat) : Option Cand → Prop
  | none => ∀ u ∈ seen, (s.get u).refcnt ≠ 0
  | some c => ∃ pre post, seen = pre ++ c.slot :: post ∧ (s.get c.slot).refcnt = 0 ∧
      (∀ u ∈ pre, (s.get u).refcnt = 0 → (s.get c.slot).lastuse < (s.get u).lastuse) ∧
      (∀ u ∈ post, (s.get u).refcnt = 0 → (s.get c.slot).lastuse ≤ (s.get u).lastuse)

/-- `Linked s c`: the candidate `c` names a position of a scanned bucket and the slot linked
there. -/
def Linked (s : Bcache) (c : Cand) : Prop :=
  c.bucket < NBUFMAP_BUCKET ∧ (s.chain c.bucket)[c.pos]? = some c.slot

/-- The state in which a `bget`/`bread` that did not panic leaves the cache. -/
def BgetResult.state : BgetResult → Bcache
  | BgetResult.ret t _ => t
  | BgetResult.sleep t _ => t
  | BgetResult.panic => bcache0

/-- `s.WF`: there are `NBUF` slots and 13 buckets, and every slot is linked exactly once in the
chains taken together. -/
def Bcache.WF (s : Bcache) : Prop :=
  s.buf.length = NBUF ∧ s.bufmap.length = NBUFMAP_BUCKET ∧ s.scanOrder.Perm (List.range NBUF)

/-- `s.Placed`: every linked slot is in the bucket given by the hash of its identity. -/
def Bcache.Placed (s : Bcache) : Prop :=
  ∀ i, i < NBUFMAP_BUCKET → ∀ b ∈ s.chain i, BUFMAP_HASH (s.get b).dev (s.get b).blockno = i

/-- The state after `binit` and one `bget(0, 1)` by process 1, which still holds the slot. -/
def heldState : Bcache := (bget (binit bcache0) 1 0 1).state

/-- `Frame s t`: the state `t` has the chains, the number of slots and the slot identities of
`s`, and a valid flag of `t` is the one of `s` or is 1; reference counts, locks, time stamps and
the driver log may differ. -/
def Frame (s t : Bcache) : Prop :=
  t.bufmap = s.bufmap ∧ t.buf.length = s.buf.length ∧
    ∀ x, (t.get x).dev = (s.get x).dev ∧ (t.get x).blockno = (s.get x).blockno ∧
      ((t.get x).valid = (s.get x).valid ∨ (t.get x).valid = 1)

/-- The states visited by a sequence of calls, the first state included; `none` when a call
panics or goes to sleep. -/
def visited (s : Bcache) : List Op → Option (List Bcache)
  | [] => some [s]
  | op :: ops =>
    match step s op with
    | none => none
    | some (t, _) => (visited t ops).map (fun l => s :: l)

/-- Whether the call drops a reference of slot `b` (`brelse(b)`, `bunpin(b)`). -/
def debit (b : Nat) : Op → Bool
  | Op.brelse _ x _ => x == b
  | Op.bunpin x => x == b
  | _ => false

/-- Whether the call, which returned `r`, adds a reference of slot `b` (a `bget` or `bread`
that returned `b`, `bpin(b)`). -/
def credit (b : Nat) (r : Option Nat) : Op → Bool
  | Op.bget _ _ _ => r == some b
  | Op.bread _ _ _ => r == some b
  | Op.bpin x => x == b
  | _ => false

/-- Run a sequence of calls and count the outstanding references of slot `b`, starting from
`n`: the calls that returned `b` or pinned it, minus the calls that released or unpinned it.
`none` when a call panics or sleeps, or when `brelse(b)` or `bunpin(b)` is called while no
reference of `b` is outstanding. -/
def ledger (b : Nat) : Bcache → Nat → List Op → Option (Bcache × Nat)
  | s, n, [] => some (s, n)
  | s, n, op :: ops =>
    match step s op with
    | none => none
    | some (t, r) =>
      if debit b op then (if n = 0 then none else ledger b t (n - 1) ops)
      else ledger b t (if credit b r op then n + 1 else n) ops

/-- One request of the block cache: the calling process, the identity asked for and the value of
the tick counter when the slot is released. -/
structure Req where
  pid : Nat
  dev : Nat
  blockno : Nat
  ticks : Nat
deriving DecidableEq

/-- One request served to its end: `bget`, then `brelse` of the slot returned.  `none` when
`bget` panics or sleeps or when `brelse` panics. -/
def serve (s : Bcache) (q : Req) : Option (Bcache × Nat) :=
  match bget s q.pid q.dev q.blockno with
  | BgetResult.ret t b => (brelse t q.pid b q.ticks).map (fun u => (u, b))
  | _ => none

/-- Requests served one after the other: the final state and the slots returned, in order. -/
def serveAll (s : Bcache) : List Req → Option (Bcache × List Nat)
  | [] => some (s, [])
  | q :: qs =>
    match serve s q with
    | none => none
    | some (t, b) => (serveAll t qs).map (fun p => (p.1, b :: p.2))

/-- The requests of process 1 for the blocks `1 .. 31` of device 0, each released at tick 5. -/
def sameTickReqs : List Req := (List.range 31).map (fun i => ⟨1, 0, i + 1, 5⟩)

/-- The requests of process 1 for the blocks `13, 26, ..., 403` of device 0, which all hash to
bucket 0, released at the ticks `0, 1, ..., 30`. -/
def zeroTickReqs : List Req := (List.range 31).map (fun i => ⟨1, 0, 13 * (i + 1), i⟩)

/-- `Served s done bs`: the state of the cache after the requests `done` have been served, one
after the other from the state after `binit`, by the slots `bs`: the cache has its shape, no
slot is referenced or locked, the slots `bs` are pairwise distinct, the slot that served a
request carries its identity and was released at its tick, and every other slot still has
`lastuse = 0`. -/
def Served (s : Bcache) (done : List Req) (bs : List Nat) : Prop :=
  s.WF ∧
  (∀ x, x < NBUF → (s.get x).refcnt = 0 ∧ (s.get x).lock = none) ∧
  (bs.length = done.length ∧ bs.Nodup ∧ ∀ b ∈ bs, b < NBUF) ∧
  (∀ p ∈ bs.zip done, (s.get p.1).dev = p.2.dev ∧ (s.get p.1).blockno = p.2.blockno ∧
    (s.get p.1).lastuse = p.2.ticks) ∧
  (∀ x, x < NBUF → x ∉ bs → (s.get x).lastuse = 0)

/-- The requests of process 1 for the blocks `1 .. 30` of device 0, the request for block `i`
being released at tick `i`. -/
def risingTickReqs : List Req := (List.range 30).map (fun i => ⟨1, 0, i + 1, i + 1⟩)

/-! ## `bwrite` and `brelse` with the state at the `panic` -/

/-- How a call that can panic ends: `panic s` when it halts in `panic`, with the state `s`
reached at that point, and `ok s` when it returns in the state `s`. -/
inductive Ended (σ : Type) where
  | panic : σ → Ended σ
  | ok : σ → Ended σ

/-- The state in which the call returned, if it did. -/
def Ended.toOption {σ : Type} : Ended σ → Option σ
  | Ended.panic _ => none
  | Ended.ok s => some s

/-- The function `bwrite(b)` called by `pid`, with the state in which it ends: the test
`if(!holdingsleep(&b->lock)) panic("bwrite")` comes first, the driver write
`virtio_disk_rw(b, 1)` after it. -/
def bwriteEnd (s : Bcache) (pid b : Nat) : Ended Bcache :=
  if !holdingsleep s pid b then Ended.panic s
  else Ended.ok { s with disk := s.disk ++ [(b, 1)] }

/-- The function `brelse(b)` called by `pid` at tick `ticks`, with the state in which it ends:
the test `if(!holdingsleep(&b->lock)) panic("brelse")` comes first; `releasesleep`,
`b->refcnt--` and `if (b->refcnt == 0) b->lastuse = ticks` after it. -/
def brelseEnd (s : Bcache) (pid b ticks : Nat) : Ended Bcache :=
  if !holdingsleep s pid b then Ended.panic s
  else
    let s1 := decref (s.upd b (fun x => { x with lock := none })) b
    Ended.ok (if (s1.get b).refcnt = 0 then s1.upd b (fun x => { x with lastuse := ticks }) else s1)

/-! ## The locks taken by `bget` -/

/-- A spin lock of `bcache`: `bucket i` is `bcache.bufmap_locks[i]` and `eviction` is
`bcache.eviction_lock`. -/
inductive Lock where
  | bucket : Nat → Lock
  | eviction : Lock
deriving DecidableEq

/-- A recorded step of `bget`: `acquire` and `release` of a spin lock, the loop
`for(b = bcache.bufmap[key].next; b; b = b->next)` that looks the identity up in the chain of
bucket `key` (`walk key`), and `b->refcnt++` (`incref b`). -/
inductive Ev where
  | acquire : Lock → Ev
  | release : Lock → Ev
  | walk : Nat → Ev
  | incref : Nat → Ev
deriving DecidableEq

/-- The spin locks held after the listed steps, starting with the locks `h`. -/
def locksHeld (h : List Lock) : List Ev → List Lock
  | [] => h
  | Ev.acquire l :: es => locksHeld (l :: h) es
  | Ev.release l :: es => locksHeld (h.erase l) es
  | Ev.walk _ :: es => locksHeld h es
  | Ev.incref _ :: es => locksHeld h es

/-- The inner loop `for(b = &bcache.bufmap[i]; b->next; b = b->next)` of the eviction scan with
the flag `newfound`, which is set together with `before_least`. -/
def scanChainFound (s : Bcache) (i : Nat) :
    List Nat → Nat → Option Cand → Bool → Option Cand × Bool
  | [], _, best, found => (best, found)
  | b :: rest, j, best, found =>
    if (s.get b).refcnt == 0 && older s b best then
      scanChainFound s i rest (j + 1) (some ⟨i, j, b⟩) true
    else scanChainFound s i rest (j + 1) best found

/-- The outer loop `for(int i = 0; i < NBUFMAP_BUCKET; i++)` over the listed buckets with
`before_least`, `holding_bucket` (a `uint`: `-1` is `UINT - 1`) and the calls of `acquire` and
`release`: the lock of bucket `i` is acquired, the chain is scanned with `newfound = 0` at the
start, and then either the lock of bucket `i` is released (`!newfound`) or the lock of
`holding_bucket` is released, when `holding_bucket != -1`, and `holding_bucket = i`. -/
def scanLocks (s : Bcache) : List Nat → Option Cand → Nat → Option Cand × Nat × List Ev
  | [], best, holding => (best, holding, [])
  | i :: is, best, holding =>
    if !(scanChainFound s i (s.chain i) 0 best false).2 then
      ((scanLocks s is (scanChainFound s i (s.chain i) 0 best false).1 holding).1,
        (scanLocks s is (scanChainFound s i (s.chain i) 0 best false).1 holding).2.1,
        Ev.acquire (Lock.bucket i) :: Ev.release (Lock.bucket i) ::
          (scanLocks s is (scanChainFound s i (s.chain i) 0 best false).1 holding).2.2)
    else
      ((scanLocks s is (scanChainFound s i (s.chain i) 0 best false).1 i).1,
        (scanLocks s is (scanChainFound s i (s.chain i) 0 best false).1 i).2.1,
        Ev.acquire (Lock.bucket i) ::
          ((if holding ≠ UINT - 1 then [Ev.release (Lock.bucket holding)] else []) ++
            (scanLocks s is (scanChainFound s i (s.chain i) 0 best false).1 i).2.2))

/-- The whole eviction scan, started with `before_least = 0` and `holding_bucket = -1`. -/
def scanAll (s : Bcache) : Option Cand × Nat × List Ev :=
  scanLocks s (List.range NBUFMAP_BUCKET) none (UINT - 1)

/-- The slow path of `bget(dev, blockno)`, from `acquire(&bcache.eviction_lock)` to the call of
`acquiresleep`, run on the state `s` that it finds, with its recorded steps: the second lookup
in the chain of the target bucket; on a hit `acquire` of the bucket lock, `b->refcnt++`,
`release` of both locks; otherwise the eviction scan, `panic` when it has no candidate, and else
the move of the candidate (`release` of the lock of `holding_bucket` and `acquire` of the lock
of the target bucket when `holding_bucket != key`), the new identity and `release` of the
lock of the target bucket and of the eviction lock. -/
def bgetSlow (s : Bcache) (pid dev blockno : Nat) : BgetResult × List Ev :=
  match lookup s (BUFMAP_HASH dev blockno) dev blockno with
  | some b =>
    (acquiresleep (incref s b) pid b,
      [Ev.acquire Lock.eviction, Ev.walk (BUFMAP_HASH dev blockno),
        Ev.acquire (Lock.bucket (BUFMAP_HASH dev blockno)), Ev.incref b,
        Ev.release (Lock.bucket (BUFMAP_HASH dev blockno)), Ev.release Lock.eviction])
  | none =>
    match (scanAll s).1 with
    | none =>
      (BgetResult.panic,
        [Ev.acquire Lock.eviction, Ev.walk (BUFMAP_HASH dev blockno)] ++ (scanAll s).2.2)
    | some c =>
      (acquiresleep (rebind s dev blockno c) pid c.slot,
        [Ev.acquire Lock.eviction, Ev.walk (BUFMAP_HASH dev blockno)] ++ (scanAll s).2.2 ++
          (if (scanAll s).2.1 ≠ BUFMAP_HASH dev blockno then
            [Ev.release (Lock.bucket (scanAll s).2.1),
              Ev.acquire (Lock.bucket (BUFMAP_HASH dev blockno))]
          else []) ++
          [Ev.release (Lock.bucket (BUFMAP_HASH dev blockno)), Ev.release Lock.eviction])

/-- The function `bget(dev, blockno)` with its recorded steps: the lookup under the lock of the
target bucket, and on a miss the slow path on the same state. -/
def bgetTraced (s : Bcache) (pid dev blockno : Nat) : BgetResult × List Ev :=
  match lookup s (BUFMAP_HASH dev blockno) dev blockno with
  | some b =>
    (acquiresleep (incref s b) pid b,
      [Ev.acquire (Lock.bucket (BUFMAP_HASH dev blockno)), Ev.walk (BUFMAP_HASH dev blockno),
        Ev.incref b, Ev.release (Lock.bucket (BUFMAP_HASH dev blockno))])
  | none =>
    ((bgetSlow s pid dev blockno).1,
      [Ev.acquire (Lock.bucket (BUFMAP_HASH dev blockno)), Ev.walk (BUFMAP_HASH dev blockno),
        Ev.release (Lock.bucket (BUFMAP_HASH dev blockno))] ++ (bgetSlow s pid dev blockno).2)

/-- The buckets whose lock the eviction scan holds between two rounds of its outer loop: the
bucket `holding_bucket`, none when `holding_bucket` is `-1`. -/
def heldBuckets (holding : Nat) : List Nat := if holding ≠ UINT - 1 then [holding] else []

/-- The state after `binit`, one `bget(0, 1)` by process 1 and the `brelse` of the slot at
tick 7: the identity `(0, 1)` is cached in slot 29 and the slot is not locked. -/
def releasedState : Bcache :=
  match brelse heldState 1 29 7 with
  | some t => t
  | none => bcache0

end Bio

/-! # Physical page allocator of `kernel/kalloc.c` (one free list per core, with stealing)

Shallow embedding of `kinit`, `freerange`, `kfree` and `kalloc`.

* A pointer is a natural number, 0 is the null pointer.
* `kmem[i].freelist` is `freelist i`; the field `next` of the `struct run` at the start of the
  frame at address `pa` is `next pa`.  A free list is the chain of frames reached from
  `freelist i` through `next`.
* The calling core (`cpuid()`) is an argument of every function.
-/

namespace Kalloc

/-- Modelled from the spec: the constant `NCPU` of `kernel/param.h`, which is not among the
sources: the number of cores, one pool per core; `kalloc.c` names the eight locks
`kmem_cpu_0` to `kmem_cpu_7`. -/
def NCPU : Nat := 8

/-- Modelled from the spec: the constant `PGSIZE` of `kernel/riscv.h`, which is not among the
sources: the size of a page frame, 4096 bytes. -/
def PGSIZE : Nat := 4096

/-- Modelled from the spec: the macro `PGROUNDUP` of `kernel/riscv.h`, which is not among the
sources: the address rounded up to the next multiple of `PGSIZE`. -/
def PGROUNDUP (a : Nat) : Nat := (a + PGSIZE - 1) / PGSIZE * PGSIZE

/-- The steal budget (`int steal_left = 64`). -/
def STEAL : Nat := 64

/-- The global `kmem[NCPU]` and the `next` fields stored in the frames. -/
structure Kmem where
  freelist : Nat → Nat
  next : Nat → Nat

/-- The map `f` with the value at `k` replaced by `v`. -/
def upd {β : Type} (f : Nat → β) (k : Nat) (v : β) : Nat → β :=
  fun x => if x = k then v else f x

/-- The assignment `kmem[i].freelist = v`. -/
def Kmem.setHead (s : Kmem) (i v : Nat) : Kmem := { s with freelist := upd s.freelist i v }

/-- The assignment `((struct run*)pa)->next = v`. -/
def Kmem.setNext (s : Kmem) (pa v : Nat) : Kmem := { s with next := upd s.next pa v }

/-- The first word of a frame filled by `memset(pa, 1, PGSIZE)`. -/
def JUNK1 : Nat := 0x0101010101010101

/-- The first word of a frame filled by `memset(pa, 5, PGSIZE)`. -/
def JUNK5 : Nat := 0x0505050505050505

/-- The function `kfree(pa)` on core `c`, with the state in which it ends; `kend` is the
address `end` of the linker script and `PHYSTOP` the top of the physical memory (parameters:
`kernel/memlayout.h` and `kernel.ld` are not among the sources).  The test
`((uint64)pa % PGSIZE) != 0 || (char*)pa < end || (uint64)pa >= PHYSTOP` comes first; then
`memset(pa, 1, PGSIZE)`, `r->next = kmem[cpu_id].freelist` and `kmem[cpu_id].freelist = r`. -/
def kfree (kend PHYSTOP : Nat) (s : Kmem) (c pa : Nat) : Bio.Ended Kmem :=
  if pa % PGSIZE ≠ 0 ∨ pa < kend ∨ pa ≥ PHYSTOP then Bio.Ended.panic s
  else
    let s1 := s.setNext pa JUNK1
    let s2 := s1.setNext pa (s1.freelist c)
    Bio.Ended.ok (s2.setHead c pa)

/-- The loop `for(; p + PGSIZE <= (char*)pa_end; p += PGSIZE) kfree(p)` of `freerange`, run for
at most `fuel` iterations: `none` when the fuel runs out before the loop ends. -/
def freerangeLoop (kend PHYSTOP c pa_end : Nat) : Nat → Nat → Kmem → Option (Bio.Ended Kmem)
  | 0, _, _ => none
  | fuel + 1, p, s =>
    if p + PGSIZE ≤ pa_end then
      match kfree kend PHYSTOP s c p with
      | Bio.Ended.panic t => some (Bio.Ended.panic t)
      | Bio.Ended.ok t => freerangeLoop kend PHYSTOP c pa_end fuel (p + PGSIZE) t
    else some (Bio.Ended.ok s)

/-- The function `freerange(pa_start, pa_end)` on core `c`; the loop is given `pa_end + 1`
iterations of fuel. -/
def freerange (kend PHYSTOP : Nat) (s : Kmem) (c pa_start pa_end : Nat) :
    Option (Bio.Ended Kmem) :=
  freerangeLoop kend PHYSTOP c pa_end (pa_end + 1) (PGROUNDUP pa_start) s

/-- The function `kinit()` on core `c`: `freerange(end, (void*)PHYSTOP)` (the locks carry no
data). -/
def kinit (kend PHYSTOP : Nat) (s : Kmem) (c : Nat) : Option (Bio.Ended Kmem) :=
  freerange kend PHYSTOP s c kend PHYSTOP

/-- A call of `acquire` or of `release` on the lock `kmem[i].lock`. -/
inductive LockEv where
  | acquire : Nat → LockEv
  | release : Nat → LockEv
deriving DecidableEq

/-- The loop `while(rr && steal_left)` of `kalloc` on core `c` over the list of core `i`, with
`steal_left = n`: the state and the value of `steal_left` when the loop ends.  Each iteration
does `kmem[i].freelist = rr->next; rr->next = kmem[cpu_id].freelist;
kmem[cpu_id].freelist = rr; rr = kmem[i].freelist; steal_left--`. -/
def stealFrom (c i : Nat) : Nat → Kmem → Kmem × Nat
  | 0, s => (s, 0)
  | n + 1, s =>
    if s.freelist i = 0 then (s, n + 1)
    else
      let s1 := s.setHead i (s.next (s.freelist i))
      let s2 := s1.setNext (s.freelist i) (s1.freelist c)
      stealFrom c i n (s2.setHead c (s.freelist i))

/-- The loop `for(int i=0;i<NCPU;i++)` of `kalloc` on core `c` over the listed cores, with
`steal_left = n`: the core `c` is skipped; every other core is visited between
`acquire(&kmem[i].lock)` and `release(&kmem[i].lock)`, and the loop is left when
`steal_left == 0`.  The result is the state and the calls on the locks, in order. -/
def stealLoop (c : Nat) : List Nat → Nat → Kmem → Kmem × List LockEv
  | [], _, s => (s, [])
  | i :: is, n, s =>
    if i = c then stealLoop c is n s
    else if (stealFrom c i n s).2 = 0 then
      ((stealFrom c i n s).1, [LockEv.acquire i, LockEv.release i])
    else
      ((stealLoop c is (stealFrom c i n s).2 (stealFrom c i n s).1).1,
        LockEv.acquire i :: LockEv.release i ::
          (stealLoop c is (stealFrom c i n s).2 (stealFrom c i n s).1).2)

/-- What a call of `kalloc` leaves: the state, the pointer returned (0 when no frame was found)
and the calls on the pool locks, in order. -/
structure KallocResult where
  state : Kmem
  r : Nat
  locks : List LockEv

/-- The state of `kalloc` on core `c` after the steal, which is only attempted when
`!kmem[cpu_id].freelist`. -/
def afterSteal (s : Kmem) (c : Nat) : Kmem × List LockEv :=
  if s.freelist c = 0 then stealLoop c (List.range NCPU) STEAL s else (s, [])

/-- The function `kalloc()` on core `c`: `acquire(&kmem[cpu_id].lock)`, the steal when the local
list is empty, `r = kmem[cpu_id].freelist; if(r) kmem[cpu_id].freelist = r->next`,
`release(&kmem[cpu_id].lock)` and `if(r) memset((char*)r, 5, PGSIZE)`. -/
def kalloc (s : Kmem) (c : Nat) : KallocResult :=
  let p := afterSteal s c
  let r := p.1.freelist c
  { state := if r ≠ 0 then (p.1.setHead c (p.1.next r)).setNext r JUNK5 else p.1
    r := r
    locks := [LockEv.acquire c] ++ p.2 ++ [LockEv.release c] }

/-! ## Free lists and sequences of calls -/

/-- The state at which a call ended, whether it returned or halted. -/
def endState {σ : Type} : Bio.Ended σ → σ
  | Bio.Ended.panic s => s
  | Bio.Ended.ok s => s

/-- `IsList next p l`: the chain that starts at the pointer `p` and follows `next` consists of
the frames `l`, in this order, and ends with the null pointer. -/
def IsList (next : Nat → Nat) : Nat → List Nat → Prop
  | p, [] => p = 0
  | p, a :: t => p = a ∧ a ≠ 0 ∧ IsList next (next a) t

/-- Whether the chain from `p` is the list `l` can be computed. -/
def decIsList (next : Nat → Nat) : (p : Nat) → (l : List Nat) → Decidable (IsList next p l)
  | p, [] => inferInstanceAs (Decidable (p = 0))
  | p, a :: t =>
    have : Decidable (IsList next (next a) t) := decIsList next (next a) t
    inferInstanceAs (Decidable (p = a ∧ a ≠ 0 ∧ IsList next (next a) t))

instance (next : Nat → Nat) (p : Nat) (l : List Nat) : Decidable (IsList next p l) :=
  decIsList next p l

/-- `s.Lists ls`: the free list of every core `i` is the list `ls i`. -/
def Kmem.Lists (s : Kmem) (ls : Nat → List Nat) : Prop :=
  ∀ i, i < NCPU → IsList s.next (s.freelist i) (ls i)

/-- The frames of all free lists, core after core. -/
def allFree (ls : Nat → List Nat) : List Nat := (List.range NCPU).flatMap ls

/-- The frames of the free lists of the cores other than `c`, in ascending order of the
cores. -/
def othersFree (c : Nat) (ls : Nat → List Nat) : List Nat :=
  ((List.range NCPU).filter (fun i => decide (i ≠ c))).flatMap ls

/-- `Pools s ls`: the free lists of `s` are the lists `ls`, and no frame occurs twice in them,
neither on two lists nor twice on one. -/
def Pools (s : Kmem) (ls : Nat → List Nat) : Prop :=
  s.Lists ls ∧ (allFree ls).Nodup

/-- The frames `p, p + PGSIZE, ..., p + (m - 1) * PGSIZE`, the highest address first. -/
def frames (p : Nat) : Nat → List Nat
  | 0 => []
  | m + 1 => frames (p + PGSIZE) m ++ [p]

/-- A call of the allocator: `kalloc()` on core `c`, or `kfree(pa)` on core `c`. -/
inductive KOp where
  | kalloc : Nat → KOp
  | kfree : Nat → Nat → KOp
deriving DecidableEq

/-- One call of the allocator, on a state paired with the frames that `kalloc` has returned and
that have not been freed since.  `none` when the core is not below `NCPU`, when `kfree` is
applied to a frame that is not among these frames, or when `kfree` panics. -/
def kstep (kend PHYSTOP : Nat) (x : Kmem × List Nat) : KOp → Option (Kmem × List Nat)
  | KOp.kalloc c =>
    if c < NCPU then
      some ((kalloc x.1 c).state, if (kalloc x.1 c).r = 0 then x.2 else (kalloc x.1 c).r :: x.2)
    else none
  | KOp.kfree c pa =>
    if c < NCPU ∧ pa ∈ x.2 then
      match kfree kend PHYSTOP x.1 c pa with
      | Bio.Ended.ok t => some (t, x.2.erase pa)
      | Bio.Ended.panic _ => none
    else none

/-- A sequence of calls of the allocator. -/
def krun (kend PHYSTOP : Nat) (x : Kmem × List Nat) : List KOp → Option (Kmem × List Nat)
  | [] => some x
  | op :: ops =>
    match kstep kend PHYSTOP x op with
    | none => none
    | some y => krun kend PHYSTOP y ops

/-- The locks held after the listed calls of `acquire` and `release`, starting with the locks
`h`. -/
def heldAfter (h : List Nat) : List LockEv → List Nat
  | [] => h
  | LockEv.acquire i :: es => heldAfter (i :: h) es
  | LockEv.release i :: es => heldAfter (h.erase i) es

/-- The zero-initialised `kmem` and memory. -/
def kmem0 : Kmem := ⟨fun _ => 0, fun _ => 0⟩

/-- A state with the frames 8192 and 4096 on the free list of core 1 and the frame 12288 on the
free list of core 3. -/
def demoKmem : Kmem :=
  ⟨fun i => if i = 1 then 8192 else if i = 3 then 12288 else 0,
    fun a => if a = 8192 then 4096 else 0⟩

/-- The free lists of `demoKmem`. -/
def demoLists : Nat → List Nat :=
  fun i => if i = 1 then [8192, 4096] else if i = 3 then [12288] else []

/-- The free lists of the state of `x` are `ls`; no frame is twice among the frames on the free
lists and the frames `x.2` that `kalloc` has returned and that have not been freed since; all
of these frames are aligned and in the managed range. -/
def Owned (kend PHYSTOP : Nat) (x : Kmem × List Nat) (ls : Nat → List Nat) : Prop :=
  x.1.Lists ls ∧ (allFree ls ++ x.2).Nodup ∧
    ∀ a ∈ allFree ls ++ x.2, a % PGSIZE = 0 ∧ kend ≤ a ∧ a < PHYSTOP

/-- The state after `kinit` on core 2 with `end = 4096` and `PHYSTOP = 20480`, from the
zero-initialised `kmem`: the frames 16384, 12288, 8192 and 4096 are on the list of core 2. -/
def bootKmem : Kmem :=
  match kinit 4096 20480 kmem0 2 with
  | some e => endState e
  | none => kmem0

/-- The calls `kalloc` on core 0, `kalloc` on core 2, `kfree(4096)` on core 1. -/
def bootOps : List KOp := [KOp.kalloc 0, KOp.kalloc 2, KOp.kfree 1 4096]

/-- The state and the frames in use after the calls `bootOps` from `bootKmem`. -/
def bootRun : Kmem × List Nat :=
  match krun 4096 20480 (bootKmem, []) bootOps with
  | some x => x
  | none => (kmem0, [])

end Kalloc

/-! # The system call `sys_sbrk` of `kernel/sysproc.c`

The size `p->sz` of the calling process is a `uint64` (`struct proc` of `kernel/proc.h` is not
among the sources; `sys_sbrk` hands the size to `uvmdealloc` and returns it as a `uint64`), the
argument `n` and the local `addr` are `int`.  Values of type `uint64` are natural numbers taken
modulo `2 ^ 64`, values of type `int` are integers.
-/

namespace Sysproc

/-- The number of values of the type `uint64`. -/
def U64 : Nat := 2 ^ 64

/-- The conversion of an `int` to `uint64`: the value modulo `2 ^ 64`. -/
def ofInt (n : Int) : Nat := (n % (U64 : Int)).toNat

/-- The conversion of a `uint64` to `int` in `addr = myproc()->sz`: the low 32 bits, read as a
signed number. -/
def toInt32 (x : Nat) : Int :=
  if x % 2 ^ 32 < 2 ^ 31 then ((x % 2 ^ 32 : Nat) : Int) else ((x % 2 ^ 32 : Nat) : Int) - 2 ^ 32

/-- The value returned by `sys_sbrk` and the size `p->sz` of the process after the call. -/
structure SbrkResult where
  ret : Nat
  sz : Nat
deriving DecidableEq

/-- The function `sys_sbrk` for a process of size `sz`, when `argint(0, &n)` returns `argret`
and stores `n`.  The function `uvmdealloc` of `kernel/vm.c` is not among the sources: it is the
parameter `uvmdealloc`, from the old and the new size to the size it returns. -/
def sys_sbrk (uvmdealloc : Nat → Nat → Nat) (argret n : Int) (sz : Nat) : SbrkResult :=
  if argret < 0 then ⟨ofInt (-1), sz⟩
  else if n > 0 then ⟨ofInt (toInt32 sz), (sz + ofInt n) % U64⟩
  else if (sz + ofInt n) % U64 > 0 then
    ⟨ofInt (toInt32 sz), uvmdealloc sz ((sz + ofInt n) % U64)⟩
  else ⟨ofInt (-1), sz⟩

end Sysproc

namespace Bio

/-! ## Lists and slots -/

theorem length_modAt {α : Type} (f : α → α) (n : Nat) (l : List α) :
    (modAt f n l).length = l.length := by
  induction l generalizing n with
  | nil => cases n <;> rfl
  | cons x xs ih => cases n <;> simp [modAt, ih]

theorem getD_modAt_ne {α : Type} (f : α → α) (d : α) (n m : Nat) (l : List α) (h : m ≠ n) :
    (modAt f n l).getD m d = l.getD m d := by
  induction l generalizing n m with
  | nil => cases n <;> rfl
  | cons x xs ih =>
    cases n with
    | zero =>
      cases m with
      | zero => exact absurd rfl h
      | succ m => simp [modAt]
    | succ n =>
      cases m with
      | zero => simp [modAt]
      | succ m => simpa [modAt] using ih n m (by omega)

theorem getD_modAt_self {α : Type} (f : α → α) (d : α) (n : Nat) (l : List α)
    (h : n < l.length) : (modAt f n l).getD n d = f (l.getD n d) := by
  induction l generalizing n with
  | nil => simp at h
  | cons x xs ih =>
    cases n with
    | zero => simp [modAt]
    | succ n => simpa [modAt] using ih n (by simpa using h)

theorem modAt_of_le {α : Type} (f : α → α) (n : Nat) (l : List α) (h : l.length ≤ n) :
    modAt f n l = l := by
  induction l generalizing n with
  | nil => cases n <;> rfl
  | cons x xs ih =>
    cases n with
    | zero => simp at h
    | succ n => simp [modAt, ih n (by simpa using h)]

theorem get_upd_ne (s : Bcache) (b x : Nat) (f : Buf → Buf) (h : x ≠ b) :
    (s.upd b f).get x = s.get x := by
  exact getD_modAt_ne f zeroBuf b x s.buf h

theorem get_upd_self (s : Bcache) (b : Nat) (f : Buf → Buf) (h : b < s.buf.length) :
    (s.upd b f).get b = f (s.get b) := by
  exact getD_modAt_self f zeroBuf b s.buf h

theorem get_of_le (s : Bcache) (b : Nat) (h : s.buf.length ≤ b) : s.get b = zeroBuf := by
  exact List.getD_eq_default _ _ h

/-! ## The eviction scan -/

theorem best_step (s : Bcache) (seen : List Nat) (best : Option Cand) (i j b : Nat)
    (h : Best s seen best) :
    Best s (seen ++ [b])
      (if (s.get b).refcnt == 0 && older s b best then some ⟨i, j, b⟩ else best) := by
  by_cases hr : (s.get b).refcnt = 0
  · cases best with
    | none =>
      simp only [hr, older, beq_self_eq_true, Bool.and_self, if_true]
      refine ⟨seen, [], rfl, hr, ?_, ?_⟩
      · intro u hu hu0
        exact absurd hu0 (h u hu)
      · intro u hu
        simp at hu
    | some c =>
      obtain ⟨pre, post, hseen, hc0, hpre, hpost⟩ := h
      by_cases hlt : (s.get b).lastuse < (s.get c.slot).lastuse
      · simp only [hr, older, hlt, beq_self_eq_true, decide_True, Bool.and_self, if_true]
        refine ⟨seen, [], rfl, hr, ?_, ?_⟩
        · intro u hu hu0
          rw [hseen] at hu
          rcases List.mem_append.1 hu with hu | hu
          · exact lt_trans hlt (hpre u hu hu0)
          · rcases List.mem_cons.1 hu with hu | hu
            · rw [hu]; exact hlt
            · exact lt_of_lt_of_le hlt (hpost u hu hu0)
        · intro u hu
          simp at hu
      · simp only [hr, older, hlt, beq_self_eq_true, decide_False, Bool.and_false, if_false]
        refine ⟨pre, post ++ [b], by simp [hseen], hc0, hpre, ?_⟩
        intro u hu hu0
        rcases List.mem_append.1 hu with hu | hu
        · exact hpost u hu hu0
        · rw [List.mem_singleton.1 hu]; exact not_lt.1 hlt
  · have hb : ((s.get b).refcnt == 0) = false := by simpa using hr
    simp only [hb, Bool.false_and, if_false]
    cases best with
    | none =>
      intro u hu
      rcases List.mem_append.1 hu with hu | hu
      · exact h u hu
      · rw [List.mem_singleton.1 hu]; exact hr
    | some c =>
      obtain ⟨pre, post, hseen, hc0, hpre, hpost⟩ := h
      refine ⟨pre, post ++ [b], by simp [hseen], hc0, hpre, ?_⟩
      intro u hu hu0
      rcases List.mem_append.1 hu with hu | hu
      · exact hpost u hu hu0
      · rw [List.mem_singleton.1 hu] at hu0; exact absurd hu0 hr

theorem scanChain_best (s : Bcache) (i : Nat) (l : List Nat) :
    ∀ (seen : List Nat) (j : Nat) (best : Option Cand), Best s seen best →
      Best s (seen ++ l) (scanChain s i l j best) := by
  induction l with
  | nil => intro seen j best h; simpa [scanChain] using h
  | cons b rest ih =>
    intro seen j best h
    have := ih (seen ++ [b]) (j + 1) _ (best_step s seen best i j b h)
    simpa [scanChain] using this

theorem scanBuckets_best (s : Bcache) (is : List Nat) :
    ∀ (seen : List Nat) (best : Option Cand), Best s seen best →
      Best s (seen ++ is.flatMap (fun i => s.chain i)) (scanBuckets s is best) := by
  induction is with
  | nil => intro seen best h; simpa [scanBuckets] using h
  | cons i is ih =>
    intro seen best h
    have := ih (seen ++ s.chain i) _ (scanChain_best s i (s.chain i) seen 0 best h)
    simpa [scanBuckets, List.flatMap_cons] using this

theorem findVictim_best (s : Bcache) : Best s s.scanOrder (findVictim s) := by
  have := scanBuckets_best s (List.range NBUFMAP_BUCKET) [] none (by intro u hu; simp at hu)
  simpa [findVictim, Bcache.scanOrder] using this

theorem scanChain_linked (s : Bcache) (i : Nat) (hi : i < NBUFMAP_BUCKET) (l : List Nat) :
    ∀ (done : List Nat) (j : Nat) (best : Option Cand), s.chain i = done ++ l → j = done.length →
      (∀ c, best = some c → Linked s c) →
      ∀ c, scanChain s i l j best = some c → Linked s c := by
  induction l with
  | nil => intro done j best _ _ h c hc; exact h c (by simpa [scanChain] using hc)
  | cons b rest ih =>
    intro done j best hch hj h c hc
    rw [scanChain] at hc
    refine ih (done ++ [b]) (j + 1) _ (by simp [hch]) (by simp [hj]) ?_ c hc
    intro c' hc'
    split at hc'
    · cases hc'
      refine ⟨hi, ?_⟩
      show (s.chain i)[j]? = some b
      rw [hch, hj, List.getElem?_append_right (le_refl _)]
      simp
    · exact h c' hc'

theorem scanBuckets_linked (s : Bcache) (is : List Nat) (his : ∀ i ∈ is, i < NBUFMAP_BUCKET) :
    ∀ (best : Option Cand), (∀ c, best = some c → Linked s c) →
      ∀ c, scanBuckets s is best = some c → Linked s c := by
  induction is with
  | nil => intro best h c hc; exact h c (by simpa [scanBuckets] using hc)
  | cons i is ih =>
    intro best h c hc
    rw [scanBuckets] at hc
    refine ih (fun k hk => his k (List.mem_cons_of_mem _ hk)) _ ?_ c hc
    exact scanChain_linked s i (his i (List.mem_cons_self _ _)) (s.chain i) [] 0 best
      (by simp) rfl h

theorem findVictim_linked (s : Bcache) (c : Cand) (h : findVictim s = some c) : Linked s c :=
  scanBuckets_linked s (List.range NBUFMAP_BUCKET) (fun i hi => List.mem_range.1 hi) none
    (by intro c hc; cases hc) c h

/-! ## The paths through `bget` -/

theorem getD_modAt {α : Type} (f : α → α) (d : α) (n m : Nat) (l : List α) :
    (modAt f n l).getD m d = if m = n ∧ n < l.length then f (l.getD m d) else l.getD m d := by
  by_cases h : m = n
  · subst h
    by_cases hl : m < l.length
    · simp only [hl, and_self, if_true]
      exact getD_modAt_self f d m l hl
    · rw [modAt_of_le f m l (not_lt.1 hl)]
      simp [hl]
  · simp only [h, false_and, if_false]
    exact getD_modAt_ne f d n m l h

@[simp] theorem upd_bufmap (s : Bcache) (b : Nat) (f : Buf → Buf) :
    (s.upd b f).bufmap = s.bufmap := rfl

@[simp] theorem upd_disk (s : Bcache) (b : Nat) (f : Buf → Buf) :
    (s.upd b f).disk = s.disk := rfl

@[simp] theorem upd_length (s : Bcache) (b : Nat) (f : Buf → Buf) :
    (s.upd b f).buf.length = s.buf.length := length_modAt f b s.buf

@[simp] theorem chain_upd (s : Bcache) (b i : Nat) (f : Buf → Buf) :
    (s.upd b f).chain i = s.chain i := rfl

@[simp] theorem scanOrder_upd (s : Bcache) (b : Nat) (f : Buf → Buf) :
    (s.upd b f).scanOrder = s.scanOrder := rfl

theorem get_upd (s : Bcache) (b x : Nat) (f : Buf → Buf) :
    (s.upd b f).get x = if x = b ∧ b < s.buf.length then f (s.get x) else s.get x :=
  getD_modAt f zeroBuf b x s.buf

/-- A field that `f` does not write is not changed by `upd`. -/
theorem get_upd_field {β : Type} (g : Buf → β) (s : Bcache) (b x : Nat) (f : Buf → Buf)
    (h : ∀ y, g (f y) = g y) : g ((s.upd b f).get x) = g (s.get x) := by
  rw [get_upd]
  split
  · exact h _
  · rfl

theorem lookup_eq_none_iff (s : Bcache) (key dev blockno : Nat) :
    lookup s key dev blockno = none ↔
      ∀ b ∈ s.chain key, ¬((s.get b).dev = dev ∧ (s.get b).blockno = blockno) := by
  simp [lookup, List.find?_eq_none]

theorem lookup_eq_some_iff (s : Bcache) (key dev blockno b : Nat) :
    lookup s key dev blockno = some b ↔
      ((s.get b).dev = dev ∧ (s.get b).blockno = blockno) ∧
      ∃ pre post, s.chain key = pre ++ b :: post ∧
        ∀ u ∈ pre, ¬((s.get u).dev = dev ∧ (s.get u).blockno = blockno) := by
  simp [lookup, List.find?_eq_some, imp_iff_not_or]

theorem acquiresleep_cases (s : Bcache) (pid b : Nat) :
    ((s.get b).lock = none ∧
      acquiresleep s pid b = BgetResult.ret (s.upd b (fun x => { x with lock := some pid })) b) ∨
    ((s.get b).lock ≠ none ∧ acquiresleep s pid b = BgetResult.sleep s b) := by
  unfold acquiresleep
  cases h : (s.get b).lock <;> simp

theorem findVictim_eq_none_iff (s : Bcache) :
    findVictim s = none ↔ ∀ u ∈ s.scanOrder, (s.get u).refcnt ≠ 0 := by
  have h := findVictim_best s
  constructor
  · intro hn
    rw [hn] at h
    exact h
  · intro hall
    cases hv : findVictim s with
    | none => rfl
    | some c =>
      rw [hv] at h
      obtain ⟨pre, post, hseen, hc0, -, -⟩ := h
      exact absurd hc0 (hall c.slot (by rw [hseen]; simp))

theorem mem_scanOrder (s : Bcache) (b : Nat) :
    b ∈ s.scanOrder ↔ ∃ i, i < NBUFMAP_BUCKET ∧ b ∈ s.chain i := by
  simp [Bcache.scanOrder, List.mem_flatMap]


@[simp] theorem relink_buf (s : Bcache) (c : Cand) (key : Nat) : (relink s c key).buf = s.buf := rfl

@[simp] theorem relink_disk (s : Bcache) (c : Cand) (key : Nat) :
    (relink s c key).disk = s.disk := rfl

@[simp] theorem relink_get (s : Bcache) (c : Cand) (key x : Nat) :
    (relink s c key).get x = s.get x := rfl

@[simp] theorem incref_bufmap (s : Bcache) (b : Nat) : (incref s b).bufmap = s.bufmap := rfl

@[simp] theorem incref_disk (s : Bcache) (b : Nat) : (incref s b).disk = s.disk := rfl

@[simp] theorem incref_length (s : Bcache) (b : Nat) : (incref s b).buf.length = s.buf.length :=
  upd_length s b _

@[simp] theorem incref_chain (s : Bcache) (b i : Nat) : (incref s b).chain i = s.chain i := rfl

@[simp] theorem decref_bufmap (s : Bcache) (b : Nat) : (decref s b).bufmap = s.bufmap := rfl

@[simp] theorem decref_disk (s : Bcache) (b : Nat) : (decref s b).disk = s.disk := rfl

@[simp] theorem decref_length (s : Bcache) (b : Nat) : (decref s b).buf.length = s.buf.length :=
  upd_length s b _

@[simp] theorem decref_chain (s : Bcache) (b i : Nat) : (decref s b).chain i = s.chain i := rfl

theorem get_incref_ne (s : Bcache) (b x : Nat) (h : x ≠ b) : (incref s b).get x = s.get x :=
  get_upd_ne s b x _ h

theorem get_decref_ne (s : Bcache) (b x : Nat) (h : x ≠ b) : (decref s b).get x = s.get x :=
  get_upd_ne s b x _ h

theorem get_incref_self (s : Bcache) (b : Nat) (h : b < s.buf.length) :
    (incref s b).get b = { s.get b with refcnt := ((s.get b).refcnt + 1) % UINT } :=
  get_upd_self s b _ h

theorem get_decref_self (s : Bcache) (b : Nat) (h : b < s.buf.length) :
    (decref s b).get b = { s.get b with refcnt := ((s.get b).refcnt + UINT - 1) % UINT } :=
  get_upd_self s b _ h

/-- The statement `b->refcnt++` writes no other field. -/
theorem get_incref_fields (s : Bcache) (b x : Nat) :
    ((incref s b).get x).valid = (s.get x).valid ∧ ((incref s b).get x).dev = (s.get x).dev ∧
    ((incref s b).get x).blockno = (s.get x).blockno ∧
    ((incref s b).get x).lock = (s.get x).lock ∧
    ((incref s b).get x).lastuse = (s.get x).lastuse :=
  ⟨get_upd_field Buf.valid s b x _ (fun _ => rfl), get_upd_field Buf.dev s b x _ (fun _ => rfl),
    get_upd_field Buf.blockno s b x _ (fun _ => rfl), get_upd_field Buf.lock s b x _ (fun _ => rfl),
    get_upd_field Buf.lastuse s b x _ (fun _ => rfl)⟩

/-- The statement `b->refcnt--` writes no other field. -/
theorem get_decref_fields (s : Bcache) (b x : Nat) :
    ((decref s b).get x).valid = (s.get x).valid ∧ ((decref s b).get x).dev = (s.get x).dev ∧
    ((decref s b).get x).blockno = (s.get x).blockno ∧
    ((decref s b).get x).lock = (s.get x).lock ∧
    ((decref s b).get x).lastuse = (s.get x).lastuse :=
  ⟨get_upd_field Buf.valid s b x _ (fun _ => rfl), get_upd_field Buf.dev s b x _ (fun _ => rfl),
    get_upd_field Buf.blockno s b x _ (fun _ => rfl), get_upd_field Buf.lock s b x _ (fun _ => rfl),
    get_upd_field Buf.lastuse s b x _ (fun _ => rfl)⟩

theorem rebind_bufmap (s : Bcache) (dev blockno : Nat) (c : Cand) :
    (rebind s dev blockno c).bufmap =
      (if c.bucket ≠ BUFMAP_HASH dev blockno
        then relink s c (BUFMAP_HASH dev blockno) else s).bufmap := rfl

theorem rebind_pre_buf (s : Bcache) (c : Cand) (key : Nat) :
    (if c.bucket ≠ key then relink s c key else s).buf = s.buf := by
  split <;> rfl

@[simp] theorem rebind_disk (s : Bcache) (dev blockno : Nat) (c : Cand) :
    (rebind s dev blockno c).disk = s.disk := by
  unfold rebind
  split <;> rfl

@[simp] theorem rebind_length (s : Bcache) (dev blockno : Nat) (c : Cand) :
    (rebind s dev blockno c).buf.length = s.buf.length := by
  unfold rebind
  rw [upd_length, rebind_pre_buf]

theorem get_rebind_ne (s : Bcache) (dev blockno : Nat) (c : Cand) (x : Nat) (h : x ≠ c.slot) :
    (rebind s dev blockno c).get x = s.get x := by
  unfold rebind
  rw [get_upd_ne _ _ _ _ h]
  unfold Bcache.get
  rw [rebind_pre_buf]

theorem get_rebind_self (s : Bcache) (dev blockno : Nat) (c : Cand) (h : c.slot < s.buf.length) :
    (rebind s dev blockno c).get c.slot =
      { s.get c.slot with dev := dev, blockno := blockno, refcnt := 1, valid := 0 } := by
  unfold rebind
  rw [get_upd_self _ _ _ (by rw [rebind_pre_buf]; exact h)]
  unfold Bcache.get
  rw [rebind_pre_buf]

/-- The rebinding writes neither `lock` nor `lastuse`. -/
theorem get_rebind_fields (s : Bcache) (dev blockno : Nat) (c : Cand) (x : Nat) :
    ((rebind s dev blockno c).get x).lock = (s.get x).lock ∧
    ((rebind s dev blockno c).get x).lastuse = (s.get x).lastuse := by
  have h : ∀ y, (if c.bucket ≠ BUFMAP_HASH dev blockno
      then relink s c (BUFMAP_HASH dev blockno) else s).get y = s.get y := by
    intro y; unfold Bcache.get; rw [rebind_pre_buf]
  unfold rebind
  constructor <;>
  · rw [get_upd, h, rebind_pre_buf]
    split <;> rfl

/-- The three ways through `bget`: a hit on the first slot of the target chain that carries the
identity, a panic when the scan finds no candidate, the rebinding of the candidate. -/
theorem bget_cases (s : Bcache) (pid dev blockno : Nat) :
    (∃ b, lookup s (BUFMAP_HASH dev blockno) dev blockno = some b ∧
      bget s pid dev blockno = acquiresleep (incref s b) pid b) ∨
    (lookup s (BUFMAP_HASH dev blockno) dev blockno = none ∧ findVictim s = none ∧
      bget s pid dev blockno = BgetResult.panic) ∨
    (∃ c, lookup s (BUFMAP_HASH dev blockno) dev blockno = none ∧ findVictim s = some c ∧
      bget s pid dev blockno = acquiresleep (rebind s dev blockno c) pid c.slot) := by
  cases hl : lookup s (BUFMAP_HASH dev blockno) dev blockno with
  | some b => exact Or.inl ⟨b, rfl, by simp [bget, hl]⟩
  | none =>
    cases hv : findVictim s with
    | none => exact Or.inr (Or.inl ⟨rfl, rfl, by simp [bget, hl, hv]⟩)
    | some c => exact Or.inr (Or.inr ⟨c, rfl, rfl, by simp [bget, hl, hv]⟩)

/-- What `acquiresleep` leaves behind: the chains, the driver log and every field but `lock`
are as before; the call returns exactly when the lock was free. -/
theorem acquiresleep_spec (s : Bcache) (pid b : Nat) :
    ∃ t, (((s.get b).lock = none ∧ acquiresleep s pid b = BgetResult.ret t b ∧
            (b < s.buf.length → (t.get b).lock = some pid)) ∨
          ((s.get b).lock ≠ none ∧ acquiresleep s pid b = BgetResult.sleep t b ∧ t = s)) ∧
      t.bufmap = s.bufmap ∧ t.disk = s.disk ∧ t.buf.length = s.buf.length ∧
      (∀ x, x ≠ b → t.get x = s.get x) ∧
      (∀ x, (t.get x).valid = (s.get x).valid ∧ (t.get x).dev = (s.get x).dev ∧
        (t.get x).blockno = (s.get x).blockno ∧ (t.get x).refcnt = (s.get x).refcnt ∧
        (t.get x).lastuse = (s.get x).lastuse) := by
  rcases acquiresleep_cases s pid b with ⟨hl, hr⟩ | ⟨hl, hr⟩
  · refine ⟨_, Or.inl ⟨hl, hr, ?_⟩, rfl, rfl, upd_length _ _ _, ?_, ?_⟩
    · intro hb
      rw [get_upd]
      simp [hb]
    · intro x hx
      rw [get_upd]
      simp [hx]
    · intro x
      refine ⟨?_, ?_, ?_, ?_, ?_⟩ <;>
      · rw [get_upd]
        split <;> rfl
  · exact ⟨s, Or.inr ⟨hl, hr, rfl⟩, rfl, rfl, rfl, fun _ _ => rfl, fun _ => ⟨rfl, rfl, rfl, rfl, rfl⟩⟩

/-! ## Claims on the eviction victim -/

theorem chain_modAt (f : List Nat → List Nat) (n i : Nat) (m : List (List Nat)) :
    (modAt f n m).getD i [] = if i = n ∧ n < m.length then f (m.getD i []) else m.getD i [] :=
  getD_modAt f [] n i m

/-- The chains after the candidate has been moved to bucket `key`. -/
theorem chain_relink (s : Bcache) (c : Cand) (key i : Nat) :
    (relink s c key).chain i =
      if i = key ∧ key < s.bufmap.length then
        c.slot :: (if i = c.bucket then (s.chain i).eraseIdx c.pos else s.chain i)
      else (if i = c.bucket then (s.chain i).eraseIdx c.pos else s.chain i) := by
  have h1 : ∀ k, (modAt (fun l => l.eraseIdx c.pos) c.bucket s.bufmap).getD k [] =
      if k = c.bucket then (s.chain k).eraseIdx c.pos else s.chain k := by
    intro k
    rw [chain_modAt]
    by_cases hk : k = c.bucket
    · by_cases hl : c.bucket < s.bufmap.length
      · simp [hk, hl, Bcache.chain]
      · have : s.bufmap.getD c.bucket [] = [] := List.getD_eq_default _ _ (not_lt.1 hl)
        subst hk
        simp only [hl, and_false, if_false, if_true, Bcache.chain, this]
        rfl
    · simp [hk, Bcache.chain]
  show (modAt (fun l => c.slot :: l) key
    (modAt (fun l => l.eraseIdx c.pos) c.bucket s.bufmap)).getD i [] = _
  rw [chain_modAt, length_modAt, h1]

theorem mem_eraseIdx_of_ne {l : List Nat} {k x v : Nat} (hv : l[k]? = some v) (hx : x ≠ v) :
    x ∈ l.eraseIdx k ↔ x ∈ l := by
  rw [List.mem_eraseIdx_iff_getElem?]
  constructor
  · rintro ⟨i, -, hi⟩
    exact List.mem_iff_getElem?.2 ⟨i, hi⟩
  · intro h
    obtain ⟨i, hi⟩ := List.mem_iff_getElem?.1 h
    refine ⟨i, ?_, hi⟩
    rintro rfl
    rw [hv] at hi
    exact hx (Option.some.inj hi).symm

/-- Moving the candidate does not change in which chains another slot is linked. -/
theorem mem_chain_relink (s : Bcache) (c : Cand) (key i x : Nat) (hc : Linked s c)
    (hx : x ≠ c.slot) : x ∈ (relink s c key).chain i ↔ x ∈ s.chain i := by
  have h1 : x ∈ (if i = c.bucket then (s.chain i).eraseIdx c.pos else s.chain i) ↔
      x ∈ s.chain i := by
    split
    · rename_i h
      subst h
      exact mem_eraseIdx_of_ne hc.2 hx
    · rfl
  rw [chain_relink]
  split
  · rw [List.mem_cons, h1]
    constructor
    · rintro (h | h)
      · exact absurd h hx
      · exact h
    · exact Or.inr
  · exact h1

theorem mem_chain_rebind (s : Bcache) (dev blockno : Nat) (c : Cand) (i x : Nat)
    (hc : Linked s c) (hx : x ≠ c.slot) :
    x ∈ (rebind s dev blockno c).chain i ↔ x ∈ s.chain i := by
  unfold Bcache.chain
  rw [rebind_bufmap]
  split
  · exact mem_chain_relink s c _ i x hc hx
  · rfl

/-- C1. On a miss of `bget` with at least one linked slot of reference count 0, the slot that is
rebound has the least `lastuse` among all linked slots of reference count 0 of the 13 buckets,
and every slot of reference count 0 met before it in the scan order (buckets 0 to 12, each chain
from head to tail) has a strictly greater `lastuse`. -/
theorem bget_miss_rebinds_first_oldest (s : Bcache) (pid dev blockno : Nat)
    (hmiss : ∀ b ∈ s.chain (BUFMAP_HASH dev blockno),
      ¬((s.get b).dev = dev ∧ (s.get b).blockno = blockno))
    (hfree : ∃ b ∈ s.scanOrder, (s.get b).refcnt = 0) :
    ∃ t v pre post,
      (bget s pid dev blockno = BgetResult.ret t v ∨
        bget s pid dev blockno = BgetResult.sleep t v) ∧
      (v < s.buf.length → (t.get v).dev = dev ∧ (t.get v).blockno = blockno) ∧
      s.scanOrder = pre ++ v :: post ∧ (s.get v).refcnt = 0 ∧
      (∀ u ∈ s.scanOrder, (s.get u).refcnt = 0 → (s.get v).lastuse ≤ (s.get u).lastuse) ∧
      (∀ u ∈ pre, (s.get u).refcnt = 0 → (s.get v).lastuse < (s.get u).lastuse) := by
  have hl := (lookup_eq_none_iff s (BUFMAP_HASH dev blockno) dev blockno).2 hmiss
  rcases bget_cases s pid dev blockno with ⟨b, hb, -⟩ | ⟨-, hv, -⟩ | ⟨c, -, hv, hget⟩
  · rw [hl] at hb; cases hb
  · obtain ⟨b, hb, hb0⟩ := hfree
    exact absurd hb0 ((findVictim_eq_none_iff s).1 hv b hb)
  · have hbest := findVictim_best s
    rw [hv] at hbest
    obtain ⟨pre, post, hseen, hc0, hpre, hpost⟩ := hbest
    obtain ⟨t, hcase, -, -, -, -, hsame⟩ := acquiresleep_spec (rebind s dev blockno c) pid c.slot
    refine ⟨t, c.slot, pre, post, ?_, ?_, hseen, hc0, ?_, hpre⟩
    · rw [hget]
      rcases hcase with ⟨-, h, -⟩ | ⟨-, h, -⟩
      · exact Or.inl h
      · exact Or.inr h
    · intro hlen
      obtain ⟨-, h2, h3, -, -⟩ := hsame c.slot
      rw [h2, h3, get_rebind_self s dev blockno c hlen]
      exact ⟨rfl, rfl⟩
    · intro u hu hu0
      rw [hseen] at hu
      rcases List.mem_append.1 hu with hu | hu
      · exact le_of_lt (hpre u hu hu0)
      · rcases List.mem_cons.1 hu with hu | hu
        · rw [hu]
        · exact hpost u hu hu0

/-- C1, at a concrete input: the state after `binit` and the request for block 1 of device 0. -/
theorem bget_miss_rebinds_first_oldest_witness :
    ∃ t v pre post,
      (bget (binit bcache0) 1 0 1 = BgetResult.ret t v ∨
        bget (binit bcache0) 1 0 1 = BgetResult.sleep t v) ∧
      (v < (binit bcache0).buf.length → (t.get v).dev = 0 ∧ (t.get v).blockno = 1) ∧
      (binit bcache0).scanOrder = pre ++ v :: post ∧ ((binit bcache0).get v).refcnt = 0 ∧
      (∀ u ∈ (binit bcache0).scanOrder, ((binit bcache0).get u).refcnt = 0 →
        ((binit bcache0).get v).lastuse ≤ ((binit bcache0).get u).lastuse) ∧
      (∀ u ∈ pre, ((binit bcache0).get u).refcnt = 0 →
        ((binit bcache0).get v).lastuse < ((binit bcache0).get u).lastuse) :=
  bget_miss_rebinds_first_oldest (binit bcache0) 1 0 1 (by decide) (by decide)

/-- C2. A slot with a reference count above 0 keeps its device, its block number and its valid
flag through `bget`, and is linked in the same buckets afterwards, whether `bget` returns or
sleeps on the lock of the slot it found. -/
theorem bget_keeps_referenced_slots (s : Bcache) (pid dev blockno : Nat) (t : Bcache) (b : Nat)
    (hret : bget s pid dev blockno = BgetResult.ret t b ∨
      bget s pid dev blockno = BgetResult.sleep t b)
    (x : Nat) (hx : 0 < (s.get x).refcnt) :
    (t.get x).dev = (s.get x).dev ∧ (t.get x).blockno = (s.get x).blockno ∧
    (t.get x).valid = (s.get x).valid ∧ ∀ i, x ∈ t.chain i ↔ x ∈ s.chain i := by
  rcases bget_cases s pid dev blockno with ⟨h, -, hget⟩ | ⟨-, -, hget⟩ | ⟨c, -, hv, hget⟩
  · obtain ⟨t', hcase, hmap, -, -, -, hsame⟩ := acquiresleep_spec (incref s h) pid h
    have ht : t = t' := by
      rw [hget] at hret
      rcases hcase with ⟨-, h1, -⟩ | ⟨-, h1, -⟩ <;> rw [h1] at hret <;>
        rcases hret with h2 | h2 <;> cases h2 <;> rfl
    subst ht
    obtain ⟨h1, h2, h3, -, -⟩ := hsame x
    obtain ⟨g1, g2, g3, -, -⟩ := get_incref_fields s h x
    refine ⟨h2.trans g2, h3.trans g3, h1.trans g1, ?_⟩
    intro i
    unfold Bcache.chain
    rw [hmap]
    rfl
  · rw [hget] at hret
    rcases hret with h2 | h2 <;> cases h2
  · obtain ⟨t', hcase, hmap, -, -, -, hsame⟩ := acquiresleep_spec (rebind s dev blockno c) pid c.slot
    have ht : t = t' := by
      rw [hget] at hret
      rcases hcase with ⟨-, h1, -⟩ | ⟨-, h1, -⟩ <;> rw [h1] at hret <;>
        rcases hret with h2 | h2 <;> cases h2 <;> rfl
    subst ht
    have hbest := findVictim_best s
    rw [hv] at hbest
    obtain ⟨-, -, -, hc0, -, -⟩ := hbest
    have hne : x ≠ c.slot := by
      rintro rfl
      omega
    obtain ⟨h1, h2, h3, -, -⟩ := hsame x
    rw [h1, h2, h3, get_rebind_ne s dev blockno c x hne]
    refine ⟨rfl, rfl, rfl, ?_⟩
    intro i
    have : t.chain i = (rebind s dev blockno c).chain i := by
      unfold Bcache.chain
      rw [hmap]
    rw [this]
    exact mem_chain_rebind s dev blockno c i x (findVictim_linked s c hv) hne

/-! ## Claims on the outcome of `bget` -/

/-- C2, at a concrete input: process 1 holds slot 29 for block 1 of device 0 and process 2 asks
for block 2; slot 29 keeps its identity and its bucket. -/
theorem bget_keeps_referenced_slots_witness :
    ((bget heldState 2 0 2).state.get 29).dev = (heldState.get 29).dev ∧
    ((bget heldState 2 0 2).state.get 29).blockno = (heldState.get 29).blockno ∧
    ((bget heldState 2 0 2).state.get 29).valid = (heldState.get 29).valid ∧
    ∀ i, 29 ∈ (bget heldState 2 0 2).state.chain i ↔ 29 ∈ heldState.chain i :=
  bget_keeps_referenced_slots heldState 2 0 2 (bget heldState 2 0 2).state 28
    (Or.inl (by decide)) 29 (by decide)

/-- C3 (as amended). `bget` panics exactly when no slot of the target bucket carries the
identity and no linked slot of the 13 buckets has reference count 0.  In every other state it
ends on a slot: it returns the slot when the lock of that slot is free, and it sleeps in
`acquiresleep` when the lock is held. -/
theorem bget_panic_iff (s : Bcache) (pid dev blockno : Nat) :
    (bget s pid dev blockno = BgetResult.panic ↔
      ((∀ b ∈ s.chain (BUFMAP_HASH dev blockno),
          ¬((s.get b).dev = dev ∧ (s.get b).blockno = blockno)) ∧
        ∀ i, i < NBUFMAP_BUCKET → ∀ u ∈ s.chain i, (s.get u).refcnt ≠ 0)) ∧
    (bget s pid dev blockno ≠ BgetResult.panic →
      ∃ t b, ((s.get b).lock = none ∧ bget s pid dev blockno = BgetResult.ret t b) ∨
        ((s.get b).lock ≠ none ∧ bget s pid dev blockno = BgetResult.sleep t b)) := by
  have hfree : (∀ u ∈ s.scanOrder, (s.get u).refcnt ≠ 0) ↔
      ∀ i, i < NBUFMAP_BUCKET → ∀ u ∈ s.chain i, (s.get u).refcnt ≠ 0 := by
    constructor
    · intro h i hi u hu
      exact h u ((mem_scanOrder s u).2 ⟨i, hi, hu⟩)
    · intro h u hu
      obtain ⟨i, hi, hu⟩ := (mem_scanOrder s u).1 hu
      exact h i hi u hu
  rcases bget_cases s pid dev blockno with ⟨b, hb, hget⟩ | ⟨hl, hv, hget⟩ | ⟨c, hl, hv, hget⟩
  · obtain ⟨t, hcase, -, -, -, -, -⟩ := acquiresleep_spec (incref s b) pid b
    have hlock : ((incref s b).get b).lock = (s.get b).lock := (get_incref_fields s b b).2.2.2.1
    have hne : bget s pid dev blockno ≠ BgetResult.panic := by
      rw [hget]
      rcases hcase with ⟨-, h, -⟩ | ⟨-, h, -⟩ <;> rw [h] <;> simp
    refine ⟨⟨fun h => absurd h hne, ?_⟩, fun _ => ⟨t, b, ?_⟩⟩
    · rintro ⟨hmiss, -⟩
      rw [(lookup_eq_none_iff s _ dev blockno).2 hmiss] at hb
      cases hb
    · rw [hget, ← hlock]
      rcases hcase with ⟨h1, h2, -⟩ | ⟨h1, h2, -⟩
      · exact Or.inl ⟨h1, h2⟩
      · exact Or.inr ⟨h1, h2⟩
  · refine ⟨⟨fun _ => ⟨(lookup_eq_none_iff s _ dev blockno).1 hl, ?_⟩, fun _ => hget⟩,
      fun h => absurd hget h⟩
    exact hfree.1 ((findVictim_eq_none_iff s).1 hv)
  · obtain ⟨t, hcase, -, -, -, -, -⟩ := acquiresleep_spec (rebind s dev blockno c) pid c.slot
    have hlock : ((rebind s dev blockno c).get c.slot).lock = (s.get c.slot).lock :=
      (get_rebind_fields s dev blockno c c.slot).1
    have hne : bget s pid dev blockno ≠ BgetResult.panic := by
      rw [hget]
      rcases hcase with ⟨-, h, -⟩ | ⟨-, h, -⟩ <;> rw [h] <;> simp
    refine ⟨⟨fun h => absurd h hne, ?_⟩, fun _ => ⟨t, c.slot, ?_⟩⟩
    · rintro ⟨-, hno⟩
      have := (findVictim_eq_none_iff s).2 (hfree.2 hno)
      rw [hv] at this
      cases this
    · rw [hget, ← hlock]
      rcases hcase with ⟨h1, h2, -⟩ | ⟨h1, h2, -⟩
      · exact Or.inl ⟨h1, h2⟩
      · exact Or.inr ⟨h1, h2⟩

/-- C3, the claim as stated fails: after `binit` and one `bget(0, 1)` by process 1, slot 29
carries the identity in the target bucket, and a second `bget(0, 1)` by process 1 neither
panics nor returns: it sleeps on the lock of slot 29. -/
theorem bget_second_call_sleeps :
    run (binit bcache0) [Op.bget 1 0 1] = some heldState ∧
    (∃ b ∈ heldState.chain (BUFMAP_HASH 0 1),
      (heldState.get b).dev = 0 ∧ (heldState.get b).blockno = 1) ∧
    bget heldState 1 0 1 ≠ BgetResult.panic ∧
    (∀ t b, bget heldState 1 0 1 ≠ BgetResult.ret t b) ∧
    bget heldState 1 0 1 = BgetResult.sleep (incref heldState 29) 29 := by
  have h : bget heldState 1 0 1 = BgetResult.sleep (incref heldState 29) 29 := by decide
  refine ⟨by decide, by decide, ?_, ?_, h⟩
  · rw [h]; simp
  · intro t b
    rw [h]; simp

/-! ## The shape of the cache -/

theorem flatMap_range_getD (l : List (List Nat)) :
    (List.range l.length).flatMap (fun i => l.getD i []) = l.flatten := by
  induction l with
  | nil => rfl
  | cons x xs ih =>
    rw [List.length_cons, List.range_succ_eq_map, List.flatMap_cons, List.flatMap_map]
    simp only [List.getD_cons_zero, List.getD_cons_succ, List.flatten_cons]
    rw [ih]

theorem scanOrder_eq_flatten (s : Bcache) (h : s.bufmap.length = NBUFMAP_BUCKET) :
    s.scanOrder = s.bufmap.flatten := by
  unfold Bcache.scanOrder Bcache.chain
  rw [← h]
  exact flatMap_range_getD s.bufmap

theorem perm_flatten_modAt_cons (v : Nat) (m : List (List Nat)) :
    ∀ k, k < m.length → (modAt (fun l => v :: l) k m).flatten.Perm (v :: m.flatten) := by
  induction m with
  | nil => intro k hk; simp at hk
  | cons x xs ih =>
    intro k hk
    cases k with
    | zero => simp [modAt]
    | succ k =>
      simp only [modAt, List.flatten_cons]
      have := ih k (by simpa using hk)
      exact (List.Perm.append_left x this).trans List.perm_middle

theorem perm_cons_eraseIdx (v : Nat) (l : List Nat) :
    ∀ j, l[j]? = some v → (v :: l.eraseIdx j).Perm l := by
  induction l with
  | nil => intro j h; simp at h
  | cons x xs ih =>
    intro j h
    cases j with
    | zero =>
      simp at h
      subst h
      simp
    | succ j =>
      simp only [List.getElem?_cons_succ] at h
      simp only [List.eraseIdx_cons_succ]
      exact (List.Perm.swap x v _).trans (List.Perm.cons x (ih j h))

theorem perm_flatten_modAt_eraseIdx (v j : Nat) (m : List (List Nat)) :
    ∀ k, (m.getD k [])[j]? = some v →
      (v :: (modAt (fun l => l.eraseIdx j) k m).flatten).Perm m.flatten := by
  induction m with
  | nil => intro k h; simp at h
  | cons x xs ih =>
    intro k h
    cases k with
    | zero =>
      simp only [List.getD_cons_zero] at h
      simp only [modAt, List.flatten_cons]
      exact List.Perm.append_right _ (perm_cons_eraseIdx v x j h)
    | succ k =>
      simp only [List.getD_cons_succ] at h
      simp only [modAt, List.flatten_cons]
      exact List.perm_middle.symm.trans (List.Perm.append_left x (ih k h))

theorem relink_flatten_perm (s : Bcache) (c : Cand) (key : Nat) (hc : Linked s c)
    (hkey : key < s.bufmap.length) : (relink s c key).bufmap.flatten.Perm s.bufmap.flatten := by
  have h1 := perm_flatten_modAt_cons c.slot
    (modAt (fun l => l.eraseIdx c.pos) c.bucket s.bufmap) key (by rw [length_modAt]; exact hkey)
  exact h1.trans (perm_flatten_modAt_eraseIdx c.slot c.pos s.bufmap c.bucket hc.2)

theorem relink_bufmap_length (s : Bcache) (c : Cand) (key : Nat) :
    (relink s c key).bufmap.length = s.bufmap.length := by
  show (modAt _ key (modAt _ c.bucket s.bufmap)).length = _
  rw [length_modAt, length_modAt]

theorem BUFMAP_HASH_lt (dev blockno : Nat) : BUFMAP_HASH dev blockno < NBUFMAP_BUCKET :=
  Nat.mod_lt _ (by decide)

/-- The rebinding keeps the shape of the cache: same slots, same number of buckets, every slot
still linked exactly once. -/
theorem rebind_WF (s : Bcache) (dev blockno : Nat) (c : Cand) (hwf : s.WF) (hc : Linked s c) :
    (rebind s dev blockno c).WF := by
  obtain ⟨h1, h2, h3⟩ := hwf
  have hlen : (rebind s dev blockno c).bufmap.length = NBUFMAP_BUCKET := by
    rw [rebind_bufmap]
    split
    · rw [relink_bufmap_length]; exact h2
    · exact h2
  refine ⟨by rw [rebind_length]; exact h1, hlen, ?_⟩
  rw [scanOrder_eq_flatten _ hlen]
  rw [scanOrder_eq_flatten _ h2] at h3
  refine List.Perm.trans ?_ h3
  rw [rebind_bufmap]
  split
  · exact relink_flatten_perm s c _ hc (by rw [h2]; exact BUFMAP_HASH_lt dev blockno)
  · exact List.Perm.refl _

/-- A state with the same number of slots and the same chains has the same shape. -/
theorem WF_of_eq (s t : Bcache) (hwf : s.WF) (hlen : t.buf.length = s.buf.length)
    (hmap : t.bufmap = s.bufmap) : t.WF := by
  obtain ⟨h1, h2, h3⟩ := hwf
  refine ⟨hlen.trans h1, hmap ▸ h2, ?_⟩
  have : t.scanOrder = s.scanOrder := by
    unfold Bcache.scanOrder Bcache.chain
    rw [hmap]
  rw [this]
  exact h3

theorem WF_nodup (s : Bcache) (hwf : s.WF) : s.scanOrder.Nodup :=
  (hwf.2.2.nodup_iff).2 (List.nodup_range NBUF)

theorem WF_lt (s : Bcache) (hwf : s.WF) (b : Nat) (hb : b ∈ s.scanOrder) : b < s.buf.length := by
  rw [hwf.1]
  exact List.mem_range.1 (hwf.2.2.subset hb)

theorem WF_mem (s : Bcache) (hwf : s.WF) (b : Nat) (hb : b < NBUF) : b ∈ s.scanOrder :=
  hwf.2.2.symm.subset (List.mem_range.2 hb)

theorem chain_nodup (s : Bcache) (hnd : s.scanOrder.Nodup) (i : Nat) (hi : i < NBUFMAP_BUCKET) :
    (s.chain i).Nodup :=
  (List.nodup_flatMap.1 hnd).1 i (List.mem_range.2 hi)

/-- A slot linked exactly once is in one bucket only. -/
theorem chain_unique (s : Bcache) (hnd : s.scanOrder.Nodup) (i j b : Nat)
    (hi : i < NBUFMAP_BUCKET) (hj : j < NBUFMAP_BUCKET) (hbi : b ∈ s.chain i)
    (hbj : b ∈ s.chain j) : i = j := by
  by_contra hne
  have hp := (List.nodup_flatMap.1 hnd).2
  have hpw : List.Pairwise (fun a b => a ≠ b) (List.range NBUFMAP_BUCKET) :=
    List.nodup_range _
  rcases Nat.lt_or_gt_of_ne hne with hlt | hgt
  · have := List.pairwise_iff_getElem.1 hp i j (by simpa using hi) (by simpa using hj) hlt
    simp only [Function.onFun, List.getElem_range] at this
    exact this hbi hbj
  · have := List.pairwise_iff_getElem.1 hp j i (by simpa using hj) (by simpa using hi) hgt
    simp only [Function.onFun, List.getElem_range] at this
    exact this hbj hbi

theorem chain_of_le (s : Bcache) (i : Nat) (h : s.bufmap.length ≤ i) : s.chain i = [] :=
  List.getD_eq_default _ _ h

/-! ## Claims on the rebinding -/

/-- The state left by a `bget` that found or rebound a slot, in terms of the state before
`acquiresleep`. -/
theorem bget_state_cases (s : Bcache) (pid dev blockno : Nat) (t : Bcache) (b : Nat)
    (hret : bget s pid dev blockno = BgetResult.ret t b ∨
      bget s pid dev blockno = BgetResult.sleep t b) :
    ∃ u, ((lookup s (BUFMAP_HASH dev blockno) dev blockno = some b ∧ u = incref s b) ∨
        (∃ c, lookup s (BUFMAP_HASH dev blockno) dev blockno = none ∧ findVictim s = some c ∧
          c.slot = b ∧ u = rebind s dev blockno c)) ∧
      (((u.get b).lock = none ∧ bget s pid dev blockno = BgetResult.ret t b ∧
          (b < u.buf.length → (t.get b).lock = some pid)) ∨
        ((u.get b).lock ≠ none ∧ bget s pid dev blockno = BgetResult.sleep t b ∧ t = u)) ∧
      t.bufmap = u.bufmap ∧ t.disk = u.disk ∧ t.buf.length = u.buf.length ∧
      (∀ x, x ≠ b → t.get x = u.get x) ∧
      (∀ x, (t.get x).valid = (u.get x).valid ∧ (t.get x).dev = (u.get x).dev ∧
        (t.get x).blockno = (u.get x).blockno ∧ (t.get x).refcnt = (u.get x).refcnt ∧
        (t.get x).lastuse = (u.get x).lastuse) := by
  rcases bget_cases s pid dev blockno with ⟨h, hl, hget⟩ | ⟨-, -, hget⟩ | ⟨c, hl, hv, hget⟩
  · obtain ⟨t', hcase, hrest⟩ := acquiresleep_spec (incref s h) pid h
    have ht : t = t' ∧ b = h := by
      rw [hget] at hret
      rcases hcase with ⟨-, h1, -⟩ | ⟨-, h1, -⟩ <;> rw [h1] at hret <;>
        rcases hret with h2 | h2 <;> cases h2 <;> exact ⟨rfl, rfl⟩
    obtain ⟨rfl, rfl⟩ := ht
    refine ⟨incref s b, Or.inl ⟨hl, rfl⟩, ?_, hrest⟩
    rw [hget]
    exact hcase
  · rw [hget] at hret
    rcases hret with h2 | h2 <;> cases h2
  · obtain ⟨t', hcase, hrest⟩ := acquiresleep_spec (rebind s dev blockno c) pid c.slot
    have ht : t = t' ∧ b = c.slot := by
      rw [hget] at hret
      rcases hcase with ⟨-, h1, -⟩ | ⟨-, h1, -⟩ <;> rw [h1] at hret <;>
        rcases hret with h2 | h2 <;> cases h2 <;> exact ⟨rfl, rfl⟩
    obtain ⟨rfl, rfl⟩ := ht
    refine ⟨rebind s dev blockno c, Or.inr ⟨c, hl, hv, rfl, rfl⟩, ?_, hrest⟩
    rw [hget]
    exact hcase

/-- `bget` keeps the shape of the cache. -/
theorem bget_WF (s : Bcache) (pid dev blockno : Nat) (t : Bcache) (b : Nat) (hwf : s.WF)
    (hret : bget s pid dev blockno = BgetResult.ret t b ∨
      bget s pid dev blockno = BgetResult.sleep t b) : t.WF := by
  obtain ⟨u, hu, -, hmap, -, hlen, -, -⟩ := bget_state_cases s pid dev blockno t b hret
  rcases hu with ⟨-, rfl⟩ | ⟨c, -, hv, -, rfl⟩
  · exact WF_of_eq s t hwf (by rw [hlen, incref_length]) (by rw [hmap, incref_bufmap])
  · exact WF_of_eq _ t (rebind_WF s dev blockno c hwf (findVictim_linked s c hv)) hlen hmap

/-- C4. When `bget` misses in the target bucket and rebinds slot `b`, then afterwards `b` carries
the requested identity with `refcnt = 1` and `valid = 0`, it is linked once in the bucket
`BUFMAP_HASH(dev, blockno)` and in no other bucket, and every other slot is as before. -/
theorem bget_miss_rebinds (s : Bcache) (pid dev blockno : Nat) (t : Bcache) (b : Nat)
    (hwf : s.WF)
    (hmiss : ∀ x ∈ s.chain (BUFMAP_HASH dev blockno),
      ¬((s.get x).dev = dev ∧ (s.get x).blockno = blockno))
    (hret : bget s pid dev blockno = BgetResult.ret t b) :
    (t.get b).dev = dev ∧ (t.get b).blockno = blockno ∧ (t.get b).refcnt = 1 ∧
    (t.get b).valid = 0 ∧ (t.get b).lock = some pid ∧
    (t.chain (BUFMAP_HASH dev blockno)).count b = 1 ∧
    (∀ i, i ≠ BUFMAP_HASH dev blockno → b ∉ t.chain i) ∧
    (∀ x, x ≠ b → (t.get x).dev = (s.get x).dev ∧ (t.get x).blockno = (s.get x).blockno ∧
      (t.get x).refcnt = (s.get x).refcnt ∧ (t.get x).valid = (s.get x).valid ∧
      (t.get x).lastuse = (s.get x).lastuse ∧ (t.get x).lock = (s.get x).lock) := by
  have hl := (lookup_eq_none_iff s (BUFMAP_HASH dev blockno) dev blockno).2 hmiss
  have htwf := bget_WF s pid dev blockno t b hwf (Or.inl hret)
  obtain ⟨u, hu, hcase, hmap, -, hlen, hne, hsame⟩ :=
    bget_state_cases s pid dev blockno t b (Or.inl hret)
  rcases hu with ⟨hb, -⟩ | ⟨c, -, hv, rfl, rfl⟩
  · rw [hl] at hb; cases hb
  have hc := findVictim_linked s c hv
  have hmem : c.slot ∈ s.scanOrder := (mem_scanOrder s c.slot).2
    ⟨c.bucket, hc.1, List.mem_iff_getElem?.2 ⟨c.pos, hc.2⟩⟩
  have hlt := WF_lt s hwf c.slot hmem
  have hin : c.slot ∈ t.chain (BUFMAP_HASH dev blockno) := by
    have : t.chain (BUFMAP_HASH dev blockno) =
        (rebind s dev blockno c).chain (BUFMAP_HASH dev blockno) := by
      unfold Bcache.chain; rw [hmap]
    rw [this]
    unfold Bcache.chain
    rw [rebind_bufmap]
    split
    · rename_i hne'
      show c.slot ∈ (relink s c (BUFMAP_HASH dev blockno)).chain (BUFMAP_HASH dev blockno)
      rw [chain_relink]
      have : BUFMAP_HASH dev blockno < s.bufmap.length := by
        rw [hwf.2.1]; exact BUFMAP_HASH_lt dev blockno
      simp [this]
    · rename_i heq
      have heq' : c.bucket = BUFMAP_HASH dev blockno := not_not.1 heq
      rw [← heq']
      exact List.mem_iff_getElem?.2 ⟨c.pos, hc.2⟩
  have hnd := WF_nodup t htwf
  obtain ⟨h1, h2, h3, h4, h5⟩ := hsame c.slot
  have hself := get_rebind_self s dev blockno c hlt
  refine ⟨by rw [h2, hself], by rw [h3, hself], by rw [h4, hself], by rw [h1, hself], ?_,
    List.count_eq_one_of_mem (chain_nodup t hnd _ (BUFMAP_HASH_lt dev blockno)) hin, ?_, ?_⟩
  · rcases hcase with ⟨-, -, h⟩ | ⟨-, h, -⟩
    · exact h (by rw [rebind_length]; exact hlt)
    · rw [hret] at h; cases h
  · intro i hi hmem'
    by_cases hi13 : i < NBUFMAP_BUCKET
    · exact hi (chain_unique t hnd i _ c.slot hi13 (BUFMAP_HASH_lt dev blockno) hmem' hin)
    · rw [chain_of_le t i (by rw [htwf.2.1]; exact not_lt.1 hi13)] at hmem'
      cases hmem'
  · intro x hx
    obtain ⟨g1, g2, g3, g4, g5⟩ := hsame x
    have hg := get_rebind_ne s dev blockno c x hx
    refine ⟨by rw [g2, hg], by rw [g3, hg], by rw [g4, hg], by rw [g1, hg], by rw [g5, hg], ?_⟩
    rw [hne x hx, hg]

/-! ## Placement of the slots and `brelse` -/

theorem binit_WF : (binit bcache0).WF := by
  refine ⟨by decide, by decide, ?_⟩
  have : (binit bcache0).scanOrder = (List.range NBUF).reverse := by decide
  rw [this]
  exact List.reverse_perm _

theorem binit_Placed : (binit bcache0).Placed := by
  unfold Bcache.Placed
  decide

/-- C4, at a concrete input: the first request after `binit`, for block 1 of device 0. -/
theorem bget_miss_rebinds_witness :
    (heldState.get 29).dev = 0 ∧ (heldState.get 29).blockno = 1 ∧ (heldState.get 29).refcnt = 1 ∧
    (heldState.get 29).valid = 0 ∧ (heldState.get 29).lock = some 1 ∧
    (heldState.chain (BUFMAP_HASH 0 1)).count 29 = 1 ∧
    (∀ i, i ≠ BUFMAP_HASH 0 1 → 29 ∉ heldState.chain i) ∧
    (∀ x, x ≠ 29 → (heldState.get x).dev = ((binit bcache0).get x).dev ∧
      (heldState.get x).blockno = ((binit bcache0).get x).blockno ∧
      (heldState.get x).refcnt = ((binit bcache0).get x).refcnt ∧
      (heldState.get x).valid = ((binit bcache0).get x).valid ∧
      (heldState.get x).lastuse = ((binit bcache0).get x).lastuse ∧
      (heldState.get x).lock = ((binit bcache0).get x).lock) :=
  bget_miss_rebinds (binit bcache0) 1 0 1 heldState 29 binit_WF (by decide) (by decide)

/-- The rebound slot is linked in the target bucket. -/
theorem mem_chain_rebind_self (s : Bcache) (dev blockno : Nat) (c : Cand)
    (hlen : s.bufmap.length = NBUFMAP_BUCKET) (hc : Linked s c) :
    c.slot ∈ (rebind s dev blockno c).chain (BUFMAP_HASH dev blockno) := by
  unfold Bcache.chain
  rw [rebind_bufmap]
  split
  · show c.slot ∈ (relink s c (BUFMAP_HASH dev blockno)).chain (BUFMAP_HASH dev blockno)
    rw [chain_relink]
    have : BUFMAP_HASH dev blockno < s.bufmap.length := by
      rw [hlen]; exact BUFMAP_HASH_lt dev blockno
    simp [this]
  · rename_i heq
    have heq' : c.bucket = BUFMAP_HASH dev blockno := not_not.1 heq
    rw [← heq']
    exact List.mem_iff_getElem?.2 ⟨c.pos, hc.2⟩

/-- A state with the same chains and the same identities is placed like the other. -/
theorem Placed_of_eq (s t : Bcache) (hp : s.Placed) (hmap : t.bufmap = s.bufmap)
    (hid : ∀ x, (t.get x).dev = (s.get x).dev ∧ (t.get x).blockno = (s.get x).blockno) :
    t.Placed := by
  intro i hi b hb
  have : t.chain i = s.chain i := by unfold Bcache.chain; rw [hmap]
  rw [this] at hb
  rw [(hid b).1, (hid b).2]
  exact hp i hi b hb

theorem rebind_Placed (s : Bcache) (dev blockno : Nat) (c : Cand) (hwf : s.WF)
    (hp : s.Placed) (hc : Linked s c) : (rebind s dev blockno c).Placed := by
  intro i hi b hb
  have hwf' := rebind_WF s dev blockno c hwf hc
  have hself := mem_chain_rebind_self s dev blockno c hwf.2.1 hc
  by_cases hbc : b = c.slot
  · subst hbc
    have hmem : c.slot ∈ s.scanOrder := (mem_scanOrder s c.slot).2
      ⟨c.bucket, hc.1, List.mem_iff_getElem?.2 ⟨c.pos, hc.2⟩⟩
    rw [get_rebind_self s dev blockno c (WF_lt s hwf c.slot hmem)]
    exact chain_unique _ (WF_nodup _ hwf') _ i c.slot (BUFMAP_HASH_lt dev blockno) hi hself hb
  · rw [get_rebind_ne s dev blockno c b hbc]
    exact hp i hi b ((mem_chain_rebind s dev blockno c i b hc hbc).1 hb)

theorem bget_Placed (s : Bcache) (pid dev blockno : Nat) (t : Bcache) (b : Nat) (hwf : s.WF)
    (hp : s.Placed)
    (hret : bget s pid dev blockno = BgetResult.ret t b ∨
      bget s pid dev blockno = BgetResult.sleep t b) : t.Placed := by
  obtain ⟨u, hu, -, hmap, -, -, -, hsame⟩ := bget_state_cases s pid dev blockno t b hret
  have hup : u.Placed := by
    rcases hu with ⟨-, rfl⟩ | ⟨c, -, hv, -, rfl⟩
    · exact Placed_of_eq s _ hp rfl
        (fun x => ⟨(get_incref_fields s b x).2.1, (get_incref_fields s b x).2.2.1⟩)
    · exact rebind_Placed s dev blockno c hwf hp (findVictim_linked s c hv)
  exact Placed_of_eq u t hup hmap (fun x => ⟨(hsame x).2.1, (hsame x).2.2.1⟩)

/-- What `brelse` does when it does not panic. -/
theorem brelse_spec (s : Bcache) (pid b ticks : Nat) (t : Bcache)
    (h : brelse s pid b ticks = some t) :
    (s.get b).lock = some pid ∧ b < s.buf.length ∧
    t.bufmap = s.bufmap ∧ t.disk = s.disk ∧ t.buf.length = s.buf.length ∧
    (∀ x, x ≠ b → t.get x = s.get x) ∧
    (t.get b).lock = none ∧ (t.get b).refcnt = ((s.get b).refcnt + UINT - 1) % UINT ∧
    (t.get b).lastuse = (if (t.get b).refcnt = 0 then ticks else (s.get b).lastuse) ∧
    (t.get b).dev = (s.get b).dev ∧ (t.get b).blockno = (s.get b).blockno ∧
    (t.get b).valid = (s.get b).valid := by
  unfold brelse at h
  split at h
  · rename_i hh
    have hlock : (s.get b).lock = some pid := by simpa [holdingsleep] using hh
    have hlt : b < s.buf.length := by
      by_contra hge
      rw [get_of_le s b (not_lt.1 hge)] at hlock
      cases hlock
    have e1 : (decref (s.upd b (fun x => { x with lock := none })) b).get b =
        { s.get b with lock := none, refcnt := ((s.get b).refcnt + UINT - 1) % UINT } := by
      rw [get_decref_self _ _ (by rw [upd_length]; exact hlt), get_upd_self _ _ _ hlt]
    have e2 : ∀ x, x ≠ b →
        (decref (s.upd b (fun x => { x with lock := none })) b).get x = s.get x := by
      intro x hx
      rw [get_decref_ne _ _ _ hx, get_upd_ne _ _ _ _ hx]
    simp only [Option.some.injEq] at h
    subst h
    refine ⟨hlock, hlt, ?_, ?_, ?_, ?_, ?_⟩
    · split <;> rfl
    · split <;> rfl
    · split
      · rw [upd_length, decref_length, upd_length]
      · rw [decref_length, upd_length]
    · intro x hx
      split
      · rw [get_upd_ne _ _ _ _ hx, e2 x hx]
      · exact e2 x hx
    · split
      · rename_i h0
        rw [get_upd_self _ _ _ (by rw [decref_length, upd_length]; exact hlt), e1]
        rw [e1] at h0
        simp at h0
        simp [h0]
      · rename_i h0
        rw [e1] at h0 ⊢
        simp at h0
        simp [h0]
  · cases h

/-! ## Calls that return: frames and invariants -/

/-- C10. When the caller holds the lock of slot `b` and `b->refcnt` is at least 1, `brelse(b)`
does not panic, frees the lock and lowers `refcnt` by exactly 1; `lastuse` becomes the tick
counter when the new count is 0 and is unchanged otherwise; the identity, the valid flag, the
chains, the driver log and all other slots are unchanged. -/
theorem brelse_releases (s : Bcache) (pid b ticks : Nat)
    (hlock : (s.get b).lock = some pid) (h1 : 1 ≤ (s.get b).refcnt)
    (h2 : (s.get b).refcnt < UINT) :
    ∃ t, brelse s pid b ticks = some t ∧ (t.get b).lock = none ∧
      (t.get b).refcnt = (s.get b).refcnt - 1 ∧
      (t.get b).lastuse = (if (s.get b).refcnt - 1 = 0 then ticks else (s.get b).lastuse) ∧
      (t.get b).dev = (s.get b).dev ∧ (t.get b).blockno = (s.get b).blockno ∧
      (t.get b).valid = (s.get b).valid ∧ t.bufmap = s.bufmap ∧ t.disk = s.disk ∧
      ∀ x, x ≠ b → t.get x = s.get x := by
  obtain ⟨t, ht⟩ : ∃ t, brelse s pid b ticks = some t := by
    simp [brelse, holdingsleep, hlock]
  obtain ⟨-, -, g1, g2, -, g3, g4, g5, g6, g7, g8, g9⟩ := brelse_spec s pid b ticks t ht
  have hr : ((s.get b).refcnt + UINT - 1) % UINT = (s.get b).refcnt - 1 := by
    have : (s.get b).refcnt + UINT - 1 = (s.get b).refcnt - 1 + UINT := by omega
    rw [this, Nat.add_mod_right, Nat.mod_eq_of_lt (by omega)]
  rw [hr] at g5
  rw [g5] at g6
  exact ⟨t, ht, g4, g5, g6, g7, g8, g9, g1, g2, g3⟩

/-- C10, at a concrete input: process 1 releases slot 29, which it holds, at tick 7. -/
theorem brelse_releases_witness :
    ∃ t, brelse heldState 1 29 7 = some t ∧ (t.get 29).lock = none ∧
      (t.get 29).refcnt = (heldState.get 29).refcnt - 1 ∧
      (t.get 29).lastuse = (if (heldState.get 29).refcnt - 1 = 0 then 7
        else (heldState.get 29).lastuse) ∧
      (t.get 29).dev = (heldState.get 29).dev ∧ (t.get 29).blockno = (heldState.get 29).blockno ∧
      (t.get 29).valid = (heldState.get 29).valid ∧ t.bufmap = heldState.bufmap ∧
      t.disk = heldState.disk ∧ ∀ x, x ≠ 29 → t.get x = heldState.get x :=
  brelse_releases heldState 1 29 7 (by decide) (by decide) (by decide)

theorem Frame.refl (s : Bcache) : Frame s s := ⟨rfl, rfl, fun _ => ⟨rfl, rfl, Or.inl rfl⟩⟩

theorem Frame.trans {s t u : Bcache} (h1 : Frame s t) (h2 : Frame t u) : Frame s u := by
  refine ⟨h2.1.trans h1.1, h2.2.1.trans h1.2.1, fun x => ⟨?_, ?_, ?_⟩⟩
  · exact ((h2.2.2 x).1).trans (h1.2.2 x).1
  · exact ((h2.2.2 x).2.1).trans (h1.2.2 x).2.1
  · rcases (h2.2.2 x).2.2 with h | h
    · rw [h]; exact (h1.2.2 x).2.2
    · exact Or.inr h

theorem Frame.chain {s t : Bcache} (h : Frame s t) (i : Nat) : t.chain i = s.chain i := by
  unfold Bcache.chain; rw [h.1]

theorem Frame.scanOrder {s t : Bcache} (h : Frame s t) : t.scanOrder = s.scanOrder := by
  unfold Bcache.scanOrder Bcache.chain; rw [h.1]

theorem Frame.WF {s t : Bcache} (h : Frame s t) (hwf : s.WF) : t.WF :=
  WF_of_eq s t hwf h.2.1 h.1

theorem Frame.Placed {s t : Bcache} (h : Frame s t) (hp : s.Placed) : t.Placed :=
  Placed_of_eq s t hp h.1 (fun x => ⟨(h.2.2 x).1, (h.2.2 x).2.1⟩)

theorem Frame.lookup {s t : Bcache} (h : Frame s t) (key dev blockno : Nat) :
    lookup t key dev blockno = lookup s key dev blockno := by
  unfold Bio.lookup
  rw [h.chain]
  congr 1
  funext b
  rw [(h.2.2 b).1, (h.2.2 b).2.1]

theorem frame_upd (s : Bcache) (b : Nat) (f : Buf → Buf) (hd : ∀ y, (f y).dev = y.dev)
    (hb : ∀ y, (f y).blockno = y.blockno)
    (hv : ∀ y, (f y).valid = y.valid ∨ (f y).valid = 1) : Frame s (s.upd b f) := by
  refine ⟨rfl, upd_length s b f, fun x =>
    ⟨get_upd_field Buf.dev s b x f hd, get_upd_field Buf.blockno s b x f hb, ?_⟩⟩
  rw [get_upd]
  split
  · exact hv _
  · exact Or.inl rfl

theorem frame_incref (s : Bcache) (b : Nat) : Frame s (incref s b) :=
  frame_upd s b _ (fun _ => rfl) (fun _ => rfl) (fun _ => Or.inl rfl)

theorem frame_decref (s : Bcache) (b : Nat) : Frame s (decref s b) :=
  frame_upd s b _ (fun _ => rfl) (fun _ => rfl) (fun _ => Or.inl rfl)

theorem frame_brelse (s : Bcache) (pid b ticks : Nat) (t : Bcache)
    (h : brelse s pid b ticks = some t) : Frame s t := by
  obtain ⟨-, -, g1, -, g2, g3, -, -, -, g7, g8, g9⟩ := brelse_spec s pid b ticks t h
  refine ⟨g1, g2, fun x => ?_⟩
  by_cases hx : x = b
  · subst hx; exact ⟨g7, g8, Or.inl g9⟩
  · rw [g3 x hx]; exact ⟨rfl, rfl, Or.inl rfl⟩

/-- The two shapes of a `bget` that ends on a slot: the identities and the chains are as before
(hit), or they are those left by the rebinding of the candidate of the scan (miss). -/
theorem bget_frame (s : Bcache) (pid dev blockno : Nat) (t : Bcache) (b : Nat)
    (hret : bget s pid dev blockno = BgetResult.ret t b ∨
      bget s pid dev blockno = BgetResult.sleep t b) :
    (lookup s (BUFMAP_HASH dev blockno) dev blockno = some b ∧ Frame s t) ∨
    (∃ c, lookup s (BUFMAP_HASH dev blockno) dev blockno = none ∧ findVictim s = some c ∧
      c.slot = b ∧ Frame (rebind s dev blockno c) t) := by
  obtain ⟨u, hu, -, hmap, -, hlen, -, hsame⟩ := bget_state_cases s pid dev blockno t b hret
  have hf : Frame u t :=
    ⟨hmap, hlen, fun x => ⟨(hsame x).2.1, (hsame x).2.2.1, Or.inl (hsame x).1⟩⟩
  rcases hu with ⟨hl, rfl⟩ | ⟨c, hl, hv, hc, rfl⟩
  · exact Or.inl ⟨hl, (frame_incref s b).trans hf⟩
  · exact Or.inr ⟨c, hl, hv, hc, hf⟩

/-- The function `bread` in terms of the result of `bget`. -/
theorem bread_ret (s : Bcache) (pid dev blockno : Nat) (t : Bcache) (b : Nat)
    (h : bread s pid dev blockno = BgetResult.ret t b) :
    ∃ u, bget s pid dev blockno = BgetResult.ret u b ∧
      (((u.get b).valid = 0 ∧
          t = { u with disk := u.disk ++ [(b, 0)] }.upd b (fun x => { x with valid := 1 })) ∨
        ((u.get b).valid ≠ 0 ∧ t = u)) := by
  cases hg : bget s pid dev blockno with
  | panic => simp [bread, hg] at h
  | sleep u b' => simp [bread, hg] at h
  | ret u b' =>
    simp only [bread, hg] at h
    split at h
    · rename_i hv
      cases h
      exact ⟨_, rfl, Or.inl ⟨hv, rfl⟩⟩
    · rename_i hv
      cases h
      exact ⟨_, rfl, Or.inr ⟨hv, rfl⟩⟩

theorem bread_frame (s : Bcache) (pid dev blockno : Nat) (t : Bcache) (b : Nat)
    (h : bread s pid dev blockno = BgetResult.ret t b) :
    ∃ u, bget s pid dev blockno = BgetResult.ret u b ∧ Frame u t := by
  obtain ⟨u, hget, hcase⟩ := bread_ret s pid dev blockno t b h
  refine ⟨u, hget, ?_⟩
  rcases hcase with ⟨-, rfl⟩ | ⟨-, rfl⟩
  · exact frame_upd { u with disk := u.disk ++ [(b, 0)] } b _ (fun _ => rfl) (fun _ => rfl)
      (fun _ => Or.inr rfl)
  · exact Frame.refl _

/-- Every call that returns either keeps the chains and the identities, or is a `bget`/`bread`
that missed and rebound the candidate of the scan. -/
theorem step_frame (s : Bcache) (op : Op) (t : Bcache) (r : Option Nat)
    (h : step s op = some (t, r)) :
    Frame s t ∨
    ∃ pid dev blockno c, (op = Op.bget pid dev blockno ∨ op = Op.bread pid dev blockno) ∧
      lookup s (BUFMAP_HASH dev blockno) dev blockno = none ∧ findVictim s = some c ∧
      r = some c.slot ∧ Frame (rebind s dev blockno c) t := by
  cases op with
  | bget pid dev blockno =>
    simp only [step] at h
    cases hg : bget s pid dev blockno with
    | panic => rw [hg] at h; cases h
    | sleep u b => rw [hg] at h; cases h
    | ret u b =>
      rw [hg] at h
      cases h
      rcases bget_frame s pid dev blockno t b (Or.inl hg) with ⟨-, hf⟩ | ⟨c, hl, hv, hc, hf⟩
      · exact Or.inl hf
      · exact Or.inr ⟨pid, dev, blockno, c, Or.inl rfl, hl, hv, by rw [hc], hf⟩
  | bread pid dev blockno =>
    simp only [step] at h
    cases hg : bread s pid dev blockno with
    | panic => rw [hg] at h; cases h
    | sleep u b => rw [hg] at h; cases h
    | ret u b =>
      rw [hg] at h
      cases h
      obtain ⟨u, hget, hfu⟩ := bread_frame s pid dev blockno t b hg
      rcases bget_frame s pid dev blockno u b (Or.inl hget) with ⟨-, hf⟩ | ⟨c, hl, hv, hc, hf⟩
      · exact Or.inl (hf.trans hfu)
      · exact Or.inr ⟨pid, dev, blockno, c, Or.inr rfl, hl, hv, by rw [hc], hf.trans hfu⟩
  | brelse pid b ticks =>
    simp only [step] at h
    cases hb : brelse s pid b ticks with
    | none => rw [hb] at h; cases h
    | some u =>
      rw [hb] at h
      cases h
      exact Or.inl (frame_brelse s pid b ticks t hb)
  | bpin b =>
    simp only [step] at h
    cases h
    exact Or.inl (frame_incref s b)
  | bunpin b =>
    simp only [step] at h
    cases h
    exact Or.inl (frame_decref s b)

theorem step_WF (s : Bcache) (op : Op) (t : Bcache) (r : Option Nat)
    (h : step s op = some (t, r)) (hwf : s.WF) (hp : s.Placed) : t.WF ∧ t.Placed := by
  rcases step_frame s op t r h with hf | ⟨pid, dev, blockno, c, -, -, hv, -, hf⟩
  · exact ⟨hf.WF hwf, hf.Placed hp⟩
  · have hc := findVictim_linked s c hv
    exact ⟨hf.WF (rebind_WF s dev blockno c hwf hc),
      hf.Placed (rebind_Placed s dev blockno c hwf hp hc)⟩

theorem run_WF (ops : List Op) : ∀ (s t : Bcache), run s ops = some t → s.WF → s.Placed →
    t.WF ∧ t.Placed := by
  induction ops with
  | nil =>
    intro s t h hwf hp
    simp only [run, Option.some.injEq] at h
    subst h
    exact ⟨hwf, hp⟩
  | cons op ops ih =>
    intro s t h hwf hp
    simp only [run] at h
    cases hs : step s op with
    | none => rw [hs] at h; cases h
    | some p =>
      obtain ⟨u, r⟩ := p
      rw [hs] at h
      obtain ⟨h1, h2⟩ := step_WF s op u r hs hwf hp
      exact ih u t h h1 h2

theorem reachable_WF (s : Bcache) (h : Reachable s) : s.WF ∧ s.Placed := by
  obtain ⟨ops, hops⟩ := h
  exact run_WF ops _ s hops binit_WF binit_Placed

/-- C7. In the state after `binit` and in every state reached from it by calls of `bget`,
`bread`, `brelse`, `bpin` and `bunpin` that return, each of the `NBUF` slots is linked exactly
once, in exactly one of the 13 bucket chains, and that bucket is
`BUFMAP_HASH(slot.dev, slot.blockno) = (((dev << 27) | blockno) mod 2^32) mod 13`, an index
below 13. -/
theorem reachable_slot_in_hash_bucket (s : Bcache) (h : Reachable s) (b : Nat) (hb : b < NBUF) :
    s.bufmap.length = 13 ∧
    BUFMAP_HASH (s.get b).dev (s.get b).blockno =
      ((((s.get b).dev <<< 27) ||| (s.get b).blockno) % 2 ^ 32) % 13 ∧
    BUFMAP_HASH (s.get b).dev (s.get b).blockno < 13 ∧
    (s.chain (BUFMAP_HASH (s.get b).dev (s.get b).blockno)).count b = 1 ∧
    ∀ i, i ≠ BUFMAP_HASH (s.get b).dev (s.get b).blockno → (s.chain i).count b = 0 := by
  obtain ⟨hwf, hp⟩ := reachable_WF s h
  have hnd := WF_nodup s hwf
  obtain ⟨i, hi, hmem⟩ := (mem_scanOrder s b).1 (WF_mem s hwf b hb)
  have hkey := hp i hi b hmem
  refine ⟨hwf.2.1, rfl, BUFMAP_HASH_lt _ _, ?_, ?_⟩
  · rw [hkey]
    exact List.count_eq_one_of_mem (chain_nodup s hnd i hi) hmem
  · intro j hj
    rw [List.count_eq_zero]
    intro hmem'
    by_cases hj13 : j < NBUFMAP_BUCKET
    · exact hj ((chain_unique s hnd j i b hj13 hi hmem' hmem).trans hkey.symm)
    · rw [chain_of_le s j (by rw [hwf.2.1]; exact not_lt.1 hj13)] at hmem'
      cases hmem'

/-! ## Lookups along a sequence of calls -/

/-- C7, at a concrete input: slot 29 in the state after `binit` and one `bget(0, 1)`. -/
theorem reachable_slot_in_hash_bucket_witness :
    heldState.bufmap.length = 13 ∧
    BUFMAP_HASH (heldState.get 29).dev (heldState.get 29).blockno =
      ((((heldState.get 29).dev <<< 27) ||| (heldState.get 29).blockno) % 2 ^ 32) % 13 ∧
    BUFMAP_HASH (heldState.get 29).dev (heldState.get 29).blockno < 13 ∧
    (heldState.chain (BUFMAP_HASH (heldState.get 29).dev (heldState.get 29).blockno)).count 29
      = 1 ∧
    ∀ i, i ≠ BUFMAP_HASH (heldState.get 29).dev (heldState.get 29).blockno →
      (heldState.chain i).count 29 = 0 :=
  reachable_slot_in_hash_bucket heldState ⟨[Op.bget 1 0 1], by decide⟩ 29 (by decide)

theorem find?_eraseIdx_of_false (p : Nat → Bool) (v : Nat) (hp : p v = false) (l : List Nat) :
    ∀ k, l[k]? = some v → (l.eraseIdx k).find? p = l.find? p := by
  induction l with
  | nil => intro k h; simp at h
  | cons x xs ih =>
    intro k h
    cases k with
    | zero =>
      simp at h
      subst h
      simp [List.find?_cons, hp]
    | succ k =>
      simp only [List.getElem?_cons_succ] at h
      simp only [List.eraseIdx_cons_succ, List.find?_cons]
      rw [ih k h]

theorem find?_congr_except (p q : Nat → Bool) (v b : Nat) (hq : q v = false) (hbv : b ≠ v)
    (hpq : ∀ x, x ≠ v → q x = p x) (l : List Nat) (h : l.find? p = some b) :
    l.find? q = some b := by
  induction l with
  | nil => simp at h
  | cons x xs ih =>
    rw [List.find?_cons] at h ⊢
    by_cases hx : x = v
    · subst hx
      rw [hq]
      cases hpx : p x with
      | true => rw [hpx] at h; simp at h; exact absurd h.symm hbv
      | false => rw [hpx] at h; exact ih h
    · rw [hpq x hx]
      cases hpx : p x with
      | true => rw [hpx] at h; exact h
      | false => rw [hpx] at h; exact ih h

/-- Rebinding another slot to another identity does not change which slot a lookup finds. -/
theorem lookup_rebind (s : Bcache) (dev blockno : Nat) (c : Cand) (key d n b : Nat)
    (hc : Linked s c) (hlt : c.slot < s.buf.length) (hb : b ≠ c.slot)
    (hid : ¬(dev = d ∧ blockno = n)) (h : lookup s key d n = some b) :
    lookup (rebind s dev blockno c) key d n = some b := by
  have hq : (fun x => ((rebind s dev blockno c).get x).dev == d &&
      ((rebind s dev blockno c).get x).blockno == n) c.slot = false := by
    show (((rebind s dev blockno c).get c.slot).dev == d &&
      ((rebind s dev blockno c).get c.slot).blockno == n) = false
    rw [get_rebind_self s dev blockno c hlt]
    simpa using hid
  have hpq : ∀ x, x ≠ c.slot →
      (fun x => ((rebind s dev blockno c).get x).dev == d &&
        ((rebind s dev blockno c).get x).blockno == n) x =
      (fun x => (s.get x).dev == d && (s.get x).blockno == n) x := by
    intro x hx
    show (((rebind s dev blockno c).get x).dev == d &&
      ((rebind s dev blockno c).get x).blockno == n) = _
    rw [get_rebind_ne s dev blockno c x hx]
  have hold := find?_congr_except _ _ c.slot b hq hb hpq (s.chain key) h
  have herase : (if key = c.bucket then (s.chain key).eraseIdx c.pos else s.chain key).find?
      (fun x => ((rebind s dev blockno c).get x).dev == d &&
        ((rebind s dev blockno c).get x).blockno == n) = some b := by
    split
    · rename_i hk
      subst hk
      rw [find?_eraseIdx_of_false _ c.slot hq _ c.pos hc.2]
      exact hold
    · exact hold
  unfold lookup
  have hch : (rebind s dev blockno c).chain key =
      (if c.bucket ≠ BUFMAP_HASH dev blockno
        then relink s c (BUFMAP_HASH dev blockno) else s).chain key := rfl
  rw [hch]
  split
  · rw [chain_relink]
    split
    · rw [List.find?_cons]
      simp only [] at hq
      rw [hq]
      exact herase
    · exact herase
  · exact hold

/-- A call that returns does not change which slot a lookup of `(d, n)` finds, as long as that
slot carries `(d, n)` afterwards. -/
theorem step_lookup (s : Bcache) (op : Op) (t : Bcache) (r : Option Nat)
    (h : step s op = some (t, r)) (hwf : s.WF) (key d n b : Nat)
    (hkey : key = BUFMAP_HASH d n)
    (hl : lookup s key d n = some b) (hid : (t.get b).dev = d ∧ (t.get b).blockno = n) :
    lookup t key d n = some b ∧ ((s.get b).valid ≠ 0 → (t.get b).valid ≠ 0) := by
  rcases step_frame s op t r h with hf | ⟨pid, dev, blockno, c, -, hmiss, hv, -, hf⟩
  · refine ⟨by rw [hf.lookup]; exact hl, fun h0 => ?_⟩
    rcases (hf.2.2 b).2.2 with h1 | h1
    · rw [h1]; exact h0
    · rw [h1]; exact one_ne_zero
  · have hc := findVictim_linked s c hv
    have hmem : c.slot ∈ s.scanOrder := (mem_scanOrder s c.slot).2
      ⟨c.bucket, hc.1, List.mem_iff_getElem?.2 ⟨c.pos, hc.2⟩⟩
    have hlt := WF_lt s hwf c.slot hmem
    have hne : ¬(dev = d ∧ blockno = n) := by
      rintro ⟨rfl, rfl⟩
      rw [← hkey, hl] at hmiss
      cases hmiss
    have hb : b ≠ c.slot := by
      rintro rfl
      apply hne
      have h1 := (hf.2.2 c.slot).1
      have h2 := (hf.2.2 c.slot).2.1
      rw [get_rebind_self s dev blockno c hlt] at h1 h2
      exact ⟨h1.symm.trans hid.1, h2.symm.trans hid.2⟩
    refine ⟨by rw [hf.lookup]; exact lookup_rebind s dev blockno c key d n b hc hlt hb hne hl,
      fun h0 => ?_⟩
    rcases (hf.2.2 b).2.2 with h1 | h1
    · rw [h1, get_rebind_ne s dev blockno c b hb]; exact h0
    · rw [h1]; exact one_ne_zero

/-- A slot with a reference count above 0 is not rebound by a call that returns. -/
theorem step_keeps_referenced (s : Bcache) (op : Op) (t : Bcache) (r : Option Nat)
    (h : step s op = some (t, r)) (b : Nat) (hb : 0 < (s.get b).refcnt) :
    (t.get b).dev = (s.get b).dev ∧ (t.get b).blockno = (s.get b).blockno := by
  rcases step_frame s op t r h with hf | ⟨pid, dev, blockno, c, -, -, hv, -, hf⟩
  · exact ⟨(hf.2.2 b).1, (hf.2.2 b).2.1⟩
  · have hbest := findVictim_best s
    rw [hv] at hbest
    obtain ⟨-, -, -, hc0, -, -⟩ := hbest
    have hne : b ≠ c.slot := by
      rintro rfl
      omega
    have := get_rebind_ne s dev blockno c b hne
    exact ⟨((hf.2.2 b).1).trans (by rw [this]), ((hf.2.2 b).2.1).trans (by rw [this])⟩

theorem visited_cons (s : Bcache) (op : Op) (ops : List Op) (sts : List Bcache)
    (h : visited s (op :: ops) = some sts) :
    ∃ u r rest, step s op = some (u, r) ∧ visited u ops = some rest ∧ sts = s :: rest := by
  simp only [visited] at h
  cases hs : step s op with
  | none => simp [hs] at h
  | some p =>
    obtain ⟨u, r⟩ := p
    simp only [hs] at h
    cases hvis : visited u ops with
    | none => simp [hvis] at h
    | some rest =>
      simp only [hvis, Option.map_some', Option.some.injEq] at h
      exact ⟨u, r, rest, rfl, hvis, h.symm⟩

theorem visited_head (s : Bcache) (ops : List Op) (sts : List Bcache)
    (h : visited s ops = some sts) : ∃ rest, sts = s :: rest := by
  cases ops with
  | nil =>
    simp only [visited, Option.some.injEq] at h
    exact ⟨[], h.symm⟩
  | cons op ops =>
    obtain ⟨u, r, rest, -, -, h3⟩ := visited_cons s op ops sts h
    exact ⟨rest, h3⟩

/-- Along a sequence of calls that return, a lookup keeps finding the slot `b` as long as `b`
carries the identity in every state visited. -/
theorem visited_lookup (ops : List Op) : ∀ (s : Bcache) (sts : List Bcache),
    visited s ops = some sts → s.WF → s.Placed → ∀ (key d n b : Nat), key = BUFMAP_HASH d n →
    lookup s key d n = some b →
    (∀ st ∈ sts, (st.get b).dev = d ∧ (st.get b).blockno = n) →
    ∀ st ∈ sts, st.WF ∧ st.Placed ∧ lookup st key d n = some b ∧
      ((s.get b).valid ≠ 0 → (st.get b).valid ≠ 0) := by
  induction ops with
  | nil =>
    intro s sts h hwf hp key d n b _ hl _ st hst
    simp only [visited, Option.some.injEq] at h
    subst h
    rw [List.mem_singleton] at hst
    subst hst
    exact ⟨hwf, hp, hl, id⟩
  | cons op ops ih =>
    intro s sts h hwf hp key d n b hkey hl hid st hst
    obtain ⟨u, r, rest, hs, hvis, rfl⟩ := visited_cons s op ops sts h
    rcases List.mem_cons.1 hst with rfl | hst'
    · exact ⟨hwf, hp, hl, id⟩
    · obtain ⟨rest', hrest⟩ := visited_head u ops rest hvis
      have hu : u ∈ rest := by rw [hrest]; exact List.mem_cons_self _ _
      obtain ⟨h1, h2⟩ := step_WF s op u r hs hwf hp
      obtain ⟨hlu, hvu⟩ := step_lookup s op u r hs hwf key d n b hkey hl
        (hid u (List.mem_cons_of_mem _ hu))
      obtain ⟨g1, g2, g3, g4⟩ := ih u rest hvis h1 h2 key d n b hkey hlu
        (fun st' hst'' => hid st' (List.mem_cons_of_mem _ hst'')) st hst'
      exact ⟨g1, g2, g3, fun h0 => g4 (hvu h0)⟩


/-- Along a sequence of calls that return, a slot whose reference count stays above 0 keeps its
identity. -/
theorem visited_keeps_referenced (ops : List Op) : ∀ (s : Bcache) (sts : List Bcache) (b : Nat),
    visited s ops = some sts → (∀ st ∈ sts, 0 < (st.get b).refcnt) →
    ∀ st ∈ sts, (st.get b).dev = (s.get b).dev ∧ (st.get b).blockno = (s.get b).blockno := by
  induction ops with
  | nil =>
    intro s sts b h _ st hst
    simp only [visited, Option.some.injEq] at h
    subst h
    rw [List.mem_singleton] at hst
    subst hst
    exact ⟨rfl, rfl⟩
  | cons op ops ih =>
    intro s sts b h href st hst
    obtain ⟨u, r, rest, hs, hvis, rfl⟩ := visited_cons s op ops sts h
    rcases List.mem_cons.1 hst with rfl | hst'
    · exact ⟨rfl, rfl⟩
    · have hk := step_keeps_referenced s op u r hs b (href s (List.mem_cons_self _ _))
      have := ih u rest b hvis (fun st' h' => href st' (List.mem_cons_of_mem _ h')) st hst'
      exact ⟨this.1.trans hk.1, this.2.trans hk.2⟩

theorem find?_eq_some_of_unique (q : Nat → Bool) (v : Nat) (hv : q v = true) (l : List Nat)
    (hmem : v ∈ l) (huniq : ∀ x ∈ l, q x = true → x = v) : l.find? q = some v := by
  induction l with
  | nil => cases hmem
  | cons x xs ih =>
    rw [List.find?_cons]
    cases hqx : q x with
    | true =>
      rw [huniq x (List.mem_cons_self _ _) hqx]
    | false =>
      rcases List.mem_cons.1 hmem with rfl | h
      · rw [hv] at hqx; cases hqx
      · exact ih h (fun y hy => huniq y (List.mem_cons_of_mem _ hy))

/-- After the rebinding, a lookup of the new identity finds the rebound slot. -/
theorem lookup_rebind_self (s : Bcache) (dev blockno : Nat) (c : Cand)
    (hlen : s.bufmap.length = NBUFMAP_BUCKET) (hc : Linked s c) (hlt : c.slot < s.buf.length)
    (hmiss : lookup s (BUFMAP_HASH dev blockno) dev blockno = none) :
    lookup (rebind s dev blockno c) (BUFMAP_HASH dev blockno) dev blockno = some c.slot := by
  unfold lookup
  apply find?_eq_some_of_unique _ c.slot _ _ (mem_chain_rebind_self s dev blockno c hlen hc)
  · intro x hx hq
    by_contra hne
    have hx' := (mem_chain_rebind s dev blockno c _ x hc hne).1 hx
    rw [get_rebind_ne s dev blockno c x hne] at hq
    have := (lookup_eq_none_iff s _ dev blockno).1 hmiss x hx'
    simp only [Bool.and_eq_true, beq_iff_eq] at hq
    exact this hq
  · rw [get_rebind_self s dev blockno c hlt]
    simp

/-- The slot on which `bget` ends carries the requested identity and is the one a lookup
finds afterwards. -/
theorem bget_binds (s : Bcache) (pid dev blockno : Nat) (t : Bcache) (b : Nat) (hwf : s.WF)
    (hret : bget s pid dev blockno = BgetResult.ret t b ∨
      bget s pid dev blockno = BgetResult.sleep t b) :
    b < s.buf.length ∧ lookup t (BUFMAP_HASH dev blockno) dev blockno = some b ∧
    (t.get b).dev = dev ∧ (t.get b).blockno = blockno := by
  have key : b < s.buf.length ∧ lookup t (BUFMAP_HASH dev blockno) dev blockno = some b := by
    rcases bget_frame s pid dev blockno t b hret with ⟨hl, hf⟩ | ⟨c, hl, hv, rfl, hf⟩
    · refine ⟨?_, by rw [hf.lookup]; exact hl⟩
      obtain ⟨-, pre, post, hch, -⟩ := (lookup_eq_some_iff s _ dev blockno b).1 hl
      exact WF_lt s hwf b ((mem_scanOrder s b).2
        ⟨_, BUFMAP_HASH_lt dev blockno, by rw [hch]; simp⟩)
    · have hc := findVictim_linked s c hv
      have hlt := WF_lt s hwf c.slot ((mem_scanOrder s c.slot).2
        ⟨c.bucket, hc.1, List.mem_iff_getElem?.2 ⟨c.pos, hc.2⟩⟩)
      exact ⟨hlt, by rw [hf.lookup]; exact lookup_rebind_self s dev blockno c hwf.2.1 hc hlt hl⟩
  exact ⟨key.1, key.2, ((lookup_eq_some_iff t _ dev blockno b).1 key.2).1⟩

/-! ## Claims on repeated requests -/

/-- C5 (as amended). In a state reached from `binit`, once `bget(dev, blockno)` has returned
slot `b`, then in every state visited afterwards, as long as the reference count of `b` has stayed above 0, a
`bget(dev, blockno)` by any caller takes the hit path on the same slot `b`: it changes neither a
chain nor an identity, it adds one to the reference count of `b`, and it returns `b` (when the
lock of `b` is free) or sleeps on the lock of `b`. -/
theorem bget_again_same_slot (s0 : Bcache) (h0 : Reachable s0) (pid dev blockno : Nat)
    (s1 : Bcache) (b : Nat) (hget : bget s0 pid dev blockno = BgetResult.ret s1 b)
    (ops : List Op) (sts : List Bcache) (hvis : visited s1 ops = some sts)
    (href : ∀ st ∈ sts, 0 < (st.get b).refcnt) :
    ∀ st ∈ sts, ∀ pid2, ∃ t,
      (((st.get b).lock = none ∧ bget st pid2 dev blockno = BgetResult.ret t b) ∨
        ((st.get b).lock ≠ none ∧ bget st pid2 dev blockno = BgetResult.sleep t b)) ∧
      t.bufmap = st.bufmap ∧
      (∀ x, (t.get x).dev = (st.get x).dev ∧ (t.get x).blockno = (st.get x).blockno) ∧
      (t.get b).dev = dev ∧ (t.get b).blockno = blockno ∧
      (t.get b).refcnt = ((st.get b).refcnt + 1) % UINT := by
  intro st hst pid2
  obtain ⟨hwf0, hp0⟩ := reachable_WF s0 h0
  have hwf1 := bget_WF s0 pid dev blockno s1 b hwf0 (Or.inl hget)
  have hp1 := bget_Placed s0 pid dev blockno s1 b hwf0 hp0 (Or.inl hget)
  obtain ⟨hlt, hl1, hd1, hb1⟩ := bget_binds s0 pid dev blockno s1 b hwf0 (Or.inl hget)
  have hid : ∀ st ∈ sts, (st.get b).dev = dev ∧ (st.get b).blockno = blockno := by
    intro st' hst'
    have := visited_keeps_referenced ops s1 sts b hvis href st' hst'
    exact ⟨this.1.trans hd1, this.2.trans hb1⟩
  obtain ⟨hwf, -, hl, -⟩ := visited_lookup ops s1 sts hvis hwf1 hp1 _ dev blockno b rfl hl1 hid
    st hst
  rcases bget_cases st pid2 dev blockno with ⟨b', hb', hg⟩ | ⟨hn, -, -⟩ | ⟨c, hn, -, -⟩
  · rw [hl] at hb'
    cases hb'
    obtain ⟨t, hcase, hmap, -, -, -, hsame⟩ := acquiresleep_spec (incref st b) pid2 b
    have hlock : ((incref st b).get b).lock = (st.get b).lock := (get_incref_fields st b b).2.2.2.1
    have hltst : b < st.buf.length := by
      obtain ⟨-, pre, post, hch, -⟩ := (lookup_eq_some_iff st _ dev blockno b).1 hl
      exact WF_lt st hwf b ((mem_scanOrder st b).2
        ⟨_, BUFMAP_HASH_lt dev blockno, by rw [hch]; simp⟩)
    have hids : ∀ x, (t.get x).dev = (st.get x).dev ∧ (t.get x).blockno = (st.get x).blockno :=
      fun x => ⟨((hsame x).2.1).trans (get_incref_fields st b x).2.1,
        ((hsame x).2.2.1).trans (get_incref_fields st b x).2.2.1⟩
    refine ⟨t, ?_, hmap, hids, ?_, ?_, ?_⟩
    · rw [hg, ← hlock]
      rcases hcase with ⟨h1, h2, -⟩ | ⟨h1, h2, -⟩
      · exact Or.inl ⟨h1, h2⟩
      · exact Or.inr ⟨h1, h2⟩
    · rw [(hids b).1]; exact (hid st hst).1
    · rw [(hids b).2]; exact (hid st hst).2
    · rw [(hsame b).2.2.2.1, get_incref_self st b hltst]
  · rw [hl] at hn; cases hn
  · rw [hl] at hn; cases hn

/-- C5 (as amended), at a concrete input: process 1 gets block 1 of device 0 after `binit`,
process 2 gets block 2, and process 3 asks for block 1 while process 1 still holds it. -/
theorem bget_again_same_slot_witness :
    ∃ t,
      ((((bget heldState 2 0 2).state.get 29).lock = none ∧
          bget (bget heldState 2 0 2).state 3 0 1 = BgetResult.ret t 29) ∨
        (((bget heldState 2 0 2).state.get 29).lock ≠ none ∧
          bget (bget heldState 2 0 2).state 3 0 1 = BgetResult.sleep t 29)) ∧
      t.bufmap = (bget heldState 2 0 2).state.bufmap ∧
      (∀ x, (t.get x).dev = ((bget heldState 2 0 2).state.get x).dev ∧
        (t.get x).blockno = ((bget heldState 2 0 2).state.get x).blockno) ∧
      (t.get 29).dev = 0 ∧ (t.get 29).blockno = 1 ∧
      (t.get 29).refcnt = (((bget heldState 2 0 2).state.get 29).refcnt + 1) % UINT :=
  bget_again_same_slot (binit bcache0) ⟨[], rfl⟩ 1 0 1 heldState 29 (by decide)
    [Op.bget 2 0 2] [heldState, (bget heldState 2 0 2).state] (by decide) (by decide)
    (bget heldState 2 0 2).state (by decide) 3

/-- C5, the claim as stated fails: after `binit`, process 7 gets block 5 of device 1 and is
returned slot 29, whose reference count is then 1; a later `bget(1, 5)` by process 7 takes the
hit path on slot 29 but does not return it: it sleeps on the lock of slot 29, which process 7
holds itself. -/
theorem bget_again_does_not_return :
    ∃ s1, bget (binit bcache0) 7 1 5 = BgetResult.ret s1 29 ∧ 0 < (s1.get 29).refcnt ∧
      (∀ t b, bget s1 7 1 5 ≠ BgetResult.ret t b) ∧
      bget s1 7 1 5 = BgetResult.sleep (incref s1 29) 29 := by
  have h1 : bget (binit bcache0) 7 1 5 =
      BgetResult.ret (bget (binit bcache0) 7 1 5).state 29 := by decide
  have h2 : bget (bget (binit bcache0) 7 1 5).state 7 1 5 =
      BgetResult.sleep (incref (bget (binit bcache0) 7 1 5).state 29) 29 := by decide
  refine ⟨_, h1, by decide, ?_, h2⟩
  intro t b
  rw [h2]
  simp

theorem run_append (ops1 ops2 : List Op) : ∀ (s : Bcache),
    run s (ops1 ++ ops2) = (run s ops1).bind (fun t => run t ops2) := by
  induction ops1 with
  | nil => intro s; rfl
  | cons op ops ih =>
    intro s
    simp only [List.cons_append, run]
    cases hs : step s op with
    | none => rfl
    | some p => exact ih p.1

theorem reachable_step (s : Bcache) (op : Op) (t : Bcache) (r : Option Nat)
    (h : Reachable s) (hs : step s op = some (t, r)) : Reachable t := by
  obtain ⟨ops, hops⟩ := h
  refine ⟨ops ++ [op], ?_⟩
  rw [run_append, hops]
  simp [run, hs]

theorem step_valid (s : Bcache) (op : Op) (t : Bcache) (r : Option Nat)
    (h : step s op = some (t, r)) (hv : ∀ x, (s.get x).valid ≤ 1) :
    ∀ x, (t.get x).valid ≤ 1 := by
  intro x
  rcases step_frame s op t r h with hf | ⟨pid, dev, blockno, c, -, -, -, -, hf⟩
  · rcases (hf.2.2 x).2.2 with h1 | h1
    · rw [h1]; exact hv x
    · rw [h1]
  · rcases (hf.2.2 x).2.2 with h1 | h1
    · rw [h1]
      by_cases hx : x = c.slot
      · subst hx
        by_cases hlt : c.slot < s.buf.length
        · rw [get_rebind_self s dev blockno c hlt]
          exact Nat.zero_le _
        · rw [get_of_le _ _ (by rw [rebind_length]; exact not_lt.1 hlt)]
          exact Nat.zero_le _
      · rw [get_rebind_ne s dev blockno c x hx]; exact hv x
    · rw [h1]

theorem run_valid (ops : List Op) : ∀ (s t : Bcache), run s ops = some t →
    (∀ x, (s.get x).valid ≤ 1) → ∀ x, (t.get x).valid ≤ 1 := by
  induction ops with
  | nil =>
    intro s t h hv
    simp only [run, Option.some.injEq] at h
    subst h
    exact hv
  | cons op ops ih =>
    intro s t h hv
    simp only [run] at h
    cases hs : step s op with
    | none => simp [hs] at h
    | some p =>
      obtain ⟨u, r⟩ := p
      simp only [hs] at h
      exact ih u t h (step_valid s op u r hs hv)

theorem reachable_valid (s : Bcache) (h : Reachable s) : ∀ x, (s.get x).valid ≤ 1 := by
  obtain ⟨ops, hops⟩ := h
  refine run_valid ops _ s hops ?_
  intro x
  by_cases hx : x < (binit bcache0).buf.length
  · have : ∀ y, y < 30 → ((binit bcache0).get y).valid ≤ 1 := by decide
    exact this x hx
  · rw [get_of_le _ _ (not_lt.1 hx)]
    exact Nat.zero_le _

/-! ## Claims on `bread` -/

/-- The function `bget` makes no driver call. -/
theorem bget_disk (s : Bcache) (pid dev blockno : Nat) (t : Bcache) (b : Nat)
    (hret : bget s pid dev blockno = BgetResult.ret t b ∨
      bget s pid dev blockno = BgetResult.sleep t b) : t.disk = s.disk := by
  obtain ⟨u, hu, -, -, hdisk, -, -, -⟩ := bget_state_cases s pid dev blockno t b hret
  rw [hdisk]
  rcases hu with ⟨-, rfl⟩ | ⟨c, -, -, -, rfl⟩
  · rfl
  · exact rebind_disk s dev blockno c

/-- C9. In a state reached from `binit`, when `bread(dev, blockno)` returns slot `b`, then `b`
carries `(dev, blockno)` and has `valid = 1`; the call has made exactly one driver read, of slot
`b`, when the slot returned by `bget` had `valid = 0`, and no driver call when it had
`valid = 1`.  Afterwards, as long as slot `b` keeps the identity in every state visited, a
`bread(dev, blockno)` by any caller ends on slot `b` without any driver call. -/
theorem bread_reads_once (s0 : Bcache) (h0 : Reachable s0) (pid dev blockno : Nat)
    (s1 : Bcache) (b : Nat) (hread : bread s0 pid dev blockno = BgetResult.ret s1 b) :
    (s1.get b).dev = dev ∧ (s1.get b).blockno = blockno ∧ (s1.get b).valid = 1 ∧
    (∃ u, bget s0 pid dev blockno = BgetResult.ret u b ∧
      (((u.get b).valid = 0 ∧ s1.disk = s0.disk ++ [(b, 0)]) ∨
        ((u.get b).valid = 1 ∧ s1.disk = s0.disk))) ∧
    (∀ ops sts, visited s1 ops = some sts →
      (∀ st ∈ sts, (st.get b).dev = dev ∧ (st.get b).blockno = blockno) →
      ∀ st ∈ sts, ∀ pid2, ∃ t,
        (bread st pid2 dev blockno = BgetResult.ret t b ∨
          bread st pid2 dev blockno = BgetResult.sleep t b) ∧ t.disk = st.disk) := by
  obtain ⟨hwf0, hp0⟩ := reachable_WF s0 h0
  obtain ⟨u, hget, hcase⟩ := bread_ret s0 pid dev blockno s1 b hread
  obtain ⟨hlt, hlu, hdu, hbu⟩ := bget_binds s0 pid dev blockno u b hwf0 (Or.inl hget)
  have hru : Reachable u :=
    reachable_step s0 (Op.bget pid dev blockno) u (some b) h0
      (by simp [step, hget, BgetResult.returned])
  have hr1 : Reachable s1 :=
    reachable_step s0 (Op.bread pid dev blockno) s1 (some b) h0
      (by simp [step, hread, BgetResult.returned])
  have hvu := reachable_valid u hru b
  have hdisk := bget_disk s0 pid dev blockno u b (Or.inl hget)
  obtain ⟨u', hget', hf⟩ := bread_frame s0 pid dev blockno s1 b hread
  have huu : u' = u := by
    rw [hget] at hget'
    cases hget'
    rfl
  subst huu
  have hlenu : b < u'.buf.length := by
    rw [(bget_WF s0 pid dev blockno u' b hwf0 (Or.inl hget)).1, ← hwf0.1]
    exact hlt
  have hv1 : (s1.get b).valid = 1 := by
    rcases hcase with ⟨-, rfl⟩ | ⟨hne, rfl⟩
    · rw [get_upd_self { u' with disk := u'.disk ++ [(b, 0)] } b _ hlenu]
    · omega
  refine ⟨by rw [(hf.2.2 b).1]; exact hdu, by rw [(hf.2.2 b).2.1]; exact hbu, hv1,
    ⟨u', hget, ?_⟩, ?_⟩
  · rcases hcase with ⟨h0', rfl⟩ | ⟨hne, rfl⟩
    · exact Or.inl ⟨h0', by rw [upd_disk, hdisk]⟩
    · exact Or.inr ⟨by omega, hdisk⟩
  · intro ops sts hvis hid st hst pid2
    obtain ⟨hwf1, hp1⟩ := reachable_WF s1 hr1
    have hl1 : lookup s1 (BUFMAP_HASH dev blockno) dev blockno = some b := by
      rw [hf.lookup]; exact hlu
    obtain ⟨-, -, hl, hvst⟩ := visited_lookup ops s1 sts hvis hwf1 hp1 _ dev blockno b rfl hl1
      hid st hst
    have hvne : (st.get b).valid ≠ 0 := hvst (by rw [hv1]; exact one_ne_zero)
    rcases bget_cases st pid2 dev blockno with ⟨b', hb', hg⟩ | ⟨hn, -, -⟩ | ⟨c, hn, -, -⟩
    · rw [hl] at hb'
      cases hb'
      obtain ⟨t, hcs, -, hd, -, -, hsame⟩ := acquiresleep_spec (incref st b) pid2 b
      have hvt : (t.get b).valid ≠ 0 := by
        rw [(hsame b).1, (get_incref_fields st b b).1]
        exact hvne
      rcases hcs with ⟨-, h2, -⟩ | ⟨-, h2, -⟩
      · refine ⟨t, Or.inl ?_, by rw [hd]; rfl⟩
        simp [bread, hg, h2, hvt]
      · refine ⟨t, Or.inr ?_, by rw [hd]; rfl⟩
        simp [bread, hg, h2]
    · rw [hl] at hn; cases hn
    · rw [hl] at hn; cases hn

/-- C9, at a concrete input: the first `bread` after `binit`, of block 1 of device 0. -/
theorem bread_reads_once_witness :
    ((bread (binit bcache0) 1 0 1).state.get 29).dev = 0 ∧
    ((bread (binit bcache0) 1 0 1).state.get 29).blockno = 1 ∧
    ((bread (binit bcache0) 1 0 1).state.get 29).valid = 1 ∧
    (∃ u, bget (binit bcache0) 1 0 1 = BgetResult.ret u 29 ∧
      (((u.get 29).valid = 0 ∧
          (bread (binit bcache0) 1 0 1).state.disk = (binit bcache0).disk ++ [(29, 0)]) ∨
        ((u.get 29).valid = 1 ∧
          (bread (binit bcache0) 1 0 1).state.disk = (binit bcache0).disk))) ∧
    (∀ ops sts, visited (bread (binit bcache0) 1 0 1).state ops = some sts →
      (∀ st ∈ sts, (st.get 29).dev = 0 ∧ (st.get 29).blockno = 1) →
      ∀ st ∈ sts, ∀ pid2, ∃ t,
        (bread st pid2 0 1 = BgetResult.ret t 29 ∨
          bread st pid2 0 1 = BgetResult.sleep t 29) ∧ t.disk = st.disk) :=
  bread_reads_once (binit bcache0) ⟨[], rfl⟩ 1 0 1 (bread (binit bcache0) 1 0 1).state 29
    (by decide)

/-! ## Reference counts -/

/-- The reference counts after a `bget` that returned or sleeps on slot `b`: one more (modulo
`2 ^ 32`) for `b`, unchanged for every other slot. -/
theorem bget_refcnt (s : Bcache) (pid dev blockno : Nat) (t : Bcache) (b : Nat)
    (hret : bget s pid dev blockno = BgetResult.ret t b ∨
      bget s pid dev blockno = BgetResult.sleep t b) (x : Nat) (hx : x < s.buf.length) :
    (t.get x).refcnt = if x = b then ((s.get x).refcnt + 1) % UINT else (s.get x).refcnt := by
  obtain ⟨u, hu, -, -, -, -, -, hsame⟩ := bget_state_cases s pid dev blockno t b hret
  rw [(hsame x).2.2.2.1]
  rcases hu with ⟨-, rfl⟩ | ⟨c, -, hv, rfl, rfl⟩
  · split
    · rename_i h; subst h
      rw [get_incref_self s x hx]
    · rename_i h
      rw [get_incref_ne s b x h]
  · have hbest := findVictim_best s
    rw [hv] at hbest
    obtain ⟨-, -, -, hc0, -, -⟩ := hbest
    split
    · rename_i h; subst h
      rw [get_rebind_self s dev blockno c hx, hc0]
      rfl
    · rename_i h
      rw [get_rebind_ne s dev blockno c x h]

theorem bread_refcnt (s : Bcache) (pid dev blockno : Nat) (t : Bcache) (b : Nat)
    (hret : bread s pid dev blockno = BgetResult.ret t b) (x : Nat) (hx : x < s.buf.length) :
    (t.get x).refcnt = if x = b then ((s.get x).refcnt + 1) % UINT else (s.get x).refcnt := by
  obtain ⟨u, hget, hcase⟩ := bread_ret s pid dev blockno t b hret
  rw [← bget_refcnt s pid dev blockno u b (Or.inl hget) x hx]
  rcases hcase with ⟨-, rfl⟩ | ⟨-, rfl⟩
  · exact get_upd_field Buf.refcnt { u with disk := u.disk ++ [(b, 0)] } b x _ (fun _ => rfl)
  · rfl

theorem get_incref_refcnt (s : Bcache) (b x : Nat) (hx : x < s.buf.length) :
    ((incref s b).get x).refcnt =
      if x = b then ((s.get x).refcnt + 1) % UINT else (s.get x).refcnt := by
  split
  · rename_i h; subst h
    rw [get_incref_self s x hx]
  · rename_i h
    rw [get_incref_ne s b x h]

theorem get_decref_refcnt (s : Bcache) (b x : Nat) (hx : x < s.buf.length) :
    ((decref s b).get x).refcnt =
      if x = b then ((s.get x).refcnt + UINT - 1) % UINT else (s.get x).refcnt := by
  split
  · rename_i h; subst h
    rw [get_decref_self s x hx]
  · rename_i h
    rw [get_decref_ne s b x h]

/-- The reference count of slot `b` after a call that returned: one less (modulo `2 ^ 32`) when
the call drops a reference of `b`, one more when it adds one, the same otherwise. -/
theorem step_refcnt (s : Bcache) (op : Op) (t : Bcache) (r : Option Nat)
    (h : step s op = some (t, r)) (b : Nat) (hb : b < s.buf.length) :
    t.buf.length = s.buf.length ∧
    (t.get b).refcnt =
      if debit b op then ((s.get b).refcnt + UINT - 1) % UINT
      else if credit b r op then ((s.get b).refcnt + 1) % UINT else (s.get b).refcnt := by
  have hlen : t.buf.length = s.buf.length := by
    rcases step_frame s op t r h with hf | ⟨pid, dev, blockno, c, -, -, -, -, hf⟩
    · exact hf.2.1
    · rw [hf.2.1, rebind_length]
  refine ⟨hlen, ?_⟩
  cases op with
  | bget pid dev blockno =>
    simp only [step] at h
    cases hg : bget s pid dev blockno with
    | panic => simp [hg, BgetResult.returned] at h
    | sleep u b' => simp [hg, BgetResult.returned] at h
    | ret u b' =>
      simp only [hg, BgetResult.returned, Option.some.injEq, Prod.mk.injEq] at h
      obtain ⟨rfl, rfl⟩ := h
      rw [bget_refcnt s pid dev blockno u b' (Or.inl hg) b hb]
      by_cases hbb : b = b'
      · subst hbb; simp [debit, credit]
      · have h2 : ¬b' = b := fun h' => hbb h'.symm
        simp [debit, credit, hbb, h2]
  | bread pid dev blockno =>
    simp only [step] at h
    cases hg : bread s pid dev blockno with
    | panic => simp [hg, BgetResult.returned] at h
    | sleep u b' => simp [hg, BgetResult.returned] at h
    | ret u b' =>
      simp only [hg, BgetResult.returned, Option.some.injEq, Prod.mk.injEq] at h
      obtain ⟨rfl, rfl⟩ := h
      rw [bread_refcnt s pid dev blockno u b' hg b hb]
      by_cases hbb : b = b'
      · subst hbb; simp [debit, credit]
      · have h2 : ¬b' = b := fun h' => hbb h'.symm
        simp [debit, credit, hbb, h2]
  | brelse pid x ticks =>
    simp only [step] at h
    cases hr : brelse s pid x ticks with
    | none => simp [hr] at h
    | some u =>
      simp only [hr, Option.map_some', Option.some.injEq, Prod.mk.injEq] at h
      obtain ⟨rfl, rfl⟩ := h
      obtain ⟨-, -, -, -, -, g3, -, g5, -⟩ := brelse_spec s pid x ticks u hr
      by_cases hbx : x = b
      · subst hbx
        simp [debit, g5]
      · rw [g3 b (fun h' => hbx h'.symm)]
        simp [debit, credit, hbx]
  | bpin x =>
    simp only [step, Option.some.injEq, Prod.mk.injEq] at h
    obtain ⟨rfl, rfl⟩ := h
    show ((incref s x).get b).refcnt = _
    rw [get_incref_refcnt s x b hb]
    by_cases hbx : b = x
    · subst hbx; simp [debit, credit]
    · have h2 : ¬x = b := fun h' => hbx h'.symm
      simp [debit, credit, hbx, h2]
  | bunpin x =>
    simp only [step, Option.some.injEq, Prod.mk.injEq] at h
    obtain ⟨rfl, rfl⟩ := h
    show ((decref s x).get b).refcnt = _
    rw [get_decref_refcnt s x b hb]
    by_cases hbx : b = x
    · subst hbx; simp [debit, credit]
    · have h2 : ¬x = b := fun h' => hbx h'.symm
      simp [debit, credit, hbx, h2]

theorem UINT_eq : UINT = 4294967296 := by
  unfold UINT
  norm_num

theorem uint_dec (n : Nat) (h : n ≠ 0) : (n % UINT + UINT - 1) % UINT = (n - 1) % UINT := by
  rw [UINT_eq]
  omega

theorem uint_inc (n : Nat) : (n % UINT + 1) % UINT = (n + 1) % UINT := by
  rw [UINT_eq]
  omega

/-- Along a sequence of calls, the reference count of a slot is the number of its outstanding
references modulo `2 ^ 32`. -/
theorem ledger_refcnt (b : Nat) (ops : List Op) : ∀ (s : Bcache) (n : Nat) (t : Bcache)
    (m : Nat), b < s.buf.length → (s.get b).refcnt = n % UINT →
    ledger b s n ops = some (t, m) → (t.get b).refcnt = m % UINT := by
  induction ops with
  | nil =>
    intro s n t m _ hn h
    simp only [ledger, Option.some.injEq, Prod.mk.injEq] at h
    obtain ⟨rfl, rfl⟩ := h
    exact hn
  | cons op ops ih =>
    intro s n t m hb hn h
    simp only [ledger] at h
    cases hs : step s op with
    | none => simp [hs] at h
    | some p =>
      obtain ⟨u, r⟩ := p
      simp only [hs] at h
      obtain ⟨hlen, hrc⟩ := step_refcnt s op u r hs b hb
      split at h
      · rename_i hd
        split at h
        · cases h
        · rename_i hn0
          refine ih u (n - 1) t m (by rw [hlen]; exact hb) ?_ h
          rw [hrc, if_pos hd, hn]
          exact uint_dec n hn0
      · rename_i hd
        refine ih u _ t m (by rw [hlen]; exact hb) ?_ h
        rw [hrc, if_neg hd]
        split
        · rw [hn]
          exact uint_inc n
        · exact hn

/-! ## Claims on the reference counts -/

theorem binit_refcnt (b : Nat) (hb : b < NBUF) :
    b < (binit bcache0).buf.length ∧ ((binit bcache0).get b).refcnt = 0 := by
  have h : ∀ y, y < 30 → y < (binit bcache0).buf.length ∧ ((binit bcache0).get y).refcnt = 0 := by
    decide
  exact h b hb

theorem uint_inc_dec (r : Nat) (h : r < UINT) : ((r + 1) % UINT + UINT - 1) % UINT = r := by
  rw [UINT_eq] at h ⊢
  omega

/-- C6 (as amended). For every sequence of calls of `bget`, `bread`, `brelse`, `bpin` and
`bunpin` that return, started in the state after `binit`, in which `brelse(b)` and `bunpin(b)`
are only called while a reference of `b` is outstanding, the reference count of slot `b` equals
the number `n` of outstanding references (calls that returned `b`, minus `brelse(b)`, plus
`bpin(b)`, minus `bunpin(b)`) modulo `2 ^ 32`, hence equals `n` when `n < 2 ^ 32`.  On a slot
`x` with a 32-bit count, `bpin` adds 1 modulo `2 ^ 32`, `bunpin` after `bpin` restores the
count, and neither changes another field, another slot, a chain or the driver log. -/
theorem refcnt_counts_references (ops : List Op) (b : Nat) (hb : b < NBUF) (t : Bcache) (n : Nat)
    (h : ledger b (binit bcache0) 0 ops = some (t, n))
    (s : Bcache) (x : Nat) (hx : x < s.buf.length) (hr : (s.get x).refcnt < UINT) :
    ((t.get b).refcnt = n % UINT ∧ (n < UINT → (t.get b).refcnt = n)) ∧
    ((bpin s x).get x).refcnt = ((s.get x).refcnt + 1) % UINT ∧
    ((s.get x).refcnt + 1 < UINT → ((bpin s x).get x).refcnt = (s.get x).refcnt + 1) ∧
    ((bunpin (bpin s x) x).get x).refcnt = (s.get x).refcnt ∧
    (∀ y, ((bpin s x).get y).valid = (s.get y).valid ∧ ((bpin s x).get y).dev = (s.get y).dev ∧
      ((bpin s x).get y).blockno = (s.get y).blockno ∧
      ((bpin s x).get y).lock = (s.get y).lock ∧
      ((bpin s x).get y).lastuse = (s.get y).lastuse) ∧
    (∀ y, ((bunpin s x).get y).valid = (s.get y).valid ∧
      ((bunpin s x).get y).dev = (s.get y).dev ∧
      ((bunpin s x).get y).blockno = (s.get y).blockno ∧
      ((bunpin s x).get y).lock = (s.get y).lock ∧
      ((bunpin s x).get y).lastuse = (s.get y).lastuse) ∧
    (∀ y, y ≠ x → (bpin s x).get y = s.get y ∧ (bunpin s x).get y = s.get y) ∧
    (bpin s x).bufmap = s.bufmap ∧ (bunpin s x).bufmap = s.bufmap ∧
    (bpin s x).disk = s.disk ∧ (bunpin s x).disk = s.disk := by
  have hmod := ledger_refcnt b ops (binit bcache0) 0 t n (binit_refcnt b hb).1
    (by rw [(binit_refcnt b hb).2]; rfl) h
  have hpin : ((bpin s x).get x).refcnt = ((s.get x).refcnt + 1) % UINT := by
    show ((incref s x).get x).refcnt = _
    rw [get_incref_self s x hx]
  refine ⟨⟨hmod, fun hn => by rw [hmod, Nat.mod_eq_of_lt hn]⟩, hpin, ?_, ?_,
    fun y => get_incref_fields s x y, fun y => get_decref_fields s x y,
    fun y hy => ⟨get_incref_ne s x y hy, get_decref_ne s x y hy⟩, rfl, rfl, rfl, rfl⟩
  · intro hlt
    rw [hpin, Nat.mod_eq_of_lt hlt]
  · show ((decref (incref s x) x).get x).refcnt = _
    rw [get_decref_self _ x (by rw [incref_length]; exact hx), get_incref_self s x hx]
    exact uint_inc_dec _ hr

/-- C6 (as amended), at a concrete input: after `binit`, process 1 gets block 1 of device 0 in
slot 29, pins the slot and releases it at tick 3; one reference of slot 29 is outstanding. -/
theorem refcnt_counts_references_witness :
    ((((ledger 29 (binit bcache0) 0 [Op.bget 1 0 1, Op.bpin 29, Op.brelse 1 29 3]).getD
        (bcache0, 0)).1.get 29).refcnt = 1 % UINT ∧
      (1 < UINT →
        (((ledger 29 (binit bcache0) 0 [Op.bget 1 0 1, Op.bpin 29, Op.brelse 1 29 3]).getD
          (bcache0, 0)).1.get 29).refcnt = 1)) ∧
    ((bpin heldState 29).get 29).refcnt = ((heldState.get 29).refcnt + 1) % UINT ∧
    ((heldState.get 29).refcnt + 1 < UINT →
      ((bpin heldState 29).get 29).refcnt = (heldState.get 29).refcnt + 1) ∧
    ((bunpin (bpin heldState 29) 29).get 29).refcnt = (heldState.get 29).refcnt ∧
    (∀ y, ((bpin heldState 29).get y).valid = (heldState.get y).valid ∧
      ((bpin heldState 29).get y).dev = (heldState.get y).dev ∧
      ((bpin heldState 29).get y).blockno = (heldState.get y).blockno ∧
      ((bpin heldState 29).get y).lock = (heldState.get y).lock ∧
      ((bpin heldState 29).get y).lastuse = (heldState.get y).lastuse) ∧
    (∀ y, ((bunpin heldState 29).get y).valid = (heldState.get y).valid ∧
      ((bunpin heldState 29).get y).dev = (heldState.get y).dev ∧
      ((bunpin heldState 29).get y).blockno = (heldState.get y).blockno ∧
      ((bunpin heldState 29).get y).lock = (heldState.get y).lock ∧
      ((bunpin heldState 29).get y).lastuse = (heldState.get y).lastuse) ∧
    (∀ y, y ≠ 29 → (bpin heldState 29).get y = heldState.get y ∧
      (bunpin heldState 29).get y = heldState.get y) ∧
    (bpin heldState 29).bufmap = heldState.bufmap ∧
    (bunpin heldState 29).bufmap = heldState.bufmap ∧
    (bpin heldState 29).disk = heldState.disk ∧ (bunpin heldState 29).disk = heldState.disk :=
  refcnt_counts_references [Op.bget 1 0 1, Op.bpin 29, Op.brelse 1 29 3] 29 (by decide)
    ((ledger 29 (binit bcache0) 0 [Op.bget 1 0 1, Op.bpin 29, Op.brelse 1 29 3]).getD
      (bcache0, 0)).1 1 (by decide) heldState 29 (by decide) (by decide)

theorem ledger_replicate_bpin (b : Nat) (k : Nat) : ∀ (s : Bcache) (n : Nat),
    ∃ t, ledger b s n (List.replicate k (Op.bpin b)) = some (t, n + k) := by
  induction k with
  | zero => intro s n; exact ⟨s, rfl⟩
  | succ k ih =>
    intro s n
    obtain ⟨t, ht⟩ := ih (bpin s b) (n + 1)
    refine ⟨t, ?_⟩
    rw [List.replicate_succ]
    simp only [ledger, step, debit, credit, beq_self_eq_true, if_true, Bool.false_eq_true,
      if_false]
    rw [ht]
    congr 2
    omega

/-- C6, the claim as stated fails: after `binit` and `2 ^ 32` calls of `bpin` on slot 0, the
number of outstanding references of slot 0 is `2 ^ 32` and its reference count is 0. -/
theorem refcnt_wraps_after_many_pins :
    ∃ t, ledger 0 (binit bcache0) 0 (List.replicate (2 ^ 32) (Op.bpin 0)) = some (t, 2 ^ 32) ∧
      (t.get 0).refcnt = 0 := by
  obtain ⟨t, ht⟩ := ledger_replicate_bpin 0 (2 ^ 32) (binit bcache0) 0
  rw [Nat.zero_add] at ht
  refine ⟨t, ht, ?_⟩
  have h := ledger_refcnt 0 (List.replicate (2 ^ 32) (Op.bpin 0)) (binit bcache0) 0 t (2 ^ 32)
    (binit_refcnt 0 (by decide)).1 (by rw [(binit_refcnt 0 (by decide)).2]; rfl) ht
  rw [h]
  exact Nat.mod_self _

/-! ## Thirty-one requests -/

theorem exists_not_mem_of_length_lt (bs : List Nat) (n : Nat)
    (hlen : bs.length < n) : ∃ x, x < n ∧ x ∉ bs := by
  by_contra hcon
  have hsub : List.range n ⊆ bs := by
    intro x hx
    by_contra hxn
    exact hcon ⟨x, List.mem_range.1 hx, hxn⟩
  have := (List.subperm_of_subset (List.nodup_range n) hsub).length_le
  rw [List.length_range] at this
  omega

theorem mem_of_length_eq (bs : List Nat) (n : Nat) (hnd : bs.Nodup) (hlt : ∀ b ∈ bs, b < n)
    (hlen : bs.length = n) (x : Nat) (hx : x < n) : x ∈ bs := by
  have hsub : bs ⊆ List.range n := fun b hb => List.mem_range.2 (hlt b hb)
  have hsp := List.subperm_of_subset hnd hsub
  have hperm := hsp.perm_of_length_le (by rw [List.length_range, hlen])
  exact hperm.symm.subset (List.mem_range.2 hx)

theorem exists_zip_of_mem (bs : List Nat) (qs : List Req) (hlen : bs.length = qs.length)
    (x : Nat) (hx : x ∈ bs) : ∃ r, r ∈ qs ∧ (x, r) ∈ bs.zip qs := by
  induction bs generalizing qs with
  | nil => cases hx
  | cons b bs ih =>
    cases qs with
    | nil => simp at hlen
    | cons q qs =>
      rcases List.mem_cons.1 hx with rfl | hx'
      · exact ⟨q, List.mem_cons_self _ _, by simp⟩
      · obtain ⟨r, hr, hz⟩ := ih qs (by simpa using hlen) hx'
        exact ⟨r, List.mem_cons_of_mem _ hr, by simp [hz]⟩

/-- In a served cache, a slot that carries an identity not asked for so far has served no
request. -/
theorem served_not_mem_of_identity (s : Bcache) (done : List Req) (bs : List Nat)
    (hJ : Served s done bs) (q : Req)
    (hq : ∀ r ∈ done, ¬(r.dev = q.dev ∧ r.blockno = q.blockno)) (b : Nat)
    (hb : (s.get b).dev = q.dev ∧ (s.get b).blockno = q.blockno) : b ∉ bs := by
  intro hmem
  obtain ⟨r, hr, hz⟩ := exists_zip_of_mem bs done hJ.2.2.1.1 b hmem
  obtain ⟨h1, h2, -⟩ := hJ.2.2.2.1 (b, r) hz
  exact hq r hr ⟨h1.symm.trans hb.1, h2.symm.trans hb.2⟩

/-- In a served cache, a slot with `lastuse = 0` has served no request, the ticks being
positive. -/
theorem served_not_mem_of_lastuse (s : Bcache) (done : List Req) (bs : List Nat)
    (hJ : Served s done bs) (hpos : ∀ r ∈ done, 0 < r.ticks) (b : Nat)
    (hb : (s.get b).lastuse = 0) : b ∉ bs := by
  intro hmem
  obtain ⟨r, hr, hz⟩ := exists_zip_of_mem bs done hJ.2.2.1.1 b hmem
  obtain ⟨-, -, h3⟩ := hJ.2.2.2.1 (b, r) hz
  have := hpos r hr
  simp only at h3
  omega

/-- In a served cache, `bget` does not panic: it ends on a slot that is linked, unreferenced and
unlocked, and in the miss path this slot has the least `lastuse` of all slots. -/
theorem served_bget (s : Bcache) (done : List Req) (bs : List Nat) (hJ : Served s done bs)
    (pid dev blockno : Nat) :
    ∃ t b, bget s pid dev blockno = BgetResult.ret t b ∧ b < NBUF ∧
      ((lookup s (BUFMAP_HASH dev blockno) dev blockno = some b) ∨
        (lookup s (BUFMAP_HASH dev blockno) dev blockno = none ∧
          ∀ x, x < NBUF → (s.get b).lastuse ≤ (s.get x).lastuse)) := by
  obtain ⟨hwf, hfree, -, -, -⟩ := hJ
  have hlt : ∀ x ∈ s.scanOrder, x < NBUF := fun x hx => by
    have := WF_lt s hwf x hx
    rw [hwf.1] at this
    exact this
  rcases bget_cases s pid dev blockno with ⟨b, hb, hg⟩ | ⟨-, hv, -⟩ | ⟨c, hl, hv, hg⟩
  · obtain ⟨-, pre, post, hch, -⟩ := (lookup_eq_some_iff s _ dev blockno b).1 hb
    have hbn : b < NBUF := hlt b ((mem_scanOrder s b).2
      ⟨_, BUFMAP_HASH_lt dev blockno, by rw [hch]; simp⟩)
    obtain ⟨t, hcase, -⟩ := acquiresleep_spec (incref s b) pid b
    rcases hcase with ⟨-, h2, -⟩ | ⟨h1, -, -⟩
    · exact ⟨t, b, by rw [hg]; exact h2, hbn, Or.inl hb⟩
    · rw [(get_incref_fields s b b).2.2.2.1] at h1
      exact absurd (hfree b hbn).2 h1
  · have h0 : (0 : Nat) < NBUF := by decide
    exact absurd (hfree 0 h0).1 ((findVictim_eq_none_iff s).1 hv 0 (WF_mem s hwf 0 h0))
  · have hbest := findVictim_best s
    rw [hv] at hbest
    obtain ⟨pre, post, hseen, hc0, hpre, hpost⟩ := hbest
    have hmem : c.slot ∈ s.scanOrder := by rw [hseen]; simp
    have hbn := hlt c.slot hmem
    obtain ⟨t, hcase, -⟩ := acquiresleep_spec (rebind s dev blockno c) pid c.slot
    rcases hcase with ⟨-, h2, -⟩ | ⟨h1, -, -⟩
    · refine ⟨t, c.slot, by rw [hg]; exact h2, hbn, Or.inr ⟨hl, ?_⟩⟩
      intro x hx
      have hxm := WF_mem s hwf x hx
      rw [hseen] at hxm
      rcases List.mem_append.1 hxm with hu | hu
      · exact le_of_lt (hpre x hu (hfree x hx).1)
      · rcases List.mem_cons.1 hu with hu | hu
        · rw [hu]
        · exact hpost x hu (hfree x hx).1
    · rw [(get_rebind_fields s dev blockno c c.slot).1] at h1
      exact absurd (hfree c.slot hbn).2 h1

/-- The state after a `bget` that returned slot `b` in a served cache, followed by the
`brelse` of `b` at tick `ticks`. -/
theorem served_cycle (s : Bcache) (done : List Req) (bs : List Nat) (hJ : Served s done bs)
    (pid dev blockno ticks : Nat) (t : Bcache) (b : Nat) (hb : b < NBUF)
    (hget : bget s pid dev blockno = BgetResult.ret t b) :
    ∃ u, brelse t pid b ticks = some u ∧ u.WF ∧
      (∀ x, x ≠ b → u.get x = s.get x) ∧
      (u.get b).dev = dev ∧ (u.get b).blockno = blockno ∧ (u.get b).refcnt = 0 ∧
      (u.get b).lock = none ∧ (u.get b).lastuse = ticks := by
  obtain ⟨hwf, hfree, -, -, -⟩ := hJ
  have hbs : b < s.buf.length := by rw [hwf.1]; exact hb
  have htwf := bget_WF s pid dev blockno t b hwf (Or.inl hget)
  obtain ⟨-, -, hd, hbl⟩ := bget_binds s pid dev blockno t b hwf (Or.inl hget)
  have hrc := bget_refcnt s pid dev blockno t b (Or.inl hget) b hbs
  rw [if_pos rfl, (hfree b hb).1] at hrc
  obtain ⟨v, hv, hcase, -, -, -, hne, -⟩ := bget_state_cases s pid dev blockno t b (Or.inl hget)
  have hvlen : v.buf.length = s.buf.length := by
    rcases hv with ⟨-, rfl⟩ | ⟨c, -, -, -, rfl⟩
    · exact incref_length s b
    · exact rebind_length s dev blockno c
  have hvne : ∀ x, x ≠ b → v.get x = s.get x := by
    intro x hx
    rcases hv with ⟨-, rfl⟩ | ⟨c, -, -, hc, rfl⟩
    · exact get_incref_ne s b x hx
    · exact get_rebind_ne s dev blockno c x (by rw [hc]; exact hx)
  have hlock : (t.get b).lock = some pid := by
    rcases hcase with ⟨-, -, h⟩ | ⟨-, h, -⟩
    · exact h (by rw [hvlen]; exact hbs)
    · rw [hget] at h; cases h
  obtain ⟨u, hu⟩ : ∃ u, brelse t pid b ticks = some u := by
    simp [brelse, holdingsleep, hlock]
  obtain ⟨-, -, g1, -, g2, g3, g4, g5, g6, g7, g8, -⟩ := brelse_spec t pid b ticks u hu
  have hr0 : (u.get b).refcnt = 0 := by
    rw [g5, hrc, UINT_eq]
  refine ⟨u, hu, (frame_brelse t pid b ticks u hu).WF htwf, ?_, by rw [g7, hd], by rw [g8, hbl],
    hr0, g4, ?_⟩
  · intro x hx
    rw [g3 x hx, hne x hx, hvne x hx]
  · rw [g6, if_pos hr0]


/-- One more request served keeps the cache served, as long as a slot is left that has served
no request. -/
theorem served_step (s : Bcache) (done : List Req) (bs : List Nat) (hJ : Served s done bs)
    (q : Req) (hlen : done.length < NBUF)
    (hq : ∀ r ∈ done, ¬(r.dev = q.dev ∧ r.blockno = q.blockno))
    (hpos : ∀ r ∈ done, 0 < r.ticks) :
    ∃ t b, serve s q = some (t, b) ∧ Served t (done ++ [q]) (bs ++ [b]) := by
  obtain ⟨t, b, hget, hb, hcase⟩ := served_bget s done bs hJ q.pid q.dev q.blockno
  obtain ⟨u, hu, huwf, hne, hd, hbl, hr0, hl0, hlu⟩ :=
    served_cycle s done bs hJ q.pid q.dev q.blockno q.ticks t b hb hget
  have hnot : b ∉ bs := by
    rcases hcase with hl | ⟨-, hmin⟩
    · exact served_not_mem_of_identity s done bs hJ q hq b
        ((lookup_eq_some_iff s _ q.dev q.blockno b).1 hl).1
    · obtain ⟨x, hx, hxn⟩ := exists_not_mem_of_length_lt bs NBUF (by rw [hJ.2.2.1.1]; exact hlen)
      have h0 := hJ.2.2.2.2 x hx hxn
      have := hmin x hx
      rw [h0] at this
      exact served_not_mem_of_lastuse s done bs hJ hpos b (by omega)
  obtain ⟨-, hfree, ⟨hl, hnd, hlt⟩, hzip, hfresh⟩ := hJ
  refine ⟨u, b, by simp [serve, hget, hu], huwf, ?_, ⟨?_, ?_, ?_⟩, ?_, ?_⟩
  · intro x hx
    by_cases hxb : x = b
    · subst hxb; exact ⟨hr0, hl0⟩
    · rw [hne x hxb]; exact hfree x hx
  · simp [hl]
  · rw [List.nodup_append]
    refine ⟨hnd, List.nodup_singleton b, ?_⟩
    intro x hx hx'
    rw [List.mem_singleton] at hx'
    subst hx'
    exact hnot hx
  · intro x hx
    rcases List.mem_append.1 hx with h | h
    · exact hlt x h
    · rw [List.mem_singleton.1 h]; exact hb
  · intro p hp
    rw [List.zip_append hl] at hp
    rcases List.mem_append.1 hp with h | h
    · have hp1 : p.1 ∈ bs := (List.of_mem_zip h).1
      have : p.1 ≠ b := fun e => hnot (e ▸ hp1)
      rw [hne p.1 this]
      exact hzip p h
    · simp only [List.zip_cons_cons, List.zip_nil_right, List.mem_singleton] at h
      subst h
      exact ⟨hd, hbl, hlu⟩
  · intro x hx hxn
    have hxb : x ≠ b := fun e => hxn (by rw [e]; simp)
    rw [hne x hxb]
    exact hfresh x hx (fun h => hxn (List.mem_append_left _ h))

/-- Requests for pairwise distinct identities, released at positive ticks, are all served as
long as there are no more requests than slots. -/
theorem served_all (rest : List Req) : ∀ (s : Bcache) (done : List Req) (bs : List Nat),
    Served s done bs → (done ++ rest).length ≤ NBUF →
    ((done ++ rest).map (fun r => (r.dev, r.blockno))).Nodup →
    (∀ r ∈ done ++ rest, 0 < r.ticks) →
    ∃ t cs, serveAll s rest = some (t, cs) ∧ Served t (done ++ rest) (bs ++ cs) := by
  induction rest with
  | nil =>
    intro s done bs hJ _ _ _
    exact ⟨s, [], rfl, by simpa using hJ⟩
  | cons q rest ih =>
    intro s done bs hJ hlen hid hpos
    have hq : ∀ r ∈ done, ¬(r.dev = q.dev ∧ r.blockno = q.blockno) := by
      intro r hr hrq
      rw [List.map_append, List.map_cons, List.nodup_append] at hid
      refine hid.2.2 (List.mem_map.2 ⟨r, hr, rfl⟩) ?_
      rw [List.mem_cons]
      exact Or.inl (by rw [hrq.1, hrq.2])
    obtain ⟨t, b, hs, hJt⟩ := served_step s done bs hJ q
      (by rw [List.length_append, List.length_cons] at hlen; omega) hq
      (fun r hr => hpos r (List.mem_append_left _ hr))
    have e : done ++ q :: rest = (done ++ [q]) ++ rest := by simp
    obtain ⟨u, cs, hu, hJu⟩ := ih t (done ++ [q]) (bs ++ [b]) hJt (by rw [← e]; exact hlen)
      (by rw [← e]; exact hid) (by rw [← e]; exact hpos)
    refine ⟨u, b :: cs, by simp [serveAll, hs, hu], ?_⟩
    rw [e]
    simpa using hJu

theorem served_binit : Served (binit bcache0) [] [] := by
  refine ⟨binit_WF, ?_, ⟨rfl, List.nodup_nil, fun b hb => (by cases hb)⟩,
    fun p hp => (by cases hp), ?_⟩
  · have : ∀ x, x < 30 →
        ((binit bcache0).get x).refcnt = 0 ∧ ((binit bcache0).get x).lock = none := by decide
    exact this
  · have : ∀ x, x < 30 → ((binit bcache0).get x).lastuse = 0 := by decide
    intro x hx _
    exact this x hx

/-- C8 (as amended). Starting from the state after `binit` (30 slots, 13 buckets), for every
list of 31 requests with pairwise distinct identities whose first 30 releases happen at strictly
increasing, positive values of the tick counter, serving each request by `bget` followed by
`brelse` never panics and never sleeps, the 31st `bget` misses, and it rebinds and returns the
slot that served the first request, whose `lastuse` is the least of all slots. -/
theorem thirty_first_request_evicts_first (qs : List Req) (q : Req) (hlen : qs.length = 30)
    (hid : ((qs ++ [q]).map (fun r => (r.dev, r.blockno))).Nodup)
    (hticks : (qs.map (fun r => r.ticks)).Pairwise (fun a b => a < b))
    (hpos : ∀ r ∈ qs, 0 < r.ticks) :
    ∃ s b0 rest t u, serveAll (binit bcache0) qs = some (s, b0 :: rest) ∧
      (b0 :: rest).Nodup ∧ rest.length = 29 ∧
      (∀ x ∈ s.chain (BUFMAP_HASH q.dev q.blockno),
        ¬((s.get x).dev = q.dev ∧ (s.get x).blockno = q.blockno)) ∧
      (∀ x, x < NBUF → (s.get b0).lastuse ≤ (s.get x).lastuse) ∧
      bget s q.pid q.dev q.blockno = BgetResult.ret t b0 ∧
      (t.get b0).dev = q.dev ∧ (t.get b0).blockno = q.blockno ∧
      brelse t q.pid b0 q.ticks = some u := by
  have hidqs : ((([] : List Req) ++ qs).map (fun r => (r.dev, r.blockno))).Nodup := by
    rw [List.map_append, List.nodup_append] at hid
    simpa using hid.1
  obtain ⟨s, cs, hserve, hJ⟩ := served_all qs (binit bcache0) [] [] served_binit
    (by simp [hlen, NBUF]) hidqs (by simpa using hpos)
  simp only [List.nil_append] at hJ
  have hJ' := hJ
  obtain ⟨hwf, hfree, ⟨hl, hnd, hlt⟩, hzip, -⟩ := hJ
  have hall : ∀ x, x < NBUF → x ∈ cs :=
    mem_of_length_eq cs NBUF hnd hlt (by rw [hl, hlen]; rfl)
  have hq : ∀ r ∈ qs, ¬(r.dev = q.dev ∧ r.blockno = q.blockno) := by
    intro r hr hrq
    rw [List.map_append, List.nodup_append] at hid
    refine hid.2.2 (List.mem_map.2 ⟨r, hr, rfl⟩) ?_
    simp only [List.map_cons, List.map_nil, List.mem_singleton]
    rw [hrq.1, hrq.2]
  have hmiss : ∀ x ∈ s.chain (BUFMAP_HASH q.dev q.blockno),
      ¬((s.get x).dev = q.dev ∧ (s.get x).blockno = q.blockno) := by
    intro x hx hxq
    have hxs : x ∈ s.scanOrder := (mem_scanOrder s x).2 ⟨_, BUFMAP_HASH_lt _ _, hx⟩
    have hxn : x < NBUF := by
      have := WF_lt s hwf x hxs
      rw [hwf.1] at this
      exact this
    exact served_not_mem_of_identity s qs cs hJ' q hq x hxq (hall x hxn)
  obtain ⟨t, b, hget, hb, hcase⟩ := served_bget s qs cs hJ' q.pid q.dev q.blockno
  have hmin : ∀ x, x < NBUF → (s.get b).lastuse ≤ (s.get x).lastuse := by
    rcases hcase with hhit | ⟨-, h⟩
    · rw [(lookup_eq_none_iff s _ q.dev q.blockno).2 hmiss] at hhit
      cases hhit
    · exact h
  cases cs with
  | nil => simp [hlen] at hl
  | cons b0 rest =>
    cases qs with
    | nil => simp at hlen
    | cons q0 qrest =>
      have hb0 : (s.get b0).lastuse = q0.ticks := (hzip (b0, q0) (by simp)).2.2
      have hbb : b = b0 := by
        rcases List.mem_cons.1 (hall b hb) with h | h
        · exact h
        · exfalso
          obtain ⟨r, hr, hz⟩ := exists_zip_of_mem rest qrest (by simpa using hl) b h
          have h3 := (hzip (b, r) (by simp [hz])).2.2
          simp only at h3
          have hlt0 : q0.ticks < r.ticks := by
            rw [List.map_cons, List.pairwise_cons] at hticks
            exact hticks.1 r.ticks (List.mem_map.2 ⟨r, hr, rfl⟩)
          have := hmin b0 (hlt b0 (List.mem_cons_self _ _))
          omega
      subst hbb
      obtain ⟨u, hu, -, -, -, -, -, -, -⟩ :=
        served_cycle s (q0 :: qrest) (b :: rest) hJ' q.pid q.dev q.blockno q.ticks t b hb hget
      obtain ⟨-, -, hd, hbl⟩ := bget_binds s q.pid q.dev q.blockno t b hwf (Or.inl hget)
      exact ⟨s, b, rest, t, u, hserve, hnd, by simpa [hlen] using hl, hmiss, hmin, hget, hd, hbl,
        hu⟩

/-- C8 (as amended), at a concrete input: process 1 asks for the blocks 1 to 30 of device 0,
released at the ticks 1 to 30, then for block 31. -/
theorem thirty_first_request_evicts_first_witness :
    ∃ s b0 rest t u, serveAll (binit bcache0) risingTickReqs = some (s, b0 :: rest) ∧
      (b0 :: rest).Nodup ∧ rest.length = 29 ∧
      (∀ x ∈ s.chain (BUFMAP_HASH 0 31), ¬((s.get x).dev = 0 ∧ (s.get x).blockno = 31)) ∧
      (∀ x, x < NBUF → (s.get b0).lastuse ≤ (s.get x).lastuse) ∧
      bget s 1 0 31 = BgetResult.ret t b0 ∧
      (t.get b0).dev = 0 ∧ (t.get b0).blockno = 31 ∧
      brelse t 1 b0 31 = some u :=
  thirty_first_request_evicts_first risingTickReqs ⟨1, 0, 31, 31⟩ (by decide) (by decide)
    (by decide) (by decide)

set_option maxRecDepth 100000 in
/-- C8, the claim as stated fails.  The 31 requests for the blocks 1 to 31 of device 0, all
released at tick 5 (a non-decreasing sequence of ticks), are served by the slots 29, 28, ..., 0
and then by slot 17: the 31st `bget` rebinds the slot that served the 13th request, not slot 29,
which served the first.  The 31 requests for the blocks 13, 26, ..., 403 of device 0, released
at the ticks 0, 1, ..., 30, are served by the slots 29, 29, 28, ..., 1 and then by slot 0: the
first release, at tick 0, leaves slot 29 with the `lastuse` of an unused slot. -/
theorem constant_ticks_evict_another_slot :
    (sameTickReqs.length = 31 ∧
      (sameTickReqs.map (fun r => (r.dev, r.blockno))).Nodup ∧
      (sameTickReqs.map (fun r => r.ticks)).Pairwise (fun a b => a ≤ b) ∧
      (serveAll (binit bcache0) sameTickReqs).map (fun p => p.2) =
        some [29, 28, 27, 26, 25, 24, 23, 22, 21, 20, 19, 18, 17, 16, 15, 14, 13, 12, 11, 10, 9,
          8, 7, 6, 5, 4, 3, 2, 1, 0, 17]) ∧
    (zeroTickReqs.length = 31 ∧
      (zeroTickReqs.map (fun r => (r.dev, r.blockno))).Nodup ∧
      (zeroTickReqs.map (fun r => r.ticks)).Pairwise (fun a b => a < b) ∧
      (serveAll (binit bcache0) zeroTickReqs).map (fun p => p.2) =
        some [29, 29, 28, 27, 26, 25, 24, 23, 22, 21, 20, 19, 18, 17, 16, 15, 14, 13, 12, 11, 10,
          9, 8, 7, 6, 5, 4, 3, 2, 1, 0]) := by
  refine ⟨⟨by decide, by decide, by decide, ?_⟩, ⟨by decide, by decide, by decide, ?_⟩⟩
  · decide
  · decide

/-! ## Claims on `bwrite` and `brelse` -/

theorem holdingsleep_eq_false (s : Bcache) (pid b : Nat) :
    holdingsleep s pid b = false ↔ (s.get b).lock ≠ some pid := by
  simp [holdingsleep]

theorem bwrite_eq_toOption (s : Bcache) (pid b : Nat) :
    bwrite s pid b = (bwriteEnd s pid b).toOption := by
  unfold bwrite bwriteEnd
  cases h : holdingsleep s pid b <;> simp [Ended.toOption]

theorem brelse_eq_toOption (s : Bcache) (pid b ticks : Nat) :
    brelse s pid b ticks = (brelseEnd s pid b ticks).toOption := by
  unfold brelse brelseEnd
  cases h : holdingsleep s pid b <;> simp [Ended.toOption]

/-- C11. `bwrite(b)` and `brelse(b)` end in `panic` exactly when the caller does not hold the
exclusive lock of `b`; the state at the `panic` is the state at the call: no driver call has
been logged and no field of a slot has been written. -/
theorem bwrite_brelse_panic_iff (s : Bcache) (pid b ticks : Nat) :
    ((∃ t, bwriteEnd s pid b = Ended.panic t) ↔ (s.get b).lock ≠ some pid) ∧
    ((∃ t, brelseEnd s pid b ticks = Ended.panic t) ↔ (s.get b).lock ≠ some pid) ∧
    (bwrite s pid b = none ↔ (s.get b).lock ≠ some pid) ∧
    (brelse s pid b ticks = none ↔ (s.get b).lock ≠ some pid) ∧
    (∀ t, bwriteEnd s pid b = Ended.panic t → t = s) ∧
    (∀ t, brelseEnd s pid b ticks = Ended.panic t → t = s) := by
  have hw : ∀ t, bwriteEnd s pid b = Ended.panic t →
      t = s ∧ (s.get b).lock ≠ some pid := by
    intro t h
    unfold bwriteEnd at h
    cases hh : holdingsleep s pid b with
    | true => simp [hh] at h
    | false =>
      simp only [hh, Bool.not_false, if_true, Ended.panic.injEq] at h
      exact ⟨h.symm, (holdingsleep_eq_false s pid b).1 hh⟩
  have hr : ∀ t, brelseEnd s pid b ticks = Ended.panic t →
      t = s ∧ (s.get b).lock ≠ some pid := by
    intro t h
    unfold brelseEnd at h
    cases hh : holdingsleep s pid b with
    | true => simp [hh] at h
    | false =>
      simp only [hh, Bool.not_false, if_true, Ended.panic.injEq] at h
      exact ⟨h.symm, (holdingsleep_eq_false s pid b).1 hh⟩
  have hw2 : (s.get b).lock ≠ some pid → bwriteEnd s pid b = Ended.panic s := by
    intro h
    simp [bwriteEnd, (holdingsleep_eq_false s pid b).2 h]
  have hr2 : (s.get b).lock ≠ some pid → brelseEnd s pid b ticks = Ended.panic s := by
    intro h
    simp [brelseEnd, (holdingsleep_eq_false s pid b).2 h]
  refine ⟨⟨fun ⟨t, h⟩ => (hw t h).2, fun h => ⟨s, hw2 h⟩⟩,
    ⟨fun ⟨t, h⟩ => (hr t h).2, fun h => ⟨s, hr2 h⟩⟩, ?_, ?_,
    fun t h => (hw t h).1, fun t h => (hr t h).1⟩
  · rw [bwrite_eq_toOption]
    constructor
    · intro h
      cases he : bwriteEnd s pid b with
      | panic t => exact (hw t he).2
      | ok t => rw [he] at h; cases h
    · intro h
      rw [hw2 h]; rfl
  · rw [brelse_eq_toOption]
    constructor
    · intro h
      cases he : brelseEnd s pid b ticks with
      | panic t => exact (hr t he).2
      | ok t => rw [he] at h; cases h
    · intro h
      rw [hr2 h]; rfl

end Bio

namespace Kalloc

/-! ## Free lists as chains of frames -/

theorem upd_self {β : Type} (f : Nat → β) (k : Nat) (v : β) : upd f k v k = v := by
  simp [upd]

theorem upd_ne {β : Type} (f : Nat → β) (k : Nat) (v : β) (x : Nat) (h : x ≠ k) :
    upd f k v x = f x := by
  simp [upd, h]

theorem upd_upd_self {β : Type} (f : Nat → β) (k : Nat) (v w : β) :
    upd (upd f k v) k w = upd f k w := by
  funext x
  by_cases h : x = k <;> simp [upd, h]

theorem upd_eq_self {β : Type} (f : Nat → β) (k : Nat) : upd f k (f k) = f := by
  funext x
  by_cases h : x = k <;> simp [upd, h]

theorem mem_allFree (ls : Nat → List Nat) (a : Nat) :
    a ∈ allFree ls ↔ ∃ i, i < NCPU ∧ a ∈ ls i := by
  simp [allFree, List.mem_flatMap]

theorem isList_congr (next next2 : Nat → Nat) (l : List Nat) :
    ∀ p, (∀ a ∈ l, next2 a = next a) → IsList next p l → IsList next2 p l := by
  induction l with
  | nil => intro p _ h; exact h
  | cons a t ih =>
    intro p hn h
    obtain ⟨h1, h2, h3⟩ := h
    refine ⟨h1, h2, ?_⟩
    rw [hn a (List.mem_cons_self _ _)]
    exact ih (next a) (fun b hb => hn b (List.mem_cons_of_mem _ hb)) h3

theorem isList_ne_zero (next : Nat → Nat) (l : List Nat) :
    ∀ p, IsList next p l → ∀ a ∈ l, a ≠ 0 := by
  induction l with
  | nil => intro p _ a ha; cases ha
  | cons b t ih =>
    intro p h a ha
    obtain ⟨-, h2, h3⟩ := h
    rcases List.mem_cons.1 ha with rfl | ha
    · exact h2
    · exact ih (next b) h3 a ha

theorem isList_head_eq_zero_iff (next : Nat → Nat) (p : Nat) (l : List Nat)
    (h : IsList next p l) : p = 0 ↔ l = [] := by
  cases l with
  | nil => exact ⟨fun _ => rfl, fun _ => h⟩
  | cons a t =>
    obtain ⟨h1, h2, -⟩ := h
    constructor
    · intro hp; exact absurd (h1 ▸ hp) h2
    · intro hl; cases hl

/-- The chain that starts at a pointer is one list only. -/
theorem isList_unique (next : Nat → Nat) (l1 : List Nat) :
    ∀ p l2, IsList next p l1 → IsList next p l2 → l1 = l2 := by
  induction l1 with
  | nil =>
    intro p l2 h1 h2
    exact ((isList_head_eq_zero_iff next p l2 h2).1 h1).symm
  | cons a t ih =>
    intro p l2 h1 h2
    cases l2 with
    | nil =>
      obtain ⟨e, hne, -⟩ := h1
      exact absurd (e ▸ h2) hne
    | cons b u =>
      obtain ⟨e1, -, r1⟩ := h1
      obtain ⟨e2, -, r2⟩ := h2
      have hab : a = b := e1.symm.trans e2
      subst hab
      rw [ih (next a) u r1 r2]

/-- The frames of a list of distinct cores, when the head `a` of the list of core `i` is taken
off. -/
theorem flatMap_pop_perm (ls : Nat → List Nat) (i a : Nat) (t : List Nat) (hl : ls i = a :: t)
    (is : List Nat) (hnd : is.Nodup) (hi : i ∈ is) :
    (is.flatMap ls).Perm (a :: is.flatMap (upd ls i t)) := by
  induction is with
  | nil => cases hi
  | cons j js ih =>
    rw [List.flatMap_cons, List.flatMap_cons]
    have hnd' := (List.nodup_cons.1 hnd)
    by_cases hji : j = i
    · subst hji
      have hrest : js.flatMap (upd ls j t) = js.flatMap ls := by
        apply List.flatMap_congr
        intro x hx
        exact upd_ne ls j t x (fun e => hnd'.1 (e ▸ hx))
      rw [hrest, upd_self, hl]
      exact List.Perm.refl _
    · have hi' : i ∈ js := by
        rcases List.mem_cons.1 hi with e | e
        · exact absurd e.symm hji
        · exact e
      rw [upd_ne ls i t j hji]
      exact (List.Perm.append_left (ls j) (ih hnd'.2 hi')).trans List.perm_middle

theorem allFree_pop (ls : Nat → List Nat) (i a : Nat) (t : List Nat) (hi : i < NCPU)
    (hl : ls i = a :: t) : (allFree ls).Perm (a :: allFree (upd ls i t)) :=
  flatMap_pop_perm ls i a t hl (List.range NCPU) (List.nodup_range NCPU) (List.mem_range.2 hi)

theorem allFree_push (ls : Nat → List Nat) (c a : Nat) (hc : c < NCPU) :
    (allFree (upd ls c (a :: ls c))).Perm (a :: allFree ls) := by
  have h := allFree_pop (upd ls c (a :: ls c)) c a (ls c) hc (upd_self ls c _)
  rw [upd_upd_self, upd_eq_self] at h
  exact h

/-- Taking the head off the free list of core `i`. -/
theorem pop_lists (s : Kmem) (ls : Nat → List Nat) (i a : Nat) (t : List Nat)
    (h : s.Lists ls) (hi : i < NCPU) (hl : ls i = a :: t) :
    s.freelist i = a ∧ a ≠ 0 ∧ (s.setHead i (s.next a)).Lists (upd ls i t) := by
  have hli := h i hi
  rw [hl] at hli
  obtain ⟨h1, h2, h3⟩ := hli
  refine ⟨h1, h2, ?_⟩
  intro j hj
  by_cases hji : j = i
  · subst hji
    show IsList s.next (upd s.freelist j (s.next a) j) (upd ls j t j)
    rw [upd_self, upd_self]
    exact h3
  · show IsList s.next (upd s.freelist i (s.next a) j) (upd ls i t j)
    rw [upd_ne _ _ _ _ hji, upd_ne _ _ _ _ hji]
    exact h j hj

/-- Overwriting the `next` field of a frame that is on no free list. -/
theorem junk_lists (s : Kmem) (ls : Nat → List Nat) (a v : Nat) (h : s.Lists ls)
    (ha : a ∉ allFree ls) : (s.setNext a v).Lists ls := by
  intro j hj
  refine isList_congr s.next _ (ls j) _ ?_ (h j hj)
  intro b hb
  have : b ≠ a := fun e => ha ((mem_allFree ls a).2 ⟨j, hj, e ▸ hb⟩)
  exact upd_ne s.next a v b this

/-- Pushing a frame that is on no free list on the free list of core `c`. -/
theorem push_lists (s : Kmem) (ls : Nat → List Nat) (c a : Nat) (h : s.Lists ls)
    (hc : c < NCPU) (h0 : a ≠ 0) (ha : a ∉ allFree ls) :
    ((s.setNext a (s.freelist c)).setHead c a).Lists (upd ls c (a :: ls c)) := by
  have hj := junk_lists s ls a (s.freelist c) h ha
  intro j hjn
  by_cases hjc : j = c
  · subst hjc
    show IsList (upd s.next a (s.freelist j)) (upd s.freelist j a j) (upd ls j (a :: ls j) j)
    rw [upd_self, upd_self]
    refine ⟨rfl, h0, ?_⟩
    rw [upd_self]
    exact hj j hjn
  · show IsList (upd s.next a (s.freelist c)) (upd s.freelist c a j) (upd ls c (a :: ls c) j)
    rw [upd_ne _ _ _ _ hjc, upd_ne _ _ _ _ hjc]
    exact hj j hjn

theorem pools_pop (s : Kmem) (ls : Nat → List Nat) (i a : Nat) (t : List Nat)
    (h : Pools s ls) (hi : i < NCPU) (hl : ls i = a :: t) :
    Pools (s.setHead i (s.next a)) (upd ls i t) ∧ a ∉ allFree (upd ls i t) := by
  have hp := allFree_pop ls i a t hi hl
  have hnd := (hp.nodup_iff).1 h.2
  exact ⟨⟨(pop_lists s ls i a t h.1 hi hl).2.2, (List.nodup_cons.1 hnd).2⟩,
    (List.nodup_cons.1 hnd).1⟩

theorem pools_push (s : Kmem) (ls : Nat → List Nat) (c a : Nat) (h : Pools s ls)
    (hc : c < NCPU) (h0 : a ≠ 0) (ha : a ∉ allFree ls) :
    Pools ((s.setNext a (s.freelist c)).setHead c a) (upd ls c (a :: ls c)) :=
  ⟨push_lists s ls c a h.1 hc h0 ha,
    ((allFree_push ls c a hc).nodup_iff).2 (List.nodup_cons.2 ⟨ha, h.2⟩)⟩

/-- One iteration of the loop `while(rr && steal_left)`: the head of the list of core `i` goes
to the head of the list of core `c`. -/
theorem pools_move (s : Kmem) (ls : Nat → List Nat) (c i a : Nat) (t : List Nat)
    (h : Pools s ls) (hc : c < NCPU) (hi : i < NCPU) (hic : i ≠ c) (hl : ls i = a :: t) :
    s.freelist i = a ∧
    Pools (((s.setHead i (s.next a)).setNext a ((s.setHead i (s.next a)).freelist c)).setHead c a)
      (upd (upd ls i t) c (a :: ls c)) ∧
    (allFree (upd (upd ls i t) c (a :: ls c))).Perm (allFree ls) := by
  obtain ⟨h1, h2, -⟩ := pop_lists s ls i a t h.1 hi hl
  obtain ⟨hp, hna⟩ := pools_pop s ls i a t h hi hl
  have hpush := pools_push _ _ c a hp hc h2 hna
  rw [upd_ne ls i t c (fun e => hic e.symm)] at hpush
  refine ⟨h1, hpush, ?_⟩
  have p1 := allFree_push (upd ls i t) c a hc
  rw [upd_ne ls i t c (fun e => hic e.symm)] at p1
  exact p1.trans (allFree_pop ls i a t hi hl).symm

/-- The loop `while(rr && steal_left)`: the first `n` frames of the list of core `i` go to the
list of core `c`, the last one taken first, and `steal_left` drops by their number. -/
theorem stealFrom_pools (c i : Nat) (hc : c < NCPU) (hi : i < NCPU) (hic : i ≠ c) (n : Nat) :
    ∀ (s : Kmem) (ls : Nat → List Nat), Pools s ls →
      Pools (stealFrom c i n s).1
        (upd (upd ls i ((ls i).drop n)) c (((ls i).take n).reverse ++ ls c)) ∧
      (stealFrom c i n s).2 = n - (ls i).length ∧
      (allFree (upd (upd ls i ((ls i).drop n)) c (((ls i).take n).reverse ++ ls c))).Perm
        (allFree ls) := by
  induction n with
  | zero =>
    intro s ls h
    have e : upd (upd ls i ((ls i).drop 0)) c (((ls i).take 0).reverse ++ ls c) = ls := by
      funext x
      by_cases hx : x = c
      · subst hx; simp [upd]
      · by_cases hx2 : x = i
        · subst hx2; simp [upd, hx]
        · simp [upd, hx, hx2]
    rw [e]
    exact ⟨h, by simp [stealFrom], List.Perm.refl _⟩
  | succ n ih =>
    intro s ls h
    cases hl : ls i with
    | nil =>
      have h0 : s.freelist i = 0 := by
        have := h.1 i hi
        rw [hl] at this
        exact this
      have e : upd (upd ls i (([] : List Nat).drop (n + 1))) c
          ((([] : List Nat).take (n + 1)).reverse ++ ls c) = ls := by
        funext x
        by_cases hx : x = c
        · subst hx; simp [upd]
        · by_cases hx2 : x = i
          · subst hx2; simp [upd, hx, hl]
          · simp [upd, hx, hx2]
      rw [e]
      have hs : stealFrom c i (n + 1) s = (s, n + 1) := by
        simp only [stealFrom, h0, if_true]
      rw [hs]
      exact ⟨h, by simp, List.Perm.refl _⟩
    | cons a t =>
      obtain ⟨h1, hp, hperm⟩ := pools_move s ls c i a t h hc hi hic hl
      have hne : s.freelist i ≠ 0 := by
        rw [h1]
        exact (pop_lists s ls i a t h.1 hi hl).2.1
      obtain ⟨g1, g2, g3⟩ := ih _ _ hp
      have ei : upd (upd ls i t) c (a :: ls c) i = t := by
        rw [upd_ne _ _ _ _ hic, upd_self]
      have ec : upd (upd ls i t) c (a :: ls c) c = a :: ls c := upd_self _ _ _
      simp only [ei, ec] at g1 g2 g3
      have e : upd (upd (upd (upd ls i t) c (a :: ls c)) i (t.drop n)) c
            ((t.take n).reverse ++ a :: ls c) =
          upd (upd ls i ((a :: t).drop (n + 1))) c (((a :: t).take (n + 1)).reverse ++ ls c) := by
        funext x
        by_cases hx : x = c
        · subst hx; simp [upd]
        · by_cases hx2 : x = i
          · subst hx2; simp [upd, hx]
          · simp [upd, hx, hx2]
      rw [e] at g1 g3
      have hs : stealFrom c i (n + 1) s = stealFrom c i n
          (((s.setHead i (s.next a)).setNext a ((s.setHead i (s.next a)).freelist c)).setHead
            c a) := by
        simp only [stealFrom, h1]
        rw [if_neg (h1 ▸ hne)]
      rw [hs]
      refine ⟨g1, ?_, g3.trans hperm⟩
      rw [g2]
      simp

/-- The frames on the lists of the cores of `cores` other than `c`, in the order of the visit. -/
theorem flatMap_others_congr (c : Nat) (ls ls2 : Nat → List Nat) (cores : List Nat)
    (h : ∀ j ∈ cores, j ≠ c → ls2 j = ls j) :
    (cores.filter (fun i => decide (i ≠ c))).flatMap ls2 =
      (cores.filter (fun i => decide (i ≠ c))).flatMap ls := by
  induction cores with
  | nil => rfl
  | cons j js ih =>
    have ih2 := ih (fun k hk => h k (List.mem_cons_of_mem _ hk))
    by_cases hj : j = c
    · have hf : (j :: js).filter (fun i => decide (i ≠ c)) =
          js.filter (fun i => decide (i ≠ c)) := by
        simp [List.filter_cons, hj]
      rw [hf]
      exact ih2
    · have e : decide (j ≠ c) = true := by simpa using hj
      simp only [List.filter_cons, e, if_true, List.flatMap_cons]
      rw [ih2, h j (List.mem_cons_self _ _) hj]

/-- The loop over the cores in `kalloc`: the lists after it, when `steal_left` is `n` at its
start. -/
theorem stealLoop_pools (c : Nat) (hc : c < NCPU) (cores : List Nat) :
    ∀ (n : Nat) (s : Kmem) (ls : Nat → List Nat), Pools s ls → cores.Nodup →
      (∀ i ∈ cores, i < NCPU) →
      ∃ ls2, Pools (stealLoop c cores n s).1 ls2 ∧
        ls2 c = (((cores.filter (fun i => decide (i ≠ c))).flatMap ls).take n).reverse ++ ls c ∧
        (cores.filter (fun i => decide (i ≠ c))).flatMap ls2 =
          ((cores.filter (fun i => decide (i ≠ c))).flatMap ls).drop n ∧
        (∀ j, j ≠ c → j ∉ cores → ls2 j = ls j) ∧
        (∀ j, j ≠ c → ∃ k, ls2 j = (ls j).drop k) ∧
        (allFree ls2).Perm (allFree ls) := by
  induction cores with
  | nil =>
    intro n s ls h _ _
    exact ⟨ls, h, by simp, by simp, fun _ _ _ => rfl, fun j _ => ⟨0, by simp⟩, List.Perm.refl _⟩
  | cons i is ih =>
    intro n s ls h hnd hlt
    have hnd2 : is.Nodup := (List.nodup_cons.1 hnd).2
    have hni : i ∉ is := (List.nodup_cons.1 hnd).1
    have hlt2 : ∀ j ∈ is, j < NCPU := fun j hj => hlt j (List.mem_cons_of_mem _ hj)
    by_cases hic : i = c
    · obtain ⟨ls2, g1, g2, g3, g4, g5, g6⟩ := ih n s ls h hnd2 hlt2
      have hs : stealLoop c (i :: is) n s = stealLoop c is n s := by
        simp only [stealLoop, hic, if_true]
      have hf : (i :: is).filter (fun i => decide (i ≠ c)) =
          is.filter (fun i => decide (i ≠ c)) := by
        simp [List.filter_cons, hic]
      rw [hs, hf]
      refine ⟨ls2, g1, g2, g3, fun j hj hm => g4 j hj (fun hm2 => hm (List.mem_cons_of_mem _ hm2)),
        g5, g6⟩
    · have hi : i < NCPU := hlt i (List.mem_cons_self _ _)
      obtain ⟨p1, p2, p3⟩ := stealFrom_pools c i hc hi hic n s ls h
      have e : decide (i ≠ c) = true := by simpa using hic
      have hf : (i :: is).filter (fun i => decide (i ≠ c)) =
          i :: is.filter (fun i => decide (i ≠ c)) := by
        simp only [List.filter_cons, e, if_true]
      rw [hf]
      simp only [List.flatMap_cons]
      have hrest : (is.filter (fun i => decide (i ≠ c))).flatMap
            (upd (upd ls i ((ls i).drop n)) c (((ls i).take n).reverse ++ ls c)) =
          (is.filter (fun i => decide (i ≠ c))).flatMap ls := by
        apply flatMap_others_congr
        intro j hj hjc
        rw [upd_ne _ _ _ _ hjc, upd_ne _ _ _ _ (fun e2 => hni (by rw [← e2]; exact hj))]
      have e1i : upd (upd ls i ((ls i).drop n)) c (((ls i).take n).reverse ++ ls c) i =
          (ls i).drop n := by
        rw [upd_ne _ _ _ _ hic, upd_self]
      have e1c : upd (upd ls i ((ls i).drop n)) c (((ls i).take n).reverse ++ ls c) c =
          ((ls i).take n).reverse ++ ls c := upd_self _ _ _
      by_cases hz : (stealFrom c i n s).2 = 0
      · have hs : (stealLoop c (i :: is) n s).1 = (stealFrom c i n s).1 := by
          simp only [stealLoop, hic, if_false, hz, if_true]
        rw [hs]
        have hle : n ≤ (ls i).length := by omega
        refine ⟨_, p1, ?_, ?_, ?_, ?_, p3⟩
        · rw [e1c, List.take_append_of_le_length hle]
        · rw [e1i, hrest, List.drop_append_of_le_length hle]
        · intro j hj hm
          rw [upd_ne _ _ _ _ hj, upd_ne _ _ _ _ (fun e2 => hm (by rw [e2]; exact List.mem_cons_self _ _))]
        · intro j hj
          by_cases hji : j = i
          · exact ⟨n, by rw [hji, e1i]⟩
          · exact ⟨0, by rw [upd_ne _ _ _ _ hj, upd_ne _ _ _ _ hji]; simp⟩
      · have hs : (stealLoop c (i :: is) n s).1 =
            (stealLoop c is (stealFrom c i n s).2 (stealFrom c i n s).1).1 := by
          simp only [stealLoop, hic, if_false, hz]
        rw [hs]
        have hgt : (ls i).length < n := by omega
        obtain ⟨ls2, g1, g2, g3, g4, g5, g6⟩ := ih (stealFrom c i n s).2 (stealFrom c i n s).1 _ p1 hnd2 hlt2
        rw [hrest, e1c, p2] at g2
        rw [hrest, p2] at g3
        have hi2 : ls2 i = [] := by
          rw [g4 i hic hni, e1i]
          exact List.drop_eq_nil_of_le (le_of_lt hgt)
        refine ⟨ls2, g1, ?_, ?_, ?_, ?_, g6.trans p3⟩
        · rw [g2, List.take_append_eq_append_take, List.take_of_length_le (le_of_lt hgt)]
          simp
        · rw [hi2, g3, List.drop_append_eq_append_drop,
            List.drop_eq_nil_of_le (le_of_lt hgt)]
        · intro j hj hm
          have hji : j ≠ i := fun e2 => hm (by rw [e2]; exact List.mem_cons_self _ _)
          rw [g4 j hj (fun hm2 => hm (List.mem_cons_of_mem _ hm2)), upd_ne _ _ _ _ hj,
            upd_ne _ _ _ _ hji]
        · intro j hj
          obtain ⟨k, hk⟩ := g5 j hj
          by_cases hji : j = i
          · exact ⟨(ls i).length, by rw [hji, hi2]; simp⟩
          · refine ⟨k, ?_⟩
            rw [hk, upd_ne _ _ _ _ hj, upd_ne _ _ _ _ hji]

/-! ## The steps of `kalloc` and `kfree` on the lists -/

theorem othersFree_upd_self (c : Nat) (ls : Nat → List Nat) (v : List Nat) :
    othersFree c (upd ls c v) = othersFree c ls :=
  flatMap_others_congr c ls (upd ls c v) (List.range NCPU) (fun j _ hj => upd_ne ls c v j hj)

/-- The three checks of `kfree` pass for an aligned frame of the managed range: the frame is
pushed on the list of the calling core. -/
theorem kfree_ok (kend PHYSTOP : Nat) (s : Kmem) (c pa : Nat) (h1 : pa % PGSIZE = 0)
    (h2 : kend ≤ pa) (h3 : pa < PHYSTOP) :
    kfree kend PHYSTOP s c pa = Bio.Ended.ok ((s.setNext pa (s.freelist c)).setHead c pa) := by
  have hn : ¬ (pa % PGSIZE ≠ 0 ∨ pa < kend ∨ pa ≥ PHYSTOP) := by
    rintro (h | h | h)
    · exact h h1
    · omega
    · omega
  unfold kfree
  rw [if_neg hn]
  simp only [Kmem.setNext, Kmem.setHead, upd_upd_self]

/-- One of the three checks of `kfree` fails: `panic`, with the state of the call. -/
theorem kfree_panic (kend PHYSTOP : Nat) (s : Kmem) (c pa : Nat)
    (h : pa % PGSIZE ≠ 0 ∨ pa < kend ∨ pa ≥ PHYSTOP) :
    kfree kend PHYSTOP s c pa = Bio.Ended.panic s := by
  unfold kfree
  rw [if_pos h]

/-- The lists after the steal of `kalloc`, before the head of the list of core `c` is taken. -/
theorem afterSteal_pools (s : Kmem) (ls : Nat → List Nat) (c : Nat) (h : Pools s ls)
    (hc : c < NCPU) :
    ∃ ls1, Pools (afterSteal s c).1 ls1 ∧ (allFree ls1).Perm (allFree ls) ∧
      (ls c ≠ [] → ls1 = ls ∧ (afterSteal s c).1 = s) ∧
      (ls c = [] → ls1 c = ((othersFree c ls).take STEAL).reverse ∧
        othersFree c ls1 = (othersFree c ls).drop STEAL ∧
        ∀ j, j ≠ c → ∃ k, ls1 j = (ls j).drop k) := by
  by_cases hl : ls c = []
  · have h0 : s.freelist c = 0 := by
      have := h.1 c hc
      rw [hl] at this
      exact this
    obtain ⟨ls2, g1, g2, g3, -, g5, g6⟩ := stealLoop_pools c hc (List.range NCPU) STEAL s ls h
      (List.nodup_range NCPU) (fun i hi => List.mem_range.1 hi)
    have hs : afterSteal s c = stealLoop c (List.range NCPU) STEAL s := by
      unfold afterSteal
      rw [if_pos h0]
    rw [hs]
    refine ⟨ls2, g1, g6, fun hne => absurd hl hne, fun _ => ⟨?_, g3, g5⟩⟩
    rw [g2, hl, List.append_nil]
    rfl
  · have h0 : s.freelist c ≠ 0 := by
      intro e
      exact hl ((isList_head_eq_zero_iff s.next (s.freelist c) (ls c) (h.1 c hc)).1 e)
    have hs : afterSteal s c = (s, []) := by
      unfold afterSteal
      rw [if_neg h0]
    rw [hs]
    exact ⟨ls, h, List.Perm.refl _, fun _ => ⟨rfl, rfl⟩, fun e => absurd e hl⟩

/-- The end of `kalloc`: the head of the list of core `c` is returned and filled with junk. -/
theorem kalloc_pop (s : Kmem) (ls1 : Nat → List Nat) (c : Nat)
    (h : Pools (afterSteal s c).1 ls1) (hc : c < NCPU) :
    (kalloc s c).r = (ls1 c).headD 0 ∧
    Pools (kalloc s c).state (upd ls1 c (ls1 c).tail) ∧
    ((kalloc s c).r ≠ 0 → (kalloc s c).r ∉ allFree (upd ls1 c (ls1 c).tail) ∧
      (allFree ls1).Perm ((kalloc s c).r :: allFree (upd ls1 c (ls1 c).tail))) ∧
    ((kalloc s c).r = 0 → ls1 c = []) := by
  have hr : (kalloc s c).r = (afterSteal s c).1.freelist c := rfl
  cases hl : ls1 c with
  | nil =>
    have h0 : (afterSteal s c).1.freelist c = 0 := by
      have := h.1 c hc
      rw [hl] at this
      exact this
    have hst : (kalloc s c).state = (afterSteal s c).1 := by
      show (if (afterSteal s c).1.freelist c ≠ 0 then _ else (afterSteal s c).1) = _
      rw [if_neg (not_not.2 h0)]
    have e : upd ls1 c ([] : List Nat).tail = ls1 := by
      have := upd_eq_self ls1 c
      rw [hl] at this
      exact this
    rw [hr, h0, hst, e]
    exact ⟨rfl, h, fun hne => absurd rfl hne, fun _ => rfl⟩
  | cons a t =>
    obtain ⟨p1, p2, -⟩ := pop_lists _ ls1 c a t h.1 hc hl
    obtain ⟨q1, q2⟩ := pools_pop _ ls1 c a t h hc hl
    have hst : (kalloc s c).state =
        (((afterSteal s c).1.setHead c ((afterSteal s c).1.next a)).setNext a JUNK5) := by
      show (if (afterSteal s c).1.freelist c ≠ 0 then _ else (afterSteal s c).1) = _
      rw [if_pos (by rw [p1]; exact p2), p1]
    rw [hr, p1, hst]
    refine ⟨rfl, ⟨junk_lists _ _ a JUNK5 q1.1 q2, q1.2⟩, fun _ => ⟨q2, allFree_pop ls1 c a t hc hl⟩,
      fun e => absurd e p2⟩

/-! ## Claims on `kfree` and on `kalloc` from a non-empty list -/

theorem pools_demo : Pools demoKmem demoLists := by
  refine ⟨?_, by decide⟩
  unfold Kmem.Lists
  decide

/-- The heads of the lists of the cores other than `c` are those left by the steal. -/
theorem kalloc_freelist_ne (s : Kmem) (c i : Nat) (hi : i ≠ c) :
    (kalloc s c).state.freelist i = (afterSteal s c).1.freelist i := by
  show (if (afterSteal s c).1.freelist c ≠ 0 then _ else (afterSteal s c).1).freelist i = _
  split
  · exact upd_ne _ _ _ _ hi
  · rfl

/-- C14. `kfree(pa)` ends in `panic` exactly when `pa` is not a multiple of 4096, or is below
`end`, or is at least `PHYSTOP`; the state at the `panic` is the state at the call: no head of
a free list and no `next` field has been written. -/
theorem kfree_panic_iff (kend PHYSTOP : Nat) (s : Kmem) (c pa : Nat) :
    ((∃ t, kfree kend PHYSTOP s c pa = Bio.Ended.panic t) ↔
      (pa % 4096 ≠ 0 ∨ pa < kend ∨ pa ≥ PHYSTOP)) ∧
    (∀ t, kfree kend PHYSTOP s c pa = Bio.Ended.panic t → t = s) := by
  by_cases h : pa % PGSIZE ≠ 0 ∨ pa < kend ∨ pa ≥ PHYSTOP
  · rw [kfree_panic kend PHYSTOP s c pa h]
    refine ⟨⟨fun _ => h, fun _ => ⟨s, rfl⟩⟩, ?_⟩
    intro t ht
    cases ht
    rfl
  · have h1 : pa % PGSIZE = 0 := by
      by_contra e
      exact h (Or.inl e)
    have h2 : kend ≤ pa := by
      by_contra e
      exact h (Or.inr (Or.inl (by omega)))
    have h3 : pa < PHYSTOP := by
      by_contra e
      exact h (Or.inr (Or.inr (by omega)))
    rw [kfree_ok kend PHYSTOP s c pa h1 h2 h3]
    refine ⟨⟨?_, fun e => absurd e h⟩, ?_⟩
    · rintro ⟨t, ht⟩
      cases ht
    · intro t ht
      cases ht

/-- C17, as amended. For a page-aligned `pa` with `end <= pa < PHYSTOP` that is on no free
list at the call (`end` is above address 0), `kfree(pa)` on core `c` returns, `pa` is the head
of the free list of core `c` with the previous list of `c` as its tail, and the free list of
every other core, head included, is unchanged. -/
theorem kfree_pushes_on_caller (kend PHYSTOP : Nat) (s : Kmem) (ls : Nat → List Nat)
    (c pa : Nat) (h : s.Lists ls) (hc : c < NCPU) (hk : 0 < kend) (h1 : pa % 4096 = 0)
    (h2 : kend ≤ pa) (h3 : pa < PHYSTOP) (hfree : pa ∉ allFree ls) :
    ∃ s2, kfree kend PHYSTOP s c pa = Bio.Ended.ok s2 ∧
      IsList s2.next (s2.freelist c) (pa :: ls c) ∧
      ∀ i, i < NCPU → i ≠ c →
        IsList s2.next (s2.freelist i) (ls i) ∧ s2.freelist i = s.freelist i := by
  refine ⟨_, kfree_ok kend PHYSTOP s c pa h1 h2 h3, ?_, ?_⟩
  · have := push_lists s ls c pa h hc (by omega) hfree c hc
    rw [upd_self] at this
    exact this
  · intro i hi hic
    have := push_lists s ls c pa h hc (by omega) hfree i hi
    rw [upd_ne _ _ _ _ hic] at this
    exact ⟨this, upd_ne _ _ _ _ hic⟩

theorem kfree_pushes_on_caller_witness :
    ∃ s2, kfree 4096 20480 demoKmem 0 16384 = Bio.Ended.ok s2 ∧
      IsList s2.next (s2.freelist 0) (16384 :: demoLists 0) ∧
      ∀ i, i < NCPU → i ≠ 0 →
        IsList s2.next (s2.freelist i) (demoLists i) ∧ s2.freelist i = demoKmem.freelist i :=
  kfree_pushes_on_caller 4096 20480 demoKmem demoLists 0 16384 pools_demo.1 (by decide)
    (by decide) (by decide) (by decide) (by decide) (by decide)

/-- C17, as stated, fails for a frame that is on a free list. With core 1 holding
`[8192, 4096]` and core 3 holding `[12288]`, `kfree(12288)` on core 1 returns and the list of
core 3 is `[12288, 8192, 4096]` afterwards. -/
theorem kfree_of_free_frame_changes_other_list :
    Pools demoKmem demoLists ∧ 12288 % 4096 = 0 ∧ 4096 ≤ 12288 ∧ 12288 < 16384 ∧
    (kfree 4096 16384 demoKmem 1 12288).toOption.isSome = true ∧
    IsList (endState (kfree 4096 16384 demoKmem 1 12288)).next
      ((endState (kfree 4096 16384 demoKmem 1 12288)).freelist 3) [12288, 8192, 4096] ∧
    ¬ IsList (endState (kfree 4096 16384 demoKmem 1 12288)).next
      ((endState (kfree 4096 16384 demoKmem 1 12288)).freelist 3) (demoLists 3) :=
  ⟨pools_demo, by decide, by decide, by decide, by decide, by decide, by decide⟩

/-- C18. When the free list of core `c` is `a :: t`, `kalloc` on core `c` returns `a`, the
list of core `c` is `t` afterwards, and the free list of every other core, head included, is
unchanged; no lock but the one of core `c` is taken. -/
theorem kalloc_pops_local_head (s : Kmem) (ls : Nat → List Nat) (c a : Nat) (t : List Nat)
    (h : Pools s ls) (hc : c < NCPU) (hl : ls c = a :: t) :
    (kalloc s c).r = a ∧
    IsList (kalloc s c).state.next ((kalloc s c).state.freelist c) t ∧
    (∀ i, i < NCPU → i ≠ c →
      IsList (kalloc s c).state.next ((kalloc s c).state.freelist i) (ls i) ∧
      (kalloc s c).state.freelist i = s.freelist i) ∧
    (kalloc s c).locks = [LockEv.acquire c, LockEv.release c] := by
  have hne : ls c ≠ [] := by rw [hl]; exact List.cons_ne_nil _ _
  obtain ⟨ls1, g1, -, g3, -⟩ := afterSteal_pools s ls c h hc
  obtain ⟨e1, e2⟩ := g3 hne
  subst e1
  obtain ⟨p1, p2, -, -⟩ := kalloc_pop s ls1 c g1 hc
  rw [hl] at p1 p2
  refine ⟨p1, ?_, ?_, ?_⟩
  · have := p2.1 c hc
    rw [upd_self] at this
    exact this
  · intro i hi hic
    have := p2.1 i hi
    rw [upd_ne _ _ _ _ hic] at this
    refine ⟨this, ?_⟩
    rw [kalloc_freelist_ne s c i hic, e2]
  · have h0 : s.freelist c ≠ 0 := by
      intro e
      exact hne ((isList_head_eq_zero_iff s.next (s.freelist c) (ls1 c) (h.1 c hc)).1 e)
    show [LockEv.acquire c] ++ (afterSteal s c).2 ++ [LockEv.release c] = _
    unfold afterSteal
    rw [if_neg h0]
    rfl

theorem kalloc_pops_local_head_witness :
    (kalloc demoKmem 1).r = 8192 ∧
    IsList (kalloc demoKmem 1).state.next ((kalloc demoKmem 1).state.freelist 1) [4096] ∧
    (∀ i, i < NCPU → i ≠ 1 →
      IsList (kalloc demoKmem 1).state.next ((kalloc demoKmem 1).state.freelist i)
        (demoLists i) ∧
      (kalloc demoKmem 1).state.freelist i = demoKmem.freelist i) ∧
    (kalloc demoKmem 1).locks = [LockEv.acquire 1, LockEv.release 1] :=
  kalloc_pops_local_head demoKmem demoLists 1 8192 [4096] pools_demo (by decide) (by decide)

/-! ## Claims on the steal of `kalloc` -/

/-- The loop `while(rr && steal_left)` does nothing on an empty list. -/
theorem stealFrom_of_empty (c i : Nat) (n : Nat) (s : Kmem) (h : s.freelist i = 0) :
    stealFrom c i n s = (s, n) := by
  cases n with
  | zero => rfl
  | succ n => simp only [stealFrom, h, if_true]

/-- The loop `while(rr && steal_left)` leaves a list of core `c` that is not empty not empty. -/
theorem stealFrom_head_ne (c i : Nat) (n : Nat) :
    ∀ s : Kmem, s.freelist c ≠ 0 → (stealFrom c i n s).1.freelist c ≠ 0 := by
  induction n with
  | zero => exact fun s h => h
  | succ n ih =>
    intro s h
    by_cases h0 : s.freelist i = 0
    · rw [stealFrom_of_empty c i (n + 1) s h0]
      exact h
    · simp only [stealFrom]
      rw [if_neg h0]
      apply ih
      show upd _ c (s.freelist i) c ≠ 0
      rw [upd_self]
      exact h0

/-- With `steal_left` not 0, the loop `while(rr && steal_left)` on a list that is not empty
leaves the list of core `c` not empty. -/
theorem stealFrom_takes (c i : Nat) (n : Nat) (s : Kmem) (hn : 0 < n)
    (h0 : s.freelist i ≠ 0) : (stealFrom c i n s).1.freelist c ≠ 0 := by
  cases n with
  | zero => omega
  | succ n =>
    simp only [stealFrom]
    rw [if_neg h0]
    apply stealFrom_head_ne c i
    show upd _ c (s.freelist i) c ≠ 0
    rw [upd_self]
    exact h0

theorem stealLoop_head_ne (c : Nat) (cores : List Nat) :
    ∀ (n : Nat) (s : Kmem), s.freelist c ≠ 0 → (stealLoop c cores n s).1.freelist c ≠ 0 := by
  induction cores with
  | nil => exact fun _ s h => h
  | cons i is ih =>
    intro n s h
    by_cases hic : i = c
    · simp only [stealLoop, hic, if_true]
      exact ih n s h
    · have h1 := stealFrom_head_ne c i n s h
      by_cases hz : (stealFrom c i n s).2 = 0
      · simp only [stealLoop, hic, if_false, hz, if_true]
        exact h1
      · simp only [stealLoop, hic, if_false, hz]
        exact ih _ _ h1

/-- The loop over the cores leaves the list of core `c` empty exactly when every list it
visits is empty. -/
theorem stealLoop_head_eq_zero_iff (c : Nat) (cores : List Nat) :
    ∀ (n : Nat) (s : Kmem), 0 < n → s.freelist c = 0 →
      ((stealLoop c cores n s).1.freelist c = 0 ↔ ∀ i ∈ cores, i ≠ c → s.freelist i = 0) := by
  induction cores with
  | nil =>
    intro n s _ h
    simp [stealLoop, h]
  | cons i is ih =>
    intro n s hn h
    by_cases hic : i = c
    · simp only [stealLoop, hic, if_true]
      rw [ih n s hn h]
      constructor
      · intro g j hj hjc
        rcases List.mem_cons.1 hj with e | e
        · exact absurd e hjc
        · exact g j e hjc
      · exact fun g j hj hjc => g j (List.mem_cons_of_mem _ hj) hjc
    · by_cases h0 : s.freelist i = 0
      · have e1 : (stealLoop c (i :: is) n s).1 = (stealLoop c is n s).1 := by
          simp only [stealLoop, hic, if_false, stealFrom_of_empty c i n s h0]
          rw [if_neg (by omega)]
        rw [e1, ih n s hn h]
        constructor
        · intro g j hj hjc
          rcases List.mem_cons.1 hj with e | e
          · rw [e]; exact h0
          · exact g j e hjc
        · exact fun g j hj hjc => g j (List.mem_cons_of_mem _ hj) hjc
      · have h1 := stealFrom_takes c i n s hn h0
        have h2 : (stealLoop c (i :: is) n s).1.freelist c ≠ 0 := by
          by_cases hz : (stealFrom c i n s).2 = 0
          · simp only [stealLoop, hic, if_false, hz, if_true]
            exact h1
          · simp only [stealLoop, hic, if_false, hz]
            exact stealLoop_head_ne c is _ _ h1
        constructor
        · exact fun e => absurd e h2
        · exact fun g => absurd (g i (List.mem_cons_self _ _) hic) h0

/-- C12. `kalloc` on core `c` returns 0 exactly when, at the call, the free list of core `c`
and the free lists of all other cores are empty (their heads are 0); in particular, when the
list of core `c` is empty and the list of another core is not, it returns a frame. -/
theorem kalloc_fails_iff_all_empty (s : Kmem) (c : Nat) :
    ((kalloc s c).r = 0 ↔ s.freelist c = 0 ∧ ∀ i, i < NCPU → i ≠ c → s.freelist i = 0) ∧
    (s.freelist c = 0 → (∃ i, i < NCPU ∧ i ≠ c ∧ s.freelist i ≠ 0) → (kalloc s c).r ≠ 0) := by
  have key : (kalloc s c).r = 0 ↔
      s.freelist c = 0 ∧ ∀ i, i < NCPU → i ≠ c → s.freelist i = 0 := by
    show (afterSteal s c).1.freelist c = 0 ↔ _
    by_cases h : s.freelist c = 0
    · unfold afterSteal
      rw [if_pos h, stealLoop_head_eq_zero_iff c (List.range NCPU) STEAL s (by decide) h]
      constructor
      · exact fun g => ⟨h, fun i hi hic => g i (List.mem_range.2 hi) hic⟩
      · exact fun g i hi hic => g.2 i (List.mem_range.1 hi) hic
    · unfold afterSteal
      rw [if_neg h]
      exact ⟨fun e => absurd e h, fun g => g.1⟩
  refine ⟨key, ?_⟩
  rintro h ⟨i, hi, hic, h0⟩ e
  exact h0 ((key.1 e).2 i hi hic)

/-- C15. `kalloc` on core `c` in a state whose free lists are `ls`, no frame twice. When the
list of core `c` is empty, the frames taken from the other cores are the first
`min(64, total)` frames of the other lists put end to end in ascending order of core (`c`
skipped): every other list loses frames at its head only, what is left of them is the rest of
that sequence, and the frames taken, the last one first, are the frame returned followed by the
list of core `c` afterwards (when there is none, 0 is returned and the list stays empty). When
the list of core `c` is not empty, the list of every other core is unchanged. -/
theorem kalloc_steals_at_most_64 (s : Kmem) (ls : Nat → List Nat) (c : Nat) (h : Pools s ls)
    (hc : c < NCPU) :
    ∃ ls2, (kalloc s c).state.Lists ls2 ∧
      (ls c = [] →
        (othersFree c ls).length - (othersFree c ls2).length =
          min 64 (othersFree c ls).length ∧
        othersFree c ls2 = (othersFree c ls).drop 64 ∧
        (∀ j, j ≠ c → ∃ k, ls2 j = (ls j).drop k) ∧
        (othersFree c ls ≠ [] →
          (kalloc s c).r :: ls2 c = ((othersFree c ls).take 64).reverse) ∧
        (othersFree c ls = [] → (kalloc s c).r = 0 ∧ ls2 c = [])) ∧
      (ls c ≠ [] → ∀ j, j ≠ c → ls2 j = ls j) := by
  obtain ⟨ls1, g1, -, g3, g4⟩ := afterSteal_pools s ls c h hc
  obtain ⟨p1, p2, -, -⟩ := kalloc_pop s ls1 c g1 hc
  refine ⟨_, p2.1, ?_, ?_⟩
  · intro hl
    obtain ⟨q1, q2, q3⟩ := g4 hl
    rw [othersFree_upd_self, q2]
    refine ⟨?_, rfl, ?_, ?_, ?_⟩
    · rw [List.length_drop]
      have hS : STEAL = 64 := rfl
      omega
    · intro j hj
      rw [upd_ne _ _ _ _ hj]
      exact q3 j hj
    · intro hne
      rw [upd_self, p1, q1]
      have hne2 : ((othersFree c ls).take STEAL).reverse ≠ [] := by
        intro e
        rw [List.reverse_eq_nil_iff, List.take_eq_nil_iff] at e
        rcases e with e | e
        · exact absurd e (by decide)
        · exact hne e
      show _ = ((othersFree c ls).take STEAL).reverse
      cases hx : ((othersFree c ls).take STEAL).reverse with
      | nil => exact absurd hx hne2
      | cons a t => rfl
    · intro he
      rw [upd_self, p1, q1, he]
      exact ⟨rfl, rfl⟩
  · intro hne j hj
    rw [upd_ne _ _ _ _ hj, (g3 hne).1]

theorem kalloc_steals_at_most_64_witness :
    ∃ ls2, (kalloc demoKmem 0).state.Lists ls2 ∧
      (demoLists 0 = [] →
        (othersFree 0 demoLists).length - (othersFree 0 ls2).length =
          min 64 (othersFree 0 demoLists).length ∧
        othersFree 0 ls2 = (othersFree 0 demoLists).drop 64 ∧
        (∀ j, j ≠ 0 → ∃ k, ls2 j = (demoLists j).drop k) ∧
        (othersFree 0 demoLists ≠ [] →
          (kalloc demoKmem 0).r :: ls2 0 = ((othersFree 0 demoLists).take 64).reverse) ∧
        (othersFree 0 demoLists = [] → (kalloc demoKmem 0).r = 0 ∧ ls2 0 = [])) ∧
      (demoLists 0 ≠ [] → ∀ j, j ≠ 0 → ls2 j = demoLists j) :=
  kalloc_steals_at_most_64 demoKmem demoLists 0 pools_demo (by decide)

/-- C16. In a state whose free lists are `ls`, no frame twice and every frame aligned and in
the managed range, when `kalloc` on core `c` returns a frame, `kfree` of that frame on core
`c` returns and the frames on the free lists, over all cores together, are those before the
`kalloc`, no frame twice; and when the list of core `c` was not empty before the `kalloc`,
the list of every core is the one before the `kalloc`. -/
theorem kfree_after_kalloc_restores (kend PHYSTOP : Nat) (s : Kmem) (ls : Nat → List Nat)
    (c : Nat) (h : Pools s ls) (hc : c < NCPU)
    (hv : ∀ a ∈ allFree ls, a % 4096 = 0 ∧ kend ≤ a ∧ a < PHYSTOP)
    (hr : (kalloc s c).r ≠ 0) :
    ∃ s2 ls2, kfree kend PHYSTOP (kalloc s c).state c (kalloc s c).r = Bio.Ended.ok s2 ∧
      Pools s2 ls2 ∧ (allFree ls2).Perm (allFree ls) ∧
      (∀ a, a ∈ allFree ls2 ↔ a ∈ allFree ls) ∧
      (ls c ≠ [] → ls2 = ls) := by
  obtain ⟨ls1, g1, g2, g3, -⟩ := afterSteal_pools s ls c h hc
  obtain ⟨p1, p2, p3, -⟩ := kalloc_pop s ls1 c g1 hc
  obtain ⟨q1, q2⟩ := p3 hr
  have hmem : (kalloc s c).r ∈ allFree ls :=
    g2.subset (q2.symm.subset (List.mem_cons_self _ _))
  obtain ⟨v1, v2, v3⟩ := hv _ hmem
  have hperm : (allFree (upd (upd ls1 c (ls1 c).tail) c
      ((kalloc s c).r :: upd ls1 c (ls1 c).tail c))).Perm (allFree ls) :=
    ((allFree_push _ c _ hc).trans q2.symm).trans g2
  refine ⟨_, _, kfree_ok kend PHYSTOP _ c _ v1 v2 v3, pools_push _ _ c _ p2 hc hr q1, hperm,
    fun a => hperm.mem_iff, ?_⟩
  intro hne
  obtain ⟨e1, -⟩ := g3 hne
  subst e1
  rw [upd_self, upd_upd_self, p1]
  cases hl : ls1 c with
  | nil => exact absurd hl hne
  | cons a t =>
    have := upd_eq_self ls1 c
    rw [hl] at this
    exact this

theorem kfree_after_kalloc_restores_witness :
    ∃ s2 ls2, kfree 4096 16384 (kalloc demoKmem 0).state 0 (kalloc demoKmem 0).r =
        Bio.Ended.ok s2 ∧
      Pools s2 ls2 ∧ (allFree ls2).Perm (allFree demoLists) ∧
      (∀ a, a ∈ allFree ls2 ↔ a ∈ allFree demoLists) ∧
      (demoLists 0 ≠ [] → ls2 = demoLists) :=
  kfree_after_kalloc_restores 4096 16384 demoKmem demoLists 0 pools_demo (by decide)
    (by decide) (by decide)

/-! ## `kinit` -/

theorem PGROUNDUP_spec (a : Nat) :
    PGROUNDUP a % 4096 = 0 ∧ a ≤ PGROUNDUP a ∧ PGROUNDUP a < a + 4096 := by
  have e : PGROUNDUP a = (a + 4096 - 1) / 4096 * 4096 := rfl
  rw [e]
  omega

theorem mem_frames (m : Nat) : ∀ (p a : Nat), a ∈ frames p m ↔ ∃ k, k < m ∧ a = p + k * 4096 := by
  induction m with
  | zero =>
    intro p a
    simp [frames]
  | succ m ih =>
    intro p a
    simp only [frames, List.mem_append, List.mem_singleton, ih]
    have hP : PGSIZE = 4096 := rfl
    constructor
    · rintro (⟨k, hk, e⟩ | e)
      · exact ⟨k + 1, by omega, by omega⟩
      · exact ⟨0, by omega, by omega⟩
    · rintro ⟨k, hk, e⟩
      cases k with
      | zero => exact Or.inr (by omega)
      | succ k => exact Or.inl ⟨k, by omega, by omega⟩

theorem frames_pairwise (m : Nat) : ∀ p : Nat, (frames p m).Pairwise (fun a b => b < a) := by
  induction m with
  | zero => exact fun _ => List.Pairwise.nil
  | succ m ih =>
    intro p
    simp only [frames]
    rw [List.pairwise_append]
    refine ⟨ih _, List.pairwise_singleton _ _, ?_⟩
    intro a ha b hb
    obtain ⟨k, -, e⟩ := (mem_frames m _ a).1 ha
    have hP : PGSIZE = 4096 := rfl
    rw [List.mem_singleton] at hb
    omega

theorem allFree_single (c : Nat) (hc : c < NCPU) (l : List Nat) (a : Nat) :
    a ∈ allFree (upd (fun _ => []) c l) ↔ a ∈ l := by
  rw [mem_allFree]
  constructor
  · rintro ⟨i, -, hi⟩
    by_cases e : i = c
    · rw [e, upd_self] at hi
      exact hi
    · rw [upd_ne _ _ _ _ e] at hi
      cases hi
  · intro h
    exact ⟨c, hc, by rw [upd_self]; exact h⟩

/-- The loop of `freerange` with `m` frames left below `pa_end`: it ends, and the frames are on
the list of core `c`, the last one freed at its head. -/
theorem freerangeLoop_lists (kend PHYSTOP c pa_end : Nat) (hc : c < NCPU)
    (he : pa_end ≤ PHYSTOP) (m : Nat) :
    ∀ (fuel p : Nat) (s : Kmem) (l : List Nat), m < fuel → (pa_end - p) / 4096 = m →
      p % 4096 = 0 → kend ≤ p → 0 < p → s.Lists (upd (fun _ => []) c l) →
      (∀ a ∈ l, a < p) →
      ∃ s1, freerangeLoop kend PHYSTOP c pa_end fuel p s = some (Bio.Ended.ok s1) ∧
        s1.Lists (upd (fun _ => []) c (frames p m ++ l)) := by
  have hP : PGSIZE = 4096 := rfl
  induction m with
  | zero =>
    intro fuel p s l hf hm _ _ _ hl _
    cases fuel with
    | zero => omega
    | succ f =>
      refine ⟨s, ?_, by simpa [frames] using hl⟩
      simp only [freerangeLoop]
      rw [if_neg (by omega)]
  | succ m ih =>
    intro fuel p s l hf hm h1 h2 h3 hl hlt
    cases fuel with
    | zero => omega
    | succ f =>
      have hpush := push_lists s _ c p hl hc (by omega)
        (fun hmem => absurd (hlt p ((allFree_single c hc l p).1 hmem)) (by omega))
      rw [upd_self, upd_upd_self] at hpush
      obtain ⟨s1, g1, g2⟩ := ih f (p + 4096) _ (p :: l) (by omega) (by omega) (by omega)
        (by omega) (by omega) hpush (by
          intro a ha
          rcases List.mem_cons.1 ha with e | e
          · omega
          · have := hlt a e
            omega)
      refine ⟨s1, ?_, ?_⟩
      · simp only [freerangeLoop]
        rw [if_pos (by omega), kfree_ok kend PHYSTOP s c p h1 h2 (by omega)]
        exact g1
      · have e : frames p (m + 1) ++ l = frames (p + 4096) m ++ p :: l := by
          simp [frames, hP]
        rw [e]
        exact g2

/-- The state after `kinit` on core `c`, from a state whose free lists are all empty. -/
theorem kinit_lists (kend PHYSTOP : Nat) (s : Kmem) (c : Nat) (hk : 0 < kend) (hc : c < NCPU)
    (h0 : ∀ i, i < NCPU → s.freelist i = 0) :
    ∃ s1, kinit kend PHYSTOP s c = some (Bio.Ended.ok s1) ∧
      s1.Lists (upd (fun _ => [])
        c (frames (PGROUNDUP kend) ((PHYSTOP - PGROUNDUP kend) / 4096))) := by
  obtain ⟨r1, r2, -⟩ := PGROUNDUP_spec kend
  have hl : s.Lists (upd (fun _ => []) c []) := by
    intro i hi
    by_cases e : i = c
    · rw [e, upd_self]
      exact h0 c hc
    · rw [upd_ne _ _ _ _ e]
      exact h0 i hi
  obtain ⟨s1, g1, g2⟩ := freerangeLoop_lists kend PHYSTOP c PHYSTOP hc (le_refl _)
    ((PHYSTOP - PGROUNDUP kend) / 4096) (PHYSTOP + 1) (PGROUNDUP kend) s [] (by omega) rfl r1
    r2 (by omega) hl (by simp)
  rw [List.append_nil] at g2
  exact ⟨s1, g1, g2⟩

/-- C19. After `kinit` on core `c`, with `end` above address 0 and all free lists empty at the
start, `kinit` returns and the free list of core `c` holds exactly the frames
`PGROUNDUP(end) + k*4096` for the `k` with `PGROUNDUP(end) + (k+1)*4096 <= PHYSTOP`, each
once, in descending order of address from the head; the free list of every other core is
empty. -/
theorem kinit_fills_one_list (kend PHYSTOP : Nat) (s : Kmem) (c : Nat) (hk : 0 < kend)
    (hc : c < NCPU) (h0 : ∀ i, i < NCPU → s.freelist i = 0) :
    ∃ s1 l, kinit kend PHYSTOP s c = some (Bio.Ended.ok s1) ∧
      IsList s1.next (s1.freelist c) l ∧
      (∀ a, a ∈ l ↔
        ∃ k, a = PGROUNDUP kend + k * 4096 ∧ PGROUNDUP kend + (k + 1) * 4096 ≤ PHYSTOP) ∧
      l.Nodup ∧ l.Pairwise (fun a b => b < a) ∧
      (∀ i, i < NCPU → i ≠ c → s1.freelist i = 0) := by
  obtain ⟨s1, g1, g2⟩ := kinit_lists kend PHYSTOP s c hk hc h0
  have hpw := frames_pairwise ((PHYSTOP - PGROUNDUP kend) / 4096) (PGROUNDUP kend)
  refine ⟨s1, _, g1, ?_, ?_, ?_, hpw, ?_⟩
  · have := g2 c hc
    rw [upd_self] at this
    exact this
  · intro a
    rw [mem_frames]
    constructor
    · rintro ⟨k, hk1, e⟩
      exact ⟨k, e, by omega⟩
    · rintro ⟨k, e, hk1⟩
      exact ⟨k, by omega, e⟩
  · exact hpw.imp (fun h => by omega)
  · intro i hi hic
    have := g2 i hi
    rw [upd_ne _ _ _ _ hic] at this
    exact this

theorem kinit_fills_one_list_witness :
    ∃ s1 l, kinit 4096 20480 kmem0 2 = some (Bio.Ended.ok s1) ∧
      IsList s1.next (s1.freelist 2) l ∧
      (∀ a, a ∈ l ↔
        ∃ k, a = PGROUNDUP 4096 + k * 4096 ∧ PGROUNDUP 4096 + (k + 1) * 4096 ≤ 20480) ∧
      l.Nodup ∧ l.Pairwise (fun a b => b < a) ∧
      (∀ i, i < NCPU → i ≠ 2 → s1.freelist i = 0) :=
  kinit_fills_one_list 4096 20480 kmem0 2 (by decide) (by decide) (fun _ _ => rfl)

theorem allFree_upd_perm (ls : Nat → List Nat) (c : Nat) (hc : c < NCPU) (l : List Nat) :
    (allFree (upd ls c l)).Perm (l ++ allFree (upd ls c [])) := by
  induction l with
  | nil => exact List.Perm.refl _
  | cons a t ih =>
    have := allFree_push (upd ls c t) c a hc
    rw [upd_self, upd_upd_self] at this
    exact this.trans (List.Perm.cons a ih)

/-- The state after `kinit`, with no frame in use. -/
theorem kinit_owned (kend PHYSTOP : Nat) (s s1 : Kmem) (c : Nat) (hk : 0 < kend)
    (hc : c < NCPU) (h0 : ∀ i, i < NCPU → s.freelist i = 0)
    (h : kinit kend PHYSTOP s c = some (Bio.Ended.ok s1)) :
    ∃ ls, Owned kend PHYSTOP (s1, []) ls := by
  obtain ⟨s2, g1, g2⟩ := kinit_lists kend PHYSTOP s c hk hc h0
  rw [h] at g1
  cases g1
  have hperm := allFree_upd_perm (fun _ => []) c hc
    (frames (PGROUNDUP kend) ((PHYSTOP - PGROUNDUP kend) / 4096))
  have he : allFree (upd (fun _ => ([] : List Nat)) c []) = [] := by
    have e : upd (fun _ => ([] : List Nat)) c [] = fun _ => [] := upd_eq_self _ c
    rw [e]
    simp [allFree]
  rw [he, List.append_nil] at hperm
  have hpw := frames_pairwise ((PHYSTOP - PGROUNDUP kend) / 4096) (PGROUNDUP kend)
  obtain ⟨r1, r2, -⟩ := PGROUNDUP_spec kend
  refine ⟨_, g2, ?_, ?_⟩
  · rw [List.append_nil, hperm.nodup_iff]
    exact hpw.imp (fun h => by omega)
  · intro a ha
    rw [List.append_nil] at ha
    obtain ⟨k, hk1, e⟩ := (mem_frames _ _ a).1 (hperm.subset ha)
    refine ⟨?_, by omega, by omega⟩
    show a % 4096 = 0
    omega

/-- A call of the allocator neither loses nor doubles a frame. -/
theorem kstep_owned (kend PHYSTOP : Nat) (hk : 0 < kend) (x y : Kmem × List Nat)
    (ls : Nat → List Nat) (op : KOp) (h : Owned kend PHYSTOP x ls)
    (hs : kstep kend PHYSTOP x op = some y) :
    ∃ ls2, y.1.Lists ls2 ∧ (allFree ls2 ++ y.2).Perm (allFree ls ++ x.2) := by
  obtain ⟨h1, h2, h3⟩ := h
  have hpool : Pools x.1 ls := ⟨h1, (List.nodup_append.1 h2).1⟩
  cases op with
  | kalloc c =>
    simp only [kstep] at hs
    by_cases hc : c < NCPU
    · rw [if_pos hc] at hs
      cases hs
      obtain ⟨ls1, g1, g2, -, -⟩ := afterSteal_pools x.1 ls c hpool hc
      obtain ⟨p1, p2, p3, p4⟩ := kalloc_pop x.1 ls1 c g1 hc
      refine ⟨_, p2.1, ?_⟩
      by_cases hr : (kalloc x.1 c).r = 0
      · have e : upd ls1 c (ls1 c).tail = ls1 := by
          have := upd_eq_self ls1 c
          rw [p4 hr] at this ⊢
          exact this
        simp only [hr, if_true]
        rw [e]
        exact g2.append_right _
      · simp only [hr, if_false]
        exact List.perm_middle.trans (((p3 hr).2.symm.trans g2).append_right _)
    · rw [if_neg hc] at hs
      cases hs
  | kfree c pa =>
    simp only [kstep] at hs
    by_cases hc : c < NCPU ∧ pa ∈ x.2
    · rw [if_pos hc] at hs
      obtain ⟨v1, v2, v3⟩ := h3 pa (List.mem_append_right _ hc.2)
      rw [kfree_ok kend PHYSTOP x.1 c pa v1 v2 v3] at hs
      cases hs
      have hnot : pa ∉ allFree ls := fun hm => (List.nodup_append.1 h2).2.2 hm hc.2
      refine ⟨_, push_lists x.1 ls c pa h1 hc.1 (by omega) hnot, ?_⟩
      have q1 := (allFree_push ls c pa hc.1).append_right (x.2.erase pa)
      have q2 : (pa :: allFree ls ++ x.2.erase pa).Perm (allFree ls ++ pa :: x.2.erase pa) :=
        List.perm_middle.symm
      exact (q1.trans q2).trans ((List.perm_cons_erase hc.2).symm.append_left _)
    · rw [if_neg hc] at hs
      cases hs

theorem owned_of_perm (kend PHYSTOP : Nat) (x y : Kmem × List Nat) (ls ls2 : Nat → List Nat)
    (h : Owned kend PHYSTOP x ls) (hl : y.1.Lists ls2)
    (hp : (allFree ls2 ++ y.2).Perm (allFree ls ++ x.2)) : Owned kend PHYSTOP y ls2 :=
  ⟨hl, hp.nodup_iff.2 h.2.1, fun a ha => h.2.2 a (hp.subset ha)⟩

/-- A sequence of calls of the allocator neither loses nor doubles a frame. -/
theorem krun_owned (kend PHYSTOP : Nat) (hk : 0 < kend) (ops : List KOp) :
    ∀ (x y : Kmem × List Nat) (ls : Nat → List Nat), Owned kend PHYSTOP x ls →
      krun kend PHYSTOP x ops = some y →
      ∃ ls2, Owned kend PHYSTOP y ls2 ∧ (allFree ls2 ++ y.2).Perm (allFree ls ++ x.2) := by
  induction ops with
  | nil =>
    intro x y ls h hr
    cases hr
    exact ⟨ls, h, List.Perm.refl _⟩
  | cons op ops ih =>
    intro x y ls h hr
    simp only [krun] at hr
    cases hs : kstep kend PHYSTOP x op with
    | none =>
      rw [hs] at hr
      cases hr
    | some z =>
      rw [hs] at hr
      obtain ⟨ls1, g1, g2⟩ := kstep_owned kend PHYSTOP hk x z ls op h hs
      obtain ⟨ls2, q1, q2⟩ := ih z y ls1 (owned_of_perm kend PHYSTOP x z ls ls1 h g1 g2) hr
      exact ⟨ls2, q1, q2.trans g2⟩

/-! ## Claims on sequences of calls and on the locks of `kalloc` -/

/-- C13. From the state after `kinit` (`end` above address 0, all free lists empty before it),
after every sequence of `kalloc` and `kfree` calls on cores below `NCPU` in which `kfree` is
applied only to a frame returned by `kalloc` and not freed since: no frame is twice on the
free lists, no frame in use is twice in use or on a free list, `kfree` of a frame in use does
not panic, and a frame returned by a further `kalloc` is not in use and is on no free list
after that call. -/
theorem kalloc_kfree_keep_frames_apart (kend PHYSTOP : Nat) (s0 s1 : Kmem) (c0 : Nat)
    (ops : List KOp) (y : Kmem × List Nat) (hk : 0 < kend) (hc0 : c0 < NCPU)
    (h0 : ∀ i, i < NCPU → s0.freelist i = 0)
    (hinit : kinit kend PHYSTOP s0 c0 = some (Bio.Ended.ok s1))
    (hrun : krun kend PHYSTOP (s1, []) ops = some y) :
    ∃ ls, y.1.Lists ls ∧ (allFree ls).Nodup ∧ y.2.Nodup ∧ (∀ a ∈ y.2, a ∉ allFree ls) ∧
      (∀ c pa, c < NCPU → pa ∈ y.2 → ∃ t, kfree kend PHYSTOP y.1 c pa = Bio.Ended.ok t) ∧
      ∀ c, c < NCPU → (kalloc y.1 c).r ≠ 0 →
        (kalloc y.1 c).r ∉ y.2 ∧
        ∃ ls2, (kalloc y.1 c).state.Lists ls2 ∧ (allFree ls2).Nodup ∧
          (kalloc y.1 c).r ∉ allFree ls2 := by
  obtain ⟨ls0, g0⟩ := kinit_owned kend PHYSTOP s0 s1 c0 hk hc0 h0 hinit
  obtain ⟨ls, ⟨g1, g2, g3⟩, -⟩ := krun_owned kend PHYSTOP hk ops (s1, []) y ls0 g0 hrun
  obtain ⟨n1, n2, n3⟩ := List.nodup_append.1 g2
  refine ⟨ls, g1, n1, n2, fun a ha hm => n3 hm ha, ?_, ?_⟩
  · intro c pa _ hpa
    obtain ⟨v1, v2, v3⟩ := g3 pa (List.mem_append_right _ hpa)
    exact ⟨_, kfree_ok kend PHYSTOP y.1 c pa v1 v2 v3⟩
  · intro c hc hr
    obtain ⟨ls1, q1, q2, -, -⟩ := afterSteal_pools y.1 ls c ⟨g1, n1⟩ hc
    obtain ⟨-, p2, p3, -⟩ := kalloc_pop y.1 ls1 c q1 hc
    obtain ⟨r1, r2⟩ := p3 hr
    have hmem : (kalloc y.1 c).r ∈ allFree ls :=
      q2.subset (r2.symm.subset (List.mem_cons_self _ _))
    exact ⟨fun hm => n3 hmem hm, _, p2.1, p2.2, r1⟩

theorem kalloc_kfree_keep_frames_apart_witness :
    ∃ ls, bootRun.1.Lists ls ∧ (allFree ls).Nodup ∧ bootRun.2.Nodup ∧
      (∀ a ∈ bootRun.2, a ∉ allFree ls) ∧
      (∀ c pa, c < NCPU → pa ∈ bootRun.2 →
        ∃ t, kfree 4096 20480 bootRun.1 c pa = Bio.Ended.ok t) ∧
      ∀ c, c < NCPU → (kalloc bootRun.1 c).r ≠ 0 →
        (kalloc bootRun.1 c).r ∉ bootRun.2 ∧
        ∃ ls2, (kalloc bootRun.1 c).state.Lists ls2 ∧ (allFree ls2).Nodup ∧
          (kalloc bootRun.1 c).r ∉ allFree ls2 :=
  kalloc_kfree_keep_frames_apart 4096 20480 kmem0 bootKmem 2 bootOps bootRun (by decide)
    (by decide) (fun _ _ => rfl) rfl rfl

theorem heldAfter_append (a : List LockEv) : ∀ (h : List Nat) (b : List LockEv),
    heldAfter h (a ++ b) = heldAfter (heldAfter h a) b := by
  induction a with
  | nil => exact fun _ _ => rfl
  | cons e es ih =>
    intro h b
    cases e with
    | acquire i => exact ih _ b
    | release i => exact ih _ b

/-- The locks taken by the loop over the cores: each core visited has its lock acquired and
then released before the next one. -/
theorem stealLoop_locks (c : Nat) (cores : List Nat) :
    ∀ (n : Nat) (s : Kmem), ∃ js : List Nat, (∀ j ∈ js, j ≠ c ∧ j ∈ cores) ∧
      (stealLoop c cores n s).2 = js.flatMap (fun j => [LockEv.acquire j, LockEv.release j]) := by
  induction cores with
  | nil => exact fun _ _ => ⟨[], by simp, rfl⟩
  | cons i is ih =>
    intro n s
    by_cases hic : i = c
    · obtain ⟨js, h1, h2⟩ := ih n s
      refine ⟨js, fun j hj => ⟨(h1 j hj).1, List.mem_cons_of_mem _ (h1 j hj).2⟩, ?_⟩
      simp only [stealLoop, hic, if_true]
      exact h2
    · by_cases hz : (stealFrom c i n s).2 = 0
      · refine ⟨[i], fun j hj => by
          rw [List.mem_singleton.1 hj]
          exact ⟨hic, List.mem_cons_self _ _⟩, ?_⟩
        simp only [stealLoop, hic, if_false, hz, if_true]
        rfl
      · obtain ⟨js, h1, h2⟩ := ih (stealFrom c i n s).2 (stealFrom c i n s).1
        refine ⟨i :: js, ?_, ?_⟩
        · intro j hj
          rcases List.mem_cons.1 hj with e | e
          · rw [e]
            exact ⟨hic, List.mem_cons_self _ _⟩
          · exact ⟨(h1 j e).1, List.mem_cons_of_mem _ (h1 j e).2⟩
        · simp only [stealLoop, hic, if_false, hz, h2]
          rfl

theorem heldAfter_pairs (js : List Nat) : ∀ (h : List Nat) (k : Nat),
    heldAfter h ((js.flatMap (fun j => [LockEv.acquire j, LockEv.release j])).take k) = h ∨
    ∃ j, j ∈ js ∧
      heldAfter h ((js.flatMap (fun j => [LockEv.acquire j, LockEv.release j])).take k) =
        j :: h := by
  induction js with
  | nil =>
    intro h k
    left
    simp [heldAfter]
  | cons i is ih =>
    intro h k
    cases k with
    | zero => exact Or.inl rfl
    | succ k =>
      cases k with
      | zero => exact Or.inr ⟨i, List.mem_cons_self _ _, rfl⟩
      | succ k =>
        have e : heldAfter h (((i :: is).flatMap
            (fun j => [LockEv.acquire j, LockEv.release j])).take (k + 1 + 1)) =
            heldAfter h ((is.flatMap
              (fun j => [LockEv.acquire j, LockEv.release j])).take k) := by
          show heldAfter ((i :: h).erase i) ((is.flatMap
              (fun j => [LockEv.acquire j, LockEv.release j])).take k) = _
          rw [List.erase_cons_head]
        rw [e]
        rcases ih h k with g | ⟨j, hj, g⟩
        · exact Or.inl g
        · exact Or.inr ⟨j, List.mem_cons_of_mem _ hj, g⟩

theorem heldAfter_pairs_all (js : List Nat) (h : List Nat) :
    heldAfter h (js.flatMap (fun j => [LockEv.acquire j, LockEv.release j])) = h := by
  induction js with
  | nil => rfl
  | cons i is ih =>
    simp only [List.flatMap_cons, List.cons_append, List.nil_append, heldAfter,
      List.erase_cons_head]
    exact ih

/-- The locks taken by `kalloc`. -/
theorem kalloc_locks (s : Kmem) (c : Nat) :
    ∃ js : List Nat, (∀ j ∈ js, j ≠ c ∧ j < NCPU) ∧
      (kalloc s c).locks = LockEv.acquire c ::
        (js.flatMap (fun j => [LockEv.acquire j, LockEv.release j]) ++ [LockEv.release c]) := by
  have hl : (kalloc s c).locks =
      LockEv.acquire c :: ((afterSteal s c).2 ++ [LockEv.release c]) := rfl
  rw [hl]
  unfold afterSteal
  by_cases h : s.freelist c = 0
  · rw [if_pos h]
    obtain ⟨js, h1, h2⟩ := stealLoop_locks c (List.range NCPU) STEAL s
    exact ⟨js, fun j hj => ⟨(h1 j hj).1, List.mem_range.1 (h1 j hj).2⟩, by rw [h2]⟩
  · rw [if_neg h]
    exact ⟨[], by simp, rfl⟩

/-- The lock of the first core visited by the loop over the cores is the first one taken. -/
theorem stealLoop_locks_head (c i : Nat) (cores : List Nat) (n : Nat) (s : Kmem) (hic : i ≠ c) :
    ∃ tr, (stealLoop c (i :: cores) n s).2 = LockEv.acquire i :: LockEv.release i :: tr := by
  by_cases hz : (stealFrom c i n s).2 = 0
  · exact ⟨[], by simp only [stealLoop, hic, if_false, hz, if_true]⟩
  · refine ⟨(stealLoop c cores (stealFrom c i n s).2 (stealFrom c i n s).1).2, ?_⟩
    simp only [stealLoop, hic, if_false, hz]

/-- The pool locks held during `kalloc` on core `c`. After every number `k` of its `acquire`
and `release` calls they are none, or the lock of core `c` alone, or the lock of core `c` and
the lock of one other core: at no point is more than one other core's lock held, and every
lock of another core is held together with the lock of core `c`. No lock is held at the end,
and when the list of core `c` is empty at the call the lock of another core is taken right
after the lock of core `c`. -/
theorem kalloc_locks_nested (s : Kmem) (c k : Nat) :
    (heldAfter [] ((kalloc s c).locks.take k) = [] ∨
      heldAfter [] ((kalloc s c).locks.take k) = [c] ∨
      ∃ i, i ≠ c ∧ i < NCPU ∧ heldAfter [] ((kalloc s c).locks.take k) = [i, c]) ∧
    heldAfter [] (kalloc s c).locks = [] ∧
    (s.freelist c = 0 →
      ∃ i, i ≠ c ∧ i < NCPU ∧ heldAfter [] ((kalloc s c).locks.take 2) = [i, c]) := by
  obtain ⟨js, h1, h2⟩ := kalloc_locks s c
  refine ⟨?_, ?_, ?_⟩
  · cases k with
    | zero => exact Or.inl rfl
    | succ k =>
      have e : heldAfter [] ((kalloc s c).locks.take (k + 1)) =
          heldAfter [c] ((js.flatMap (fun j => [LockEv.acquire j, LockEv.release j]) ++
            [LockEv.release c]).take k) := by
        rw [h2]
        rfl
      rw [e]
      by_cases hk : k ≤ (js.flatMap (fun j => [LockEv.acquire j, LockEv.release j])).length
      · rw [List.take_append_of_le_length hk]
        rcases heldAfter_pairs js [c] k with g | ⟨j, hj, g⟩
        · exact Or.inr (Or.inl g)
        · exact Or.inr (Or.inr ⟨j, (h1 j hj).1, (h1 j hj).2, g⟩)
      · rw [List.take_of_length_le (by simp only [List.length_append, List.length_singleton]; omega),
          heldAfter_append, heldAfter_pairs_all]
        left
        simp [heldAfter]
  · rw [h2]
    show heldAfter [c] (js.flatMap (fun j => [LockEv.acquire j, LockEv.release j]) ++
      [LockEv.release c]) = []
    rw [heldAfter_append, heldAfter_pairs_all]
    simp [heldAfter]
  · intro h0
    have hl : (kalloc s c).locks =
        LockEv.acquire c :: ((stealLoop c (List.range NCPU) STEAL s).2 ++
          [LockEv.release c]) := by
      show LockEv.acquire c :: ((afterSteal s c).2 ++ [LockEv.release c]) = _
      unfold afterSteal
      rw [if_pos h0]
    have hrange : List.range NCPU = 0 :: 1 :: [2, 3, 4, 5, 6, 7] := by decide
    rw [hl, hrange]
    by_cases hc : c = 0
    · have hs : stealLoop c (0 :: 1 :: [2, 3, 4, 5, 6, 7]) STEAL s =
          stealLoop c (1 :: [2, 3, 4, 5, 6, 7]) STEAL s := by
        simp only [stealLoop, hc, if_true]
      obtain ⟨tr, ht⟩ := stealLoop_locks_head c 1 [2, 3, 4, 5, 6, 7] STEAL s (by omega)
      rw [hs, ht]
      exact ⟨1, by omega, by decide, rfl⟩
    · obtain ⟨tr, ht⟩ := stealLoop_locks_head c 0 (1 :: [2, 3, 4, 5, 6, 7]) STEAL s
        (fun e => hc e.symm)
      rw [ht]
      exact ⟨0, fun e => hc e.symm, by decide, rfl⟩

/-- C20. The code with all free lists empty. `kalloc` on core 0 acquires the lock of core 0
and then the lock of core 1: both are held after its second `acquire`, where the claim has no
lock of another core held together with the lock of the calling core. `kalloc` on core 1 holds
the lock of core 1 and, after four lock calls, the lock of core 2 with it; `kalloc` on core 2
holds the lock of core 2 and, after four lock calls, the lock of core 1 with it: the two cores
take these two locks in opposite orders. -/
theorem kalloc_holds_remote_lock_under_local :
    (kalloc kmem0 0).locks.take 2 = [LockEv.acquire 0, LockEv.acquire 1] ∧
    heldAfter [] ((kalloc kmem0 0).locks.take 2) = [1, 0] ∧
    (kalloc kmem0 1).locks.take 4 =
      [LockEv.acquire 1, LockEv.acquire 0, LockEv.release 0, LockEv.acquire 2] ∧
    heldAfter [] ((kalloc kmem0 1).locks.take 4) = [2, 1] ∧
    (kalloc kmem0 2).locks.take 4 =
      [LockEv.acquire 2, LockEv.acquire 0, LockEv.release 0, LockEv.acquire 1] ∧
    heldAfter [] ((kalloc kmem0 2).locks.take 4) = [1, 2] := by
  decide

end Kalloc

namespace Bio

/-! ## The locks of the eviction scan -/

theorem locksHeld_append (a : List Ev) : ∀ (h : List Lock) (b : List Ev),
    locksHeld h (a ++ b) = locksHeld (locksHeld h a) b := by
  induction a with
  | nil => exact fun _ _ => rfl
  | cons e es ih =>
    intro h b
    cases e with
    | acquire l => exact ih _ b
    | release l => exact ih _ b
    | walk k => exact ih _ b
    | incref k => exact ih _ b

theorem erase_second {α : Type} [DecidableEq α] (a b : α) (l : List α) :
    (a :: b :: l).erase b = a :: l := by
  by_cases h : a = b
  · subst h
    exact List.erase_cons_head _ _
  · rw [List.erase_cons_tail (by simpa using h), List.erase_cons_head]

/-- The candidate kept by the inner loop with the flag is the one of `scanChain`. -/
theorem scanChainFound_fst (s : Bcache) (i : Nat) (l : List Nat) :
    ∀ (j : Nat) (best : Option Cand) (found : Bool),
      (scanChainFound s i l j best found).1 = scanChain s i l j best := by
  induction l with
  | nil => exact fun _ _ _ => rfl
  | cons b rest ih =>
    intro j best found
    simp only [scanChainFound, scanChain]
    split
    · exact ih _ _ _
    · exact ih _ _ _

/-- With `newfound` not set at the end of the inner loop, `before_least` is the one at its
start. -/
theorem scanChainFound_not_found (s : Bcache) (i : Nat) (l : List Nat) :
    ∀ (j : Nat) (best : Option Cand) (found : Bool),
      (scanChainFound s i l j best found).2 = false →
      (scanChainFound s i l j best found).1 = best ∧ found = false := by
  induction l with
  | nil => exact fun _ _ _ h => ⟨rfl, h⟩
  | cons b rest ih =>
    intro j best found h
    simp only [scanChainFound] at h ⊢
    split at h
    · exact absurd (ih _ _ _ h).2 (by simp)
    · rename_i hc
      rw [if_neg hc]
      exact ih _ _ _ h

/-- With `newfound` set at the end of the inner loop, `before_least` is in bucket `i`. -/
theorem scanChainFound_found (s : Bcache) (i : Nat) (l : List Nat) :
    ∀ (j : Nat) (best : Option Cand) (found : Bool),
      (found = true → ∃ c, best = some c ∧ c.bucket = i) →
      (scanChainFound s i l j best found).2 = true →
      ∃ c, (scanChainFound s i l j best found).1 = some c ∧ c.bucket = i := by
  induction l with
  | nil => exact fun _ _ _ h hf => h hf
  | cons b rest ih =>
    intro j best found h hf
    simp only [scanChainFound] at hf ⊢
    split
    · rename_i hc
      rw [if_pos hc] at hf
      exact ih _ _ _ (fun _ => ⟨_, rfl, rfl⟩) hf
    · rename_i hc
      rw [if_neg hc] at hf
      exact ih _ _ _ h hf

/-- The candidate kept by the outer loop with the locks is the one of `scanBuckets`. -/
theorem scanLocks_fst (s : Bcache) (is : List Nat) :
    ∀ (best : Option Cand) (holding : Nat),
      (scanLocks s is best holding).1 = scanBuckets s is best := by
  induction is with
  | nil => exact fun _ _ => rfl
  | cons i is ih =>
    intro best holding
    simp only [scanLocks, scanBuckets]
    split
    · rw [ih, scanChainFound_fst]
    · rw [ih, scanChainFound_fst]

theorem scanAll_fst (s : Bcache) : (scanAll s).1 = findVictim s :=
  scanLocks_fst s _ _ _

/-- At the end of the outer loop `holding_bucket` is the bucket of `before_least`, and `-1`
when there is no candidate. -/
theorem scanLocks_holding (s : Bcache) (is : List Nat) (his : ∀ i ∈ is, i < NBUFMAP_BUCKET) :
    ∀ (best : Option Cand) (holding : Nat),
      (best = none → holding = UINT - 1) →
      (∀ c, best = some c → holding = c.bucket ∧ c.bucket < NBUFMAP_BUCKET) →
      ((scanLocks s is best holding).1 = none → (scanLocks s is best holding).2.1 = UINT - 1) ∧
      (∀ c, (scanLocks s is best holding).1 = some c →
        (scanLocks s is best holding).2.1 = c.bucket ∧ c.bucket < NBUFMAP_BUCKET) := by
  induction is with
  | nil => exact fun _ _ h1 h2 => ⟨h1, h2⟩
  | cons i is ih =>
    intro best holding h1 h2
    have his2 : ∀ k ∈ is, k < NBUFMAP_BUCKET := fun k hk => his k (List.mem_cons_of_mem _ hk)
    simp only [scanLocks]
    by_cases hf : (scanChainFound s i (s.chain i) 0 best false).2 = true
    · obtain ⟨c, hc1, hc2⟩ := scanChainFound_found s i (s.chain i) 0 best false (by simp) hf
      simp only [hf, Bool.not_true, Bool.false_eq_true, if_false]
      refine ih his2 _ _ ?_ ?_
      · intro e
        rw [hc1] at e
        cases e
      · intro d hd
        rw [hc1] at hd
        cases hd
        exact ⟨hc2.symm, hc2 ▸ his i (List.mem_cons_self _ _)⟩
    · have hf2 : (scanChainFound s i (s.chain i) 0 best false).2 = false := by
        simpa using hf
      obtain ⟨e1, -⟩ := scanChainFound_not_found s i (s.chain i) 0 best false hf2
      simp only [hf2, Bool.not_false, if_true]
      rw [e1]
      exact ih his2 _ _ h1 h2

theorem scanAll_holding (s : Bcache) :
    ((scanAll s).1 = none → (scanAll s).2.1 = UINT - 1) ∧
    (∀ c, (scanAll s).1 = some c →
      (scanAll s).2.1 = c.bucket ∧ c.bucket < NBUFMAP_BUCKET) :=
  scanLocks_holding s _ (fun i hi => List.mem_range.1 hi) none (UINT - 1) (fun _ => rfl)
    (fun c hc => by cases hc)

theorem heldBuckets_of_lt (i : Nat) (hi : i < NBUFMAP_BUCKET) : heldBuckets i = [i] := by
  have h13 : NBUFMAP_BUCKET = 13 := rfl
  have hU := UINT_eq
  unfold heldBuckets
  rw [if_pos (by omega)]

theorem heldBuckets_length (h : Nat) : (heldBuckets h).length ≤ 1 := by
  unfold heldBuckets
  split <;> simp

/-- The locks held at the end of the outer loop: the locks held at its start, with the lock of
`holding_bucket` replaced by the lock of the new `holding_bucket`. -/
theorem scanLocks_held (s : Bcache) (base : List Lock) (is : List Nat)
    (his : ∀ i ∈ is, i < NBUFMAP_BUCKET) :
    ∀ (best : Option Cand) (holding : Nat),
      locksHeld ((heldBuckets holding).map Lock.bucket ++ base) (scanLocks s is best holding).2.2 =
        (heldBuckets (scanLocks s is best holding).2.1).map Lock.bucket ++ base := by
  induction is with
  | nil => exact fun _ _ => rfl
  | cons i is ih =>
    intro best holding
    have his2 : ∀ k ∈ is, k < NBUFMAP_BUCKET := fun k hk => his k (List.mem_cons_of_mem _ hk)
    have hi := heldBuckets_of_lt i (his i (List.mem_cons_self _ _))
    simp only [scanLocks]
    by_cases hf : (scanChainFound s i (s.chain i) 0 best false).2 = true
    · simp only [hf, Bool.not_true, Bool.false_eq_true, if_false]
      rw [← ih his2 (scanChainFound s i (s.chain i) 0 best false).1 i, hi]
      by_cases hh : holding ≠ UINT - 1
      · have e : heldBuckets holding = [holding] := by
          unfold heldBuckets
          rw [if_pos hh]
        rw [if_pos hh, e]
        show locksHeld ((Lock.bucket i :: Lock.bucket holding :: base).erase
          (Lock.bucket holding)) _ = _
        rw [erase_second]
        rfl
      · have e : heldBuckets holding = [] := by
          unfold heldBuckets
          rw [if_neg hh]
        rw [if_neg hh, e]
        rfl
    · have hf2 : (scanChainFound s i (s.chain i) 0 best false).2 = false := by
        simpa using hf
      simp only [hf2, Bool.not_false, if_true]
      rw [← ih his2 (scanChainFound s i (s.chain i) 0 best false).1 holding]
      show locksHeld ((Lock.bucket i :: ((heldBuckets holding).map Lock.bucket ++ base)).erase
        (Lock.bucket i)) _ = _
      rw [List.erase_cons_head]

/-- The locks held after any number of steps of the outer loop: at most two bucket locks on top
of the locks held at its start. -/
theorem scanLocks_held_take (s : Bcache) (base : List Lock) (is : List Nat)
    (his : ∀ i ∈ is, i < NBUFMAP_BUCKET) :
    ∀ (best : Option Cand) (holding k : Nat),
      ∃ cur : List Nat, cur.length ≤ 2 ∧
        locksHeld ((heldBuckets holding).map Lock.bucket ++ base)
          ((scanLocks s is best holding).2.2.take k) = cur.map Lock.bucket ++ base := by
  induction is with
  | nil =>
    intro best holding k
    refine ⟨heldBuckets holding, ?_, ?_⟩
    · have := heldBuckets_length holding
      omega
    · simp [scanLocks, locksHeld]
  | cons i is ih =>
    intro best holding k
    have his2 : ∀ k ∈ is, k < NBUFMAP_BUCKET := fun k hk => his k (List.mem_cons_of_mem _ hk)
    have hi := heldBuckets_of_lt i (his i (List.mem_cons_self _ _))
    have hlen := heldBuckets_length holding
    cases k with
    | zero => exact ⟨heldBuckets holding, by omega, by simp [locksHeld]⟩
    | succ k =>
      simp only [scanLocks]
      by_cases hf : (scanChainFound s i (s.chain i) 0 best false).2 = true
      · simp only [hf, Bool.not_true, Bool.false_eq_true, if_false]
        by_cases hh : holding ≠ UINT - 1
        · have e : heldBuckets holding = [holding] := by
            unfold heldBuckets
            rw [if_pos hh]
          rw [if_pos hh, e]
          cases k with
          | zero => exact ⟨[i, holding], by simp, rfl⟩
          | succ k =>
            obtain ⟨cur, h1, h2⟩ := ih his2 (scanChainFound s i (s.chain i) 0 best false).1 i k
            refine ⟨cur, h1, ?_⟩
            rw [← h2, hi]
            show locksHeld ((Lock.bucket i :: Lock.bucket holding :: base).erase
              (Lock.bucket holding)) _ = _
            rw [erase_second]
            rfl
        · have e : heldBuckets holding = [] := by
            unfold heldBuckets
            rw [if_neg hh]
          rw [if_neg hh, e]
          obtain ⟨cur, h1, h2⟩ := ih his2 (scanChainFound s i (s.chain i) 0 best false).1 i k
          refine ⟨cur, h1, ?_⟩
          rw [← h2, hi]
          rfl
      · have hf2 : (scanChainFound s i (s.chain i) 0 best false).2 = false := by
          simpa using hf
        simp only [hf2, Bool.not_false, if_true]
        cases k with
        | zero =>
          refine ⟨i :: heldBuckets holding, by simp only [List.length_cons]; omega, rfl⟩
        | succ k =>
          obtain ⟨cur, h1, h2⟩ :=
            ih his2 (scanChainFound s i (s.chain i) 0 best false).1 holding k
          refine ⟨cur, h1, ?_⟩
          rw [← h2]
          show locksHeld ((Lock.bucket i ::
            ((heldBuckets holding).map Lock.bucket ++ base)).erase (Lock.bucket i)) _ = _
          rw [List.erase_cons_head]

theorem heldBuckets_none : heldBuckets (UINT - 1) = [] := by
  unfold heldBuckets
  rw [if_neg (by simp)]

/-- The steps of a `bget` that misses: the steps before the eviction scan, the scan, and the
steps after it. -/
theorem bgetTraced_miss (s : Bcache) (pid dev blockno : Nat)
    (h : lookup s (BUFMAP_HASH dev blockno) dev blockno = none) :
    ∃ post, (bgetTraced s pid dev blockno).2 =
      [Ev.acquire (Lock.bucket (BUFMAP_HASH dev blockno)), Ev.walk (BUFMAP_HASH dev blockno),
        Ev.release (Lock.bucket (BUFMAP_HASH dev blockno)), Ev.acquire Lock.eviction,
        Ev.walk (BUFMAP_HASH dev blockno)] ++ (scanAll s).2.2 ++ post := by
  unfold bgetTraced bgetSlow
  rw [h]
  cases (scanAll s).1 with
  | none => exact ⟨[], by simp⟩
  | some c => exact ⟨_, by simp only [List.append_assoc, List.cons_append, List.nil_append]; rfl⟩

set_option maxRecDepth 100000 in
/-- C21, as stated, fails. After `binit` all slots are in bucket 0. A `bget(0, 1)`, whose target
bucket is 1, misses; its scan keeps the lock of bucket 0, where it found its candidate, and
holds it together with the lock of bucket 2 when it scans bucket 2. -/
theorem scan_holds_two_other_bucket_locks :
    BUFMAP_HASH 0 1 = 1 ∧ lookup (binit bcache0) 1 0 1 = none ∧
    (bgetTraced (binit bcache0) 1 0 1).2.take 9 =
      [Ev.acquire (Lock.bucket 1), Ev.walk 1, Ev.release (Lock.bucket 1),
        Ev.acquire Lock.eviction, Ev.walk 1, Ev.acquire (Lock.bucket 0),
        Ev.acquire (Lock.bucket 1), Ev.release (Lock.bucket 1), Ev.acquire (Lock.bucket 2)] ∧
    locksHeld [] ((bgetTraced (binit bcache0) 1 0 1).2.take 9) =
      [Lock.bucket 2, Lock.bucket 0, Lock.eviction] := by
  decide

/-- C21, as amended. In a `bget` that misses, the eviction scan starts with the eviction lock
held and no bucket lock; after any number of its steps at most two bucket locks are held; when
the scan ends with a candidate the only bucket lock held is the lock of the bucket in whose
chain the candidate is linked, and with no candidate no bucket lock is held. -/
theorem scan_holds_at_most_two_bucket_locks (s : Bcache) (pid dev blockno : Nat)
    (h : lookup s (BUFMAP_HASH dev blockno) dev blockno = none) :
    ∃ pre post, (bgetTraced s pid dev blockno).2 = pre ++ (scanAll s).2.2 ++ post ∧
      locksHeld [] pre = [Lock.eviction] ∧
      (∀ k, ∃ cur : List Nat, cur.length ≤ 2 ∧
        locksHeld [] (pre ++ (scanAll s).2.2.take k) = cur.map Lock.bucket ++ [Lock.eviction]) ∧
      (∀ c, findVictim s = some c →
        locksHeld [] (pre ++ (scanAll s).2.2) = [Lock.bucket c.bucket, Lock.eviction] ∧
        (s.chain c.bucket)[c.pos]? = some c.slot) ∧
      (findVictim s = none → locksHeld [] (pre ++ (scanAll s).2.2) = [Lock.eviction]) := by
  obtain ⟨post, hp⟩ := bgetTraced_miss s pid dev blockno h
  have hpre : locksHeld []
      [Ev.acquire (Lock.bucket (BUFMAP_HASH dev blockno)), Ev.walk (BUFMAP_HASH dev blockno),
        Ev.release (Lock.bucket (BUFMAP_HASH dev blockno)), Ev.acquire Lock.eviction,
        Ev.walk (BUFMAP_HASH dev blockno)] = [Lock.eviction] := by
    simp [locksHeld]
  have hrange : ∀ i ∈ List.range NBUFMAP_BUCKET, i < NBUFMAP_BUCKET :=
    fun i hi => List.mem_range.1 hi
  have hall := scanLocks_held s [Lock.eviction] (List.range NBUFMAP_BUCKET) hrange none
    (UINT - 1)
  rw [heldBuckets_none] at hall
  refine ⟨_, post, hp, hpre, ?_, ?_, ?_⟩
  · intro k
    obtain ⟨cur, h1, h2⟩ := scanLocks_held_take s [Lock.eviction] (List.range NBUFMAP_BUCKET)
      hrange none (UINT - 1) k
    rw [heldBuckets_none] at h2
    exact ⟨cur, h1, by rw [locksHeld_append, hpre]; exact h2⟩
  · intro c hc
    rw [← scanAll_fst] at hc
    obtain ⟨e1, e2⟩ := (scanAll_holding s).2 c hc
    refine ⟨?_, (findVictim_linked s c (by rw [← scanAll_fst]; exact hc)).2⟩
    rw [locksHeld_append, hpre]
    have := hall
    rw [show scanLocks s (List.range NBUFMAP_BUCKET) none (UINT - 1) = scanAll s from rfl, e1,
      heldBuckets_of_lt _ e2] at this
    exact this
  · intro hn
    rw [← scanAll_fst] at hn
    have e1 := (scanAll_holding s).1 hn
    rw [locksHeld_append, hpre]
    have := hall
    rw [show scanLocks s (List.range NBUFMAP_BUCKET) none (UINT - 1) = scanAll s from rfl, e1,
      heldBuckets_none] at this
    exact this

set_option maxRecDepth 100000 in
theorem scan_holds_at_most_two_bucket_locks_witness :
    ∃ pre post, (bgetTraced (binit bcache0) 1 0 1).2 =
        pre ++ (scanAll (binit bcache0)).2.2 ++ post ∧
      locksHeld [] pre = [Lock.eviction] ∧
      (∀ k, ∃ cur : List Nat, cur.length ≤ 2 ∧
        locksHeld [] (pre ++ (scanAll (binit bcache0)).2.2.take k) =
          cur.map Lock.bucket ++ [Lock.eviction]) ∧
      (∀ c, findVictim (binit bcache0) = some c →
        locksHeld [] (pre ++ (scanAll (binit bcache0)).2.2) =
          [Lock.bucket c.bucket, Lock.eviction] ∧
        ((binit bcache0).chain c.bucket)[c.pos]? = some c.slot) ∧
      (findVictim (binit bcache0) = none →
        locksHeld [] (pre ++ (scanAll (binit bcache0)).2.2) = [Lock.eviction]) :=
  scan_holds_at_most_two_bucket_locks (binit bcache0) 1 0 1 (by decide)

/-- The function `bget` with its recorded steps ends as `bget` does. -/
theorem bgetTraced_fst (s : Bcache) (pid dev blockno : Nat) :
    (bgetTraced s pid dev blockno).1 = bget s pid dev blockno := by
  cases h : lookup s (BUFMAP_HASH dev blockno) dev blockno with
  | some b => simp only [bgetTraced, bget, h]
  | none =>
    simp only [bgetTraced, bget, bgetSlow, h]
    rw [scanAll_fst]
    cases findVictim s with
    | none => rfl
    | some c => rfl

set_option maxRecDepth 100000 in
/-- C22, as stated, fails. Process 2 is in the slow path of `bget(0, 1)`, target bucket 1,
while slot 29 has got the identity `(0, 1)`: the second lookup finds slot 29, and it walks the
chain of bucket 1 with the eviction lock held and the lock of bucket 1 not held. -/
theorem recheck_walks_without_bucket_lock :
    BUFMAP_HASH 0 1 = 1 ∧ lookup releasedState 1 0 1 = some 29 ∧
    (bgetSlow releasedState 2 0 1).2.take 2 = [Ev.acquire Lock.eviction, Ev.walk 1] ∧
    locksHeld [] ((bgetSlow releasedState 2 0 1).2.take 1) = [Lock.eviction] ∧
    Lock.bucket 1 ∉ locksHeld [] ((bgetSlow releasedState 2 0 1).2.take 1) := by
  decide

/-- C22, as amended. In the slow path of `bget`, when the second lookup finds the identity in
slot `b`: the chain of the target bucket is walked with the eviction lock held and no bucket
lock; the lock of the target bucket is then acquired, `b->refcnt++` is done under it (the count
goes up by 1 modulo `2 ^ 32`), and both locks are released; no slot is moved or gets a new
identity; the call then takes the lock of slot `b` and returns `b`, and it is suspended in
`acquiresleep` when another process holds that lock. -/
theorem bget_recheck_hit (s : Bcache) (pid dev blockno b : Nat)
    (h : lookup s (BUFMAP_HASH dev blockno) dev blockno = some b) :
    ∃ t,
      (bgetSlow s pid dev blockno).2 =
        [Ev.acquire Lock.eviction, Ev.walk (BUFMAP_HASH dev blockno),
          Ev.acquire (Lock.bucket (BUFMAP_HASH dev blockno)), Ev.incref b,
          Ev.release (Lock.bucket (BUFMAP_HASH dev blockno)), Ev.release Lock.eviction] ∧
      locksHeld [] ((bgetSlow s pid dev blockno).2.take 1) = [Lock.eviction] ∧
      locksHeld [] ((bgetSlow s pid dev blockno).2.take 3) =
        [Lock.bucket (BUFMAP_HASH dev blockno), Lock.eviction] ∧
      locksHeld [] (bgetSlow s pid dev blockno).2 = [] ∧
      (((s.get b).lock = none ∧ (bgetSlow s pid dev blockno).1 = BgetResult.ret t b) ∨
        ((s.get b).lock ≠ none ∧ (bgetSlow s pid dev blockno).1 = BgetResult.sleep t b)) ∧
      t.bufmap = s.bufmap ∧ t.disk = s.disk ∧
      (∀ x, (t.get x).dev = (s.get x).dev ∧ (t.get x).blockno = (s.get x).blockno ∧
        (t.get x).valid = (s.get x).valid ∧ (t.get x).lastuse = (s.get x).lastuse) ∧
      (b < s.buf.length → (t.get b).refcnt = ((s.get b).refcnt + 1) % UINT) ∧
      (∀ x, x ≠ b → (t.get x).refcnt = (s.get x).refcnt) := by
  have htr : (bgetSlow s pid dev blockno).2 =
      [Ev.acquire Lock.eviction, Ev.walk (BUFMAP_HASH dev blockno),
        Ev.acquire (Lock.bucket (BUFMAP_HASH dev blockno)), Ev.incref b,
        Ev.release (Lock.bucket (BUFMAP_HASH dev blockno)), Ev.release Lock.eviction] := by
    unfold bgetSlow
    rw [h]
  have hres : (bgetSlow s pid dev blockno).1 = acquiresleep (incref s b) pid b := by
    unfold bgetSlow
    rw [h]
  obtain ⟨t, h1, h2, h3, h4, h5, h6⟩ := acquiresleep_spec (incref s b) pid b
  have hf := get_incref_fields s b
  refine ⟨t, htr, by rw [htr]; rfl, by rw [htr]; rfl, by rw [htr]; simp [locksHeld], ?_, ?_,
    ?_, ?_, ?_, ?_⟩
  · rw [hres, ← (hf b).2.2.2.1]
    rcases h1 with ⟨a1, a2, -⟩ | ⟨a1, a2, -⟩
    · exact Or.inl ⟨a1, a2⟩
    · exact Or.inr ⟨a1, a2⟩
  · rw [h2, incref_bufmap]
  · rw [h3, incref_disk]
  · intro x
    obtain ⟨g1, g2, g3, -, g5⟩ := h6 x
    obtain ⟨f1, f2, f3, -, f5⟩ := hf x
    exact ⟨g2.trans f2, g3.trans f3, g1.trans f1, g5.trans f5⟩
  · intro hb
    rw [(h6 b).2.2.2.1, get_incref_self s b hb]
  · intro x hx
    rw [(h6 x).2.2.2.1, get_incref_ne s b x hx]

set_option maxRecDepth 100000 in
theorem bget_recheck_hit_witness :
    ∃ t,
      (bgetSlow releasedState 2 0 1).2 =
        [Ev.acquire Lock.eviction, Ev.walk (BUFMAP_HASH 0 1),
          Ev.acquire (Lock.bucket (BUFMAP_HASH 0 1)), Ev.incref 29,
          Ev.release (Lock.bucket (BUFMAP_HASH 0 1)), Ev.release Lock.eviction] ∧
      locksHeld [] ((bgetSlow releasedState 2 0 1).2.take 1) = [Lock.eviction] ∧
      locksHeld [] ((bgetSlow releasedState 2 0 1).2.take 3) =
        [Lock.bucket (BUFMAP_HASH 0 1), Lock.eviction] ∧
      locksHeld [] (bgetSlow releasedState 2 0 1).2 = [] ∧
      (((releasedState.get 29).lock = none ∧
          (bgetSlow releasedState 2 0 1).1 = BgetResult.ret t 29) ∨
        ((releasedState.get 29).lock ≠ none ∧
          (bgetSlow releasedState 2 0 1).1 = BgetResult.sleep t 29)) ∧
      t.bufmap = releasedState.bufmap ∧ t.disk = releasedState.disk ∧
      (∀ x, (t.get x).dev = (releasedState.get x).dev ∧
        (t.get x).blockno = (releasedState.get x).blockno ∧
        (t.get x).valid = (releasedState.get x).valid ∧
        (t.get x).lastuse = (releasedState.get x).lastuse) ∧
      (29 < releasedState.buf.length →
        (t.get 29).refcnt = ((releasedState.get 29).refcnt + 1) % UINT) ∧
      (∀ x, x ≠ 29 → (t.get x).refcnt = (releasedState.get x).refcnt) :=
  bget_recheck_hit releasedState 2 0 1 29 (by decide)

end Bio

namespace Kalloc

/-! ## A frame freed twice -/

/-- A chain that starts at a frame whose `next` field points to the frame itself is no list. -/
theorem not_isList_of_loop (next : Nat → Nat) (f : Nat) (h0 : f ≠ 0) (hloop : next f = f)
    (l : List Nat) : ¬ IsList next f l := by
  induction l with
  | nil => exact fun h => h0 h
  | cons a t ih =>
    rintro ⟨e, -, h⟩
    rw [← e, hloop] at h
    exact ih h

/-- With the list of core `c` not empty, `kalloc` on core `c` takes its head. -/
theorem kalloc_of_head_ne (s : Kmem) (c : Nat) (h : s.freelist c ≠ 0) :
    (kalloc s c).r = s.freelist c ∧
    (kalloc s c).state =
      (s.setHead c (s.next (s.freelist c))).setNext (s.freelist c) JUNK5 := by
  have e : afterSteal s c = (s, []) := by
    unfold afterSteal
    rw [if_neg h]
  refine ⟨?_, ?_⟩
  · show (afterSteal s c).1.freelist c = _
    rw [e]
  · show (if (afterSteal s c).1.freelist c ≠ 0 then _ else (afterSteal s c).1) = _
    rw [e, if_pos h]

/-- C24. `kfree` has no check for a frame that is already free. In a state whose free lists
are proper lists with no frame twice, for a page-aligned frame `f` of the managed range that is
the head of the free list of core `c`, `kfree(f)` on core `c` returns; afterwards `f` is the
head of that list and its `next` field points to `f` itself, so the chain from the head is no
list any more; and the next two calls of `kalloc` on core `c` both return `f`. -/
theorem kfree_twice_then_kalloc_twice (kend PHYSTOP : Nat) (s : Kmem) (ls : Nat → List Nat)
    (c f : Nat) (t : List Nat) (h : Pools s ls) (hc : c < NCPU) (hl : ls c = f :: t)
    (h1 : f % 4096 = 0) (h2 : kend ≤ f) (h3 : f < PHYSTOP) :
    ∃ s2, kfree kend PHYSTOP s c f = Bio.Ended.ok s2 ∧
      s2.freelist c = f ∧ s2.next f = f ∧
      (∀ l, ¬ IsList s2.next (s2.freelist c) l) ∧
      (kalloc s2 c).r = f ∧ (kalloc (kalloc s2 c).state c).r = f := by
  obtain ⟨e1, e2, -⟩ := pop_lists s ls c f t h.1 hc hl
  have g1 : ((s.setNext f (s.freelist c)).setHead c f).freelist c = f := upd_self _ _ _
  have g2 : ((s.setNext f (s.freelist c)).setHead c f).next f = f := by
    show upd s.next f (s.freelist c) f = f
    rw [upd_self, e1]
  refine ⟨_, kfree_ok kend PHYSTOP s c f h1 h2 h3, g1, g2, ?_, ?_⟩
  · intro l
    rw [g1]
    exact not_isList_of_loop _ f e2 g2 l
  · obtain ⟨k1, k2⟩ := kalloc_of_head_ne ((s.setNext f (s.freelist c)).setHead c f) c
      (by rw [g1]; exact e2)
    rw [g1] at k1
    rw [g1, g2] at k2
    have k3 : (kalloc ((s.setNext f (s.freelist c)).setHead c f) c).state.freelist c = f := by
      rw [k2]
      show upd _ c f c = f
      exact upd_self _ _ _
    refine ⟨k1, ?_⟩
    rw [(kalloc_of_head_ne _ c (by rw [k3]; exact e2)).1, k3]

theorem kfree_twice_then_kalloc_twice_witness :
    ∃ s2, kfree 4096 16384 demoKmem 1 8192 = Bio.Ended.ok s2 ∧
      s2.freelist 1 = 8192 ∧ s2.next 8192 = 8192 ∧
      (∀ l, ¬ IsList s2.next (s2.freelist 1) l) ∧
      (kalloc s2 1).r = 8192 ∧ (kalloc (kalloc s2 1).state 1).r = 8192 :=
  kfree_twice_then_kalloc_twice 4096 16384 demoKmem demoLists 1 8192 [4096] pools_demo
    (by decide) (by decide) (by decide) (by decide) (by decide)

end Kalloc

namespace Sysproc

/-! ## `sys_sbrk` with a negative argument -/

theorem ofInt_neg (n : Int) (h1 : n < 0) (h2 : -2 ^ 31 ≤ n) : ofInt n = (n + 2 ^ 64).toNat := by
  unfold ofInt U64
  have : n % ((2 ^ 64 : Nat) : Int) = n + 2 ^ 64 := by
    norm_num
    omega
  rw [this]

/-- The three ways `sys_sbrk` ends for an `int` argument `n < 0` and a size `sz`: with
`sz + n = 0` it returns `-1` and leaves the size; with `sz + n > 0` it calls
`uvmdealloc(sz, sz + n)`; with `sz + n < 0` the sum `p->sz + n` wraps to `sz + n + 2 ^ 64`, which
is greater than 0, and it calls `uvmdealloc` with that size and returns the old size. -/
theorem sys_sbrk_negative (uvmdealloc : Nat → Nat → Nat) (n : Int) (sz : Nat) (h1 : n < 0)
    (h2 : -2 ^ 31 ≤ n) (h3 : sz < 2 ^ 64) :
    ((sz : Int) + n = 0 → sys_sbrk uvmdealloc 0 n sz = ⟨ofInt (-1), sz⟩) ∧
    (0 < (sz : Int) + n →
      sys_sbrk uvmdealloc 0 n sz = ⟨ofInt (toInt32 sz), uvmdealloc sz ((sz : Int) + n).toNat⟩) ∧
    ((sz : Int) + n < 0 →
      sys_sbrk uvmdealloc 0 n sz =
        ⟨ofInt (toInt32 sz), uvmdealloc sz ((sz : Int) + n + 2 ^ 64).toNat⟩) := by
  have hn := ofInt_neg n h1 h2
  have hU : U64 = 2 ^ 64 := rfl
  have e0 : ¬ ((0 : Int) < 0) := by omega
  have e1 : ¬ (n > 0) := by omega
  refine ⟨?_, ?_, ?_⟩
  · intro h
    have hz : (sz + ofInt n) % U64 = 0 := by
      rw [hn, hU]
      omega
    simp only [sys_sbrk, if_neg e0, if_neg e1, hz, gt_iff_lt, lt_self_iff_false, if_false]
  · intro h
    have hz : (sz + ofInt n) % U64 = ((sz : Int) + n).toNat := by
      rw [hn, hU]
      omega
    have hp : (sz + ofInt n) % U64 > 0 := by
      rw [hz]
      omega
    simp only [sys_sbrk, if_neg e0, if_neg e1, if_pos hp]
    rw [hz]
  · intro h
    have hz : (sz + ofInt n) % U64 = ((sz : Int) + n + 2 ^ 64).toNat := by
      rw [hn, hU]
      omega
    have hp : (sz + ofInt n) % U64 > 0 := by
      rw [hz]
      omega
    simp only [sys_sbrk, if_neg e0, if_neg e1, if_pos hp]
    rw [hz]

/-- C23. The code at the size `sz = 4096` and the argument `n = -8192`, whose sum is below 0:
`p->sz + n` is computed as a `uint64` and is `2 ^ 64 - 4096`, the test `p->sz + n > 0` passes,
`uvmdealloc` is called with that new size, and `sys_sbrk` returns the old size 4096, not `-1`. -/
theorem sys_sbrk_below_zero_returns_size :
    ∀ uvmdealloc : Nat → Nat → Nat,
      (sys_sbrk uvmdealloc 0 (-8192) 4096).ret = 4096 ∧
      (sys_sbrk uvmdealloc 0 (-8192) 4096).ret ≠ ofInt (-1) ∧
      (sys_sbrk uvmdealloc 0 (-8192) 4096).sz = uvmdealloc 4096 (2 ^ 64 - 4096) := by
  intro u
  have e : (sys_sbrk u 0 (-8192) 4096).ret = 4096 := rfl
  refine ⟨e, ?_, rfl⟩
  rw [e]
  decide

end Sysproc
